import Mathlib

/-!
Verification development for the `pygame-resizability-functions` repository
(`src/main.py`).

The module under verification has two functions:

* `restricted_eval(expression, variables)` — builds the regex
  `\b(k1|k2|...|kn)\b` from the keys of `variables` (in dict insertion
  order), replaces each match by `str(value)`, then evaluates the resulting
  string with Python `eval` under the globals
  `{"__builtins__": None, "abs": abs, "round": round, "min": min,
  "max": max, **math-public-names}`.  If `eval` raises, it prints
  `Encountered '<e>' error in evaluating expression : <expression>` and
  terminates the process (`pygame.quit(); sys.exit()`).

* `get_scale_and_position_as_function_of_pygame_surface_dimensions` —
  builds `{f"{name}_width": w, f"{name}_height": h}`, evaluates the two
  scale expressions, extends the mapping with `x_scale`/`y_scale`, then
  evaluates the two position expressions, returning `(x, y, x_scale,
  y_scale)`.

Embedding choices (documented where they matter):

* Python numbers are modelled exactly: `int` as `Int`, `float` as an exact
  rational `ℚ`.  Values outside this idealisation (the irrational math
  constants `pi`/`e`/`tau`, `inf`/`nan`, and the results of transcendental
  math functions) are collapsed into an un-pinned value `Value.nonrat`;
  no theorem below pins the numeric content of such a value.
* Python `eval` is modelled on the fragment the two functions use:
  decimal numerals, identifiers, `+ - * / // % **`, parentheses, calls
  with comma-separated arguments, the keyword literals `True`/`False`/
  `None`, and conditional expressions `a if c else b` (which plain `eval`
  with emptied builtins still evaluates).  Comparison operators, boolean
  operators, lambdas, comprehensions, attribute access and exponent-form
  numeric literals are outside the modelled fragment (the tokenizer or
  parser rejects them).
* The regex word class `\w` is modelled as ASCII `[A-Za-z0-9_]`.
* `str` of a float is modelled for nonnegative exact decimals in the
  range where CPython prints a plain (non-exponent) decimal.
-/

/- `Rat.add`, `Rat.mul`, `Rat.inv` and `Rat.sub` are `@[irreducible]` in
Batteries, which blocks `decide`-style evaluation of concrete rational
arithmetic; restore the default reducibility inside this file so that
witnesses can be checked by evaluation. -/
attribute [local semireducible] Rat.add Rat.mul Rat.inv Rat.sub

instance {e a : Type} [DecidableEq e] [DecidableEq a] : DecidableEq (Except e a) := fun x y =>
  match x, y with
  | .ok v, .ok w =>
    if h : v = w then isTrue (by rw [h]) else isFalse (by intro hh; cases hh; exact h rfl)
  | .ok _, .error _ => isFalse (by intro hh; cases hh)
  | .error _, .ok _ => isFalse (by intro hh; cases hh)
  | .error v, .error w =>
    if h : v = w then isTrue (by rw [h]) else isFalse (by intro hh; cases hh; exact h rfl)

/-- Identifiers for the callable objects reachable from the restricted
environment.  The functions whose exact value the claims never need
(`sin`, `log`, `hypot`, ...) share the constructor `otherF`; applying one
returns the unpinned value `Value.nonrat`. -/
inductive Fn : Type
  | absF : Fn
  | roundF : Fn
  | minF : Fn
  | maxF : Fn
  | floorF : Fn
  | ceilF : Fn
  | truncF : Fn
  | fabsF : Fn
  | sqrtF : Fn
  | isqrtF : Fn
  | gcdF : Fn
  | factF : Fn
  | otherF : String → Fn
  deriving DecidableEq, Repr

/-- A Python runtime value of the modelled fragment: an `int`, an exact
`float` (idealised as a rational), `None`, a builtin/math function
object, or an unpinned non-rational float-like value (`pi`, results of
`sin`, ...; no theorem below pins the numeric content of `nonrat`). -/
inductive Value : Type
  | int : Int → Value
  | float : ℚ → Value
  | pynone : Value
  | func : Fn → Value
  | nonrat : Value
  deriving DecidableEq, Repr

/-- Errors Python `eval` can raise on the modelled fragment.
`noneSubscript` is what an unknown bare identifier produces here: the
name misses the globals, CPython then subscripts `__builtins__` — which
the source bound to `None` — and raises
`TypeError: 'NoneType' object is not subscriptable` (not a `NameError`,
which would need a usable builtins mapping). -/
inductive PyErr : Type
  | noneSubscript : PyErr
  | zeroDiv : PyErr
  | typeErr : PyErr
  | valueErr : PyErr
  | synErr : PyErr
  | unsupported : PyErr
  deriving DecidableEq, Repr

/-- Errors that escape `restricted_eval` from *outside* the `try` block:
the `KeyError` raised by the replacement callback when the matched group
is not a key of `variables` (which happens exactly via the empty
alternative of `\b()\b`), and the marker for a `str(value)` call that
does not return a plain decimal — in particular the `ValueError` CPython
raises inside `replace_var` for an int of more than 4300 digits. -/
inductive SubstErr : Type
  | keyErr : SubstErr
  | unrep : SubstErr
  deriving DecidableEq, Repr

/-- The observable outcome of a call to `restricted_eval`: a returned
value, a whole-process termination after printing the given diagnostic
line (the `except` branch: `print(...); pygame.quit(); sys.exit()`), or
an exception propagating out of the function with nothing printed. -/
inductive Outcome (α : Type) : Type
  | ok : α → Outcome α
  | fatalExit : String → Outcome α
  | uncaught : SubstErr → Outcome α
  deriving DecidableEq, Repr

/-- The variable mapping: a Python dict in insertion order. -/
abbrev Dict : Type := List (String × Value)

/-- First-binding lookup, as in a Python dict (keys are unique there, so
first-binding lookup is exact). -/
def dlookup : List (String × Value) → String → Option Value
  | [], _ => none
  | (k, v) :: rest, n => if k = n then some v else dlookup rest n

/-- ASCII model of the regex word class `\w`. -/
def isWordChar (c : Char) : Bool :=
  (('a' ≤ c && c ≤ 'z') || ('A' ≤ c && c ≤ 'Z') || ('0' ≤ c && c ≤ '9') || c = '_')

/-- Big-endian decimal digit characters of a positive natural number;
the fuel (`n + 1` at the wrapper, far more than the digit count) only
makes the recursion structural. -/
def renderNatAux : Nat → Nat → List Char
  | 0, _ => []
  | fuel + 1, n =>
    if n = 0 then [] else renderNatAux fuel (n / 10) ++ [Nat.digitChar (n % 10)]

/-- Big-endian decimal digit characters of a natural number. -/
def renderNat (n : Nat) : List Char :=
  if n = 0 then ['0'] else renderNatAux (n + 1) n

/-- `str` of a Python `int`. -/
def renderInt (n : Int) : List Char :=
  if n < 0 then '-' :: renderNat n.natAbs else renderNat n.natAbs

/-- Number of decimal digits needed so that `q * 10^k` is an integer,
searching up to the given bound. -/
def decExp (q : ℚ) : Nat → Option Nat
  | 0 => if (q * (10 : ℚ) ^ (0 : Nat)).den = 1 then some 0 else none
  | n + 1 =>
    match decExp q n with
    | some k => some k
    | none => if (q * (10 : ℚ) ^ (n + 1)).den = 1 then some (n + 1) else none

/-- `str` of a nonnegative Python float whose exact value is the rational
`q`, restricted to the domain where CPython prints a plain decimal
(`0` or magnitude in `[1e-4, 1e16)`, at most 16 fractional digits).
Outside that domain the model returns `none` ("not representable in the
idealisation") rather than inventing a string. -/
def floatStr (q : ℚ) : Option (List Char) :=
  if 0 ≤ q ∧ (q = 0 ∨ (1 : ℚ) / 10000 ≤ q) ∧ q < (10 : ℚ) ^ (16 : Nat) then
    match decExp q 16 with
    | none => none
    | some k =>
      let k' := max k 1
      let ip := q.floor.toNat
      let fr := ((q - q.floor) * (10 : ℚ) ^ k').num.toNat
      let frDigits := renderNat fr
      let pad := List.replicate (k' - frDigits.length) '0'
      some (renderNat ip ++ '.' :: (pad ++ frDigits))
  else none

/-- `str(value)` as used by the replacement callback `replace_var`.
`none` marks a `str` call that does not return a plain decimal: for an
int, CPython 3.11 raises
`ValueError: Exceeds the limit (4300 digits) for integer string conversion`
whenever the magnitude has more than `sys.get_int_max_str_digits() = 4300`
decimal digits (the sign is not counted), so `str` of such an int fails
instead of producing a string; for a float, `none` marks a value outside
the plain-decimal idealisation. -/
def pyStr : Value → Option (List Char)
  | .int n =>
    if (renderNat n.natAbs).length ≤ 4300 then some (renderInt n) else none
  | .float q => floatStr q
  | .pynone => some ['N', 'o', 'n', 'e']
  | .func _ => none
  | .nonrat => none

/-- The alternation list of the substitution pattern
`\b(" + "|".join(re.escape(key) for key in variables.keys()) + ")\b"`:
the keys in dict order, except that an *empty* key list yields the single
empty alternative (the pattern is then `\b()\b`). -/
def altList (d : Dict) : List String :=
  match d.map Prod.fst with
  | [] => [""]
  | ks => ks

/-- Word-boundary test between a previous character (described by whether
it was a word character; `false` at the start of the string) and the rest
of the input. -/
def boundary (prevW : Bool) (s : List Char) : Bool :=
  match s with
  | [] => prevW
  | c :: _ => prevW != isWordChar c

/-- Does alternative `k` match at the current position (the start of `s`),
i.e. is `k` a prefix of `s` followed by a word boundary?  The boundary
before the position is checked by the caller.  Returns the rest of the
input after the match. -/
def altMatch (prevW : Bool) (k : List Char) (s : List Char) : Option (List Char) :=
  match k, s with
  | [], _ => if boundary prevW s then some s else none
  | _ :: _, [] => none
  | a :: k', c :: s' => if a = c then altMatch (isWordChar a) k' s' else none

/-- Try the alternatives in order at the current position (regex
alternation order), returning the matched key and the rest of the input. -/
def tryAlts (prevW : Bool) (alts : List String) (s : List Char) :
    Option (String × List Char) :=
  match alts with
  | [] => none
  | k :: rest =>
    match altMatch prevW k.toList s with
    | some s' => some (k, s')
    | none => tryAlts prevW rest s

theorem altMatch_length {p : Bool} {k s s' : List Char}
    (h : altMatch p k s = some s') : s.length = k.length + s'.length := by
  induction k generalizing p s with
  | nil =>
    unfold altMatch at h
    split at h
    · cases h; simp
    · exact absurd h (by simp)
  | cons a k' ih =>
    cases s with
    | nil => exact absurd h (by simp [altMatch])
    | cons c s2 =>
      unfold altMatch at h
      split at h
      · have := ih h
        simp only [List.length_cons]
        omega
      · exact absurd h (by simp)

theorem tryAlts_length {p : Bool} {alts : List String} {k : String}
    {s s' : List Char} (h : tryAlts p alts s = some (k, s')) :
    s.length = k.length + s'.length := by
  induction alts with
  | nil => exact absurd h (by simp [tryAlts])
  | cons a rest ih =>
    unfold tryAlts at h
    split at h
    next s2 hm =>
      cases h
      exact altMatch_length hm
    next => exact ih h

/-- Word-character status of the last character of a matched key: the
scan continues after a nonempty match with this as the previous
character. -/
def lastWord (k : String) : Bool :=
  match k.toList.getLast? with
  | some c => isWordChar c
  | none => false

/-- One left-to-right pass of `pattern.sub(replace_var, expression)` for
the pattern `\\b(alternation of the keys)\\b`: at each position with a word
boundary, the alternatives are tried in order; a match is replaced by
`str(variables[match.group(0)])` (`KeyError` when the matched text — the
empty alternative of `\\b()\\b` — is not a key); an empty match consumes no
input, so the scan then copies one character and continues, as CPython
`re.sub` does.  The fuel argument only makes the recursion structural:
every step consumes at least one character, so the wrapper `subst`
passes `length + 1`, which is always sufficient (the `fuel = 0` branch
is unreachable from `subst`; all lemmas below carry `s.length < fuel`). -/
def substAux (d : Dict) : Nat → Bool → List Char → Except SubstErr (List Char)
  | 0, _, _ => .error .unrep
  | fuel + 1, prevW, s =>
    if boundary prevW s then
      match tryAlts prevW (altList d) s with
      | some (k, s2) =>
        match dlookup d k with
        | none => .error .keyErr
        | some v =>
          match pyStr v with
          | none => .error .unrep
          | some repl =>
            if k.length = 0 then
              match s with
              | [] => .ok repl
              | c :: s3 =>
                (substAux d fuel (isWordChar c) s3).map (fun t => repl ++ c :: t)
            else
              (substAux d fuel (lastWord k) s2).map (fun t => repl ++ t)
      | none =>
        match s with
        | [] => .ok []
        | c :: s3 => (substAux d fuel (isWordChar c) s3).map (fun t => c :: t)
    else
      match s with
      | [] => .ok []
      | c :: s3 => (substAux d fuel (isWordChar c) s3).map (fun t => c :: t)

/-- The whole substitution phase of `restricted_eval`:
`pattern.sub(replace_var, expression)`. -/
def subst (d : Dict) (s : List Char) : Except SubstErr (List Char) :=
  substAux d (s.length + 1) false s

/-- Tokens of the modelled fragment of Python's expression grammar.
`True`/`False`/`None` lex directly to literal tokens (CPython compiles
these keywords to constants; `True`/`False` behave as the ints `1`/`0`
in arithmetic). -/
inductive Tok : Type
  | num : Value → Tok
  | name : String → Tok
  | kwIf : Tok
  | kwElse : Tok
  | plus : Tok
  | minus : Tok
  | star : Tok
  | slash : Tok
  | dslash : Tok
  | percent : Tok
  | dstar : Tok
  | lparen : Tok
  | rparen : Tok
  | comma : Tok
  deriving DecidableEq, Repr

/-- Decimal digit test (kept primitive so that proofs can relate it to
`isWordChar` by unfolding). -/
def isDigitC (c : Char) : Bool := ('0' ≤ c && c ≤ '9')

/-- Letter-or-underscore test: the characters that may start an
identifier token. -/
def isIdentStart (c : Char) : Bool :=
  (('a' ≤ c && c ≤ 'z') || ('A' ≤ c && c ≤ 'Z') || c = '_')

/-- Big-endian decimal digit accumulation. -/
def parseDigits (cs : List Char) : Nat :=
  cs.foldl (fun a c => 10 * a + (c.toNat - 48)) 0

/-- Read one numeric literal (digits, optionally a dot and more digits).
A word character directly after the literal is a lexical error (CPython:
`invalid decimal literal`; this also keeps exponent-form literals such
as `1e5` outside the modelled fragment instead of mislexing them). -/
def readNum (s : List Char) : Except PyErr Value × List Char :=
  let ds := List.takeWhile isDigitC s
  let r1 := List.dropWhile isDigitC s
  match r1 with
  | c1 :: r2 =>
    if c1 = '.' then
      let fs := List.takeWhile isDigitC r2
      let r3 := List.dropWhile isDigitC r2
      let v : Value := .float ((parseDigits ds : ℚ) +
        (parseDigits fs : ℚ) / (10 : ℚ) ^ fs.length)
      match r3 with
      | c :: _ => if isWordChar c then (.error .synErr, r3) else (.ok v, r3)
      | [] => (.ok v, [])
    else if isWordChar c1 then (.error .synErr, c1 :: r2)
    else (.ok (.int (parseDigits ds)), c1 :: r2)
  | [] => (.ok (.int (parseDigits ds)), [])

theorem length_dropWhile_le (p : Char → Bool) (l : List Char) :
    (List.dropWhile p l).length ≤ l.length := by
  induction l with
  | nil => simp [List.dropWhile]
  | cons c t ih =>
    by_cases h : p c
    · simp [List.dropWhile, h]; omega
    · simp [List.dropWhile, h]

theorem readNum_length (s : List Char) : (readNum s).2.length ≤ s.length := by
  unfold readNum
  simp only []
  split
  next c1 r2 heq =>
    have hA := length_dropWhile_le isDigitC s
    rw [heq] at hA
    simp only [List.length_cons] at hA
    have hB := length_dropWhile_le isDigitC r2
    by_cases hdot : c1 = '.'
    · rw [if_pos hdot]
      split
      next c r heq2 => split <;> (dsimp only; omega)
      next => simp
    · rw [if_neg hdot]
      split <;> (dsimp only; simp only [List.length_cons]; omega)
  next => simp

theorem readNum_length_digit (c : Char) (s : List Char) (h : isDigitC c = true) :
    (readNum (c :: s)).2.length ≤ s.length := by
  have key : List.dropWhile isDigitC (c :: s) = List.dropWhile isDigitC s := by
    simp [List.dropWhile, h]
  unfold readNum
  simp only [key]
  split
  next c1 r2 heq =>
    have hA := length_dropWhile_le isDigitC s
    rw [heq] at hA
    simp only [List.length_cons] at hA
    have hB := length_dropWhile_le isDigitC r2
    by_cases hdot : c1 = '.'
    · rw [if_pos hdot]
      split
      next c2 r heq2 => split <;> (dsimp only; omega)
      next => simp
    · rw [if_neg hdot]
      split <;> (dsimp only; simp only [List.length_cons]; omega)
  next => simp

/-- Classify a completed identifier-shaped word: the keywords of the
modelled fragment lex to dedicated tokens, `True`/`False`/`None` to
constant literals, anything else to a name. -/
def wordTok (w : String) : Tok :=
  if w = "if" then .kwIf
  else if w = "else" then .kwElse
  else if w = "True" then .num (.int 1)
  else if w = "False" then .num (.int 0)
  else if w = "None" then .num .pynone
  else .name w

theorem identStart_word {c : Char} (h : isIdentStart c = true) :
    isWordChar c = true := by
  unfold isIdentStart at h
  unfold isWordChar
  simp only [Bool.or_eq_true] at *
  tauto

theorem readNum_length_dot (s2 : List Char) :
    (readNum ('.' :: s2)).2.length ≤ s2.length := by
  have h0 : isDigitC '.' = false := by decide
  have h1 : List.dropWhile isDigitC ('.' :: s2) = '.' :: s2 := by
    simp [List.dropWhile, h0]
  unfold readNum
  simp only [h1]
  have h3 := length_dropWhile_le isDigitC s2
  split
  · split
    next c r heq =>
      have h4 := h3
      rw [heq] at h4
      simp only [List.length_cons] at h4
      split <;> (dsimp only; first | omega | (simp only [List.length_cons]; omega))
    next => simp
  next h => exact absurd trivial h

theorem dropWhile_word_lt (c : Char) (s2 : List Char)
    (h : isIdentStart c = true) :
    (List.dropWhile isWordChar (c :: s2)).length < s2.length + 1 := by
  have hw := identStart_word h
  have h1 : List.dropWhile isWordChar (c :: s2) = List.dropWhile isWordChar s2 := by
    simp [List.dropWhile, hw]
  rw [h1]
  have := length_dropWhile_le isWordChar s2
  omega

/-- The lexer of the modelled fragment of Python's expression grammar:
spaces, decimal numerals (`12`, `1.5`, `1.`, `.5`), identifier words,
the operators `+ - * / // % **`, parentheses and commas.  Any other
character (including a dot that does not start or continue a numeral) is
a syntax error, as is an identifier character directly after a numeral.
The fuel only makes the recursion structural: every step consumes at
least one character, so `tokenize` passes `length + 1` (the `fuel = 0`
branch is unreachable from `tokenize`). -/
def tokenizeF : Nat → List Char → Except PyErr (List Tok)
  | 0, _ => .error .unsupported
  | fuel + 1, s =>
    match s with
    | [] => .ok []
    | c :: s2 =>
      if c = ' ' then tokenizeF fuel s2
      else if isDigitC c then
        match (readNum (c :: s2)).1 with
        | .ok v => (tokenizeF fuel (readNum (c :: s2)).2).map (fun ts => Tok.num v :: ts)
        | .error e => .error e
      else if c = '.' then
        if (match s2 with | c2 :: _ => isDigitC c2 | [] => false) then
          match (readNum (c :: s2)).1 with
          | .ok v => (tokenizeF fuel (readNum (c :: s2)).2).map (fun ts => Tok.num v :: ts)
          | .error e => .error e
        else .error .synErr
      else if isIdentStart c then
        (tokenizeF fuel (List.dropWhile isWordChar (c :: s2))).map
          (fun ts => wordTok (String.mk (List.takeWhile isWordChar (c :: s2))) :: ts)
      else if c = '+' then (tokenizeF fuel s2).map (fun ts => Tok.plus :: ts)
      else if c = '-' then (tokenizeF fuel s2).map (fun ts => Tok.minus :: ts)
      else if c = '*' then
        match s2 with
        | [] => (tokenizeF fuel []).map (fun ts => Tok.star :: ts)
        | c2 :: s3 =>
          if c2 = '*' then (tokenizeF fuel s3).map (fun ts => Tok.dstar :: ts)
          else (tokenizeF fuel (c2 :: s3)).map (fun ts => Tok.star :: ts)
      else if c = '/' then
        match s2 with
        | [] => (tokenizeF fuel []).map (fun ts => Tok.slash :: ts)
        | c2 :: s3 =>
          if c2 = '/' then (tokenizeF fuel s3).map (fun ts => Tok.dslash :: ts)
          else (tokenizeF fuel (c2 :: s3)).map (fun ts => Tok.slash :: ts)
      else if c = '%' then (tokenizeF fuel s2).map (fun ts => Tok.percent :: ts)
      else if c = '(' then (tokenizeF fuel s2).map (fun ts => Tok.lparen :: ts)
      else if c = ')' then (tokenizeF fuel s2).map (fun ts => Tok.rparen :: ts)
      else if c = ',' then (tokenizeF fuel s2).map (fun ts => Tok.comma :: ts)
      else .error .synErr

/-- Lex a whole string (always-sufficient fuel supplied). -/
def tokenize (s : List Char) : Except PyErr (List Tok) :=
  tokenizeF (s.length + 1) s

/-- Python `+` on the modelled values.  `None` and function objects do
not support arithmetic (`TypeError`); an operation touching an unpinned
value yields an unpinned value. -/
def addV : Value → Value → Except PyErr Value
  | .pynone, _ => .error .typeErr
  | _, .pynone => .error .typeErr
  | .func _, _ => .error .typeErr
  | _, .func _ => .error .typeErr
  | .nonrat, _ => .ok .nonrat
  | _, .nonrat => .ok .nonrat
  | .int a, .int b => .ok (.int (a + b))
  | .int a, .float b => .ok (.float ((a : ℚ) + b))
  | .float a, .int b => .ok (.float (a + (b : ℚ)))
  | .float a, .float b => .ok (.float (a + b))

/-- Python binary `-`. -/
def subV : Value → Value → Except PyErr Value
  | .pynone, _ => .error .typeErr
  | _, .pynone => .error .typeErr
  | .func _, _ => .error .typeErr
  | _, .func _ => .error .typeErr
  | .nonrat, _ => .ok .nonrat
  | _, .nonrat => .ok .nonrat
  | .int a, .int b => .ok (.int (a - b))
  | .int a, .float b => .ok (.float ((a : ℚ) - b))
  | .float a, .int b => .ok (.float (a - (b : ℚ)))
  | .float a, .float b => .ok (.float (a - b))

/-- Python `*`. -/
def mulV : Value → Value → Except PyErr Value
  | .pynone, _ => .error .typeErr
  | _, .pynone => .error .typeErr
  | .func _, _ => .error .typeErr
  | _, .func _ => .error .typeErr
  | .nonrat, _ => .ok .nonrat
  | _, .nonrat => .ok .nonrat
  | .int a, .int b => .ok (.int (a * b))
  | .int a, .float b => .ok (.float ((a : ℚ) * b))
  | .float a, .int b => .ok (.float (a * (b : ℚ)))
  | .float a, .float b => .ok (.float (a * b))

/-- Is this value the number zero (for the divisor checks)? -/
def isZeroV : Value → Bool
  | .int a => a = 0
  | .float q => q = 0
  | _ => false

/-- Python true division `/`: always a float, `ZeroDivisionError` on a
zero divisor. -/
def divV : Value → Value → Except PyErr Value
  | .pynone, _ => .error .typeErr
  | _, .pynone => .error .typeErr
  | .func _, _ => .error .typeErr
  | _, .func _ => .error .typeErr
  | a, b =>
    if isZeroV b then .error .zeroDiv
    else
      match a, b with
      | .int x, .int y => .ok (.float ((x : ℚ) / (y : ℚ)))
      | .int x, .float y => .ok (.float ((x : ℚ) / y))
      | .float x, .int y => .ok (.float (x / (y : ℚ)))
      | .float x, .float y => .ok (.float (x / y))
      | _, _ => .ok .nonrat

/-- Python floor division `//`: floor of the quotient, int on ints,
float otherwise. -/
def fdivV : Value → Value → Except PyErr Value
  | .pynone, _ => .error .typeErr
  | _, .pynone => .error .typeErr
  | .func _, _ => .error .typeErr
  | _, .func _ => .error .typeErr
  | a, b =>
    if isZeroV b then .error .zeroDiv
    else
      match a, b with
      | .int x, .int y => .ok (.int (Int.fdiv x y))
      | .int x, .float y => .ok (.float (((x : ℚ) / y).floor : ℚ))
      | .float x, .int y => .ok (.float ((x / (y : ℚ)).floor : ℚ))
      | .float x, .float y => .ok (.float ((x / y).floor : ℚ))
      | _, _ => .ok .nonrat

/-- Python `%`: remainder with the sign of the divisor
(`a - b * floor(a / b)`). -/
def modV : Value → Value → Except PyErr Value
  | .pynone, _ => .error .typeErr
  | _, .pynone => .error .typeErr
  | .func _, _ => .error .typeErr
  | _, .func _ => .error .typeErr
  | a, b =>
    if isZeroV b then .error .zeroDiv
    else
      match a, b with
      | .int x, .int y => .ok (.int (Int.fmod x y))
      | .int x, .float y => .ok (.float ((x : ℚ) - y * (((x : ℚ) / y).floor : ℚ)))
      | .float x, .int y => .ok (.float (x - (y : ℚ) * ((x / (y : ℚ)).floor : ℚ)))
      | .float x, .float y => .ok (.float (x - y * ((x / y).floor : ℚ)))
      | _, _ => .ok .nonrat

/-- Python `**` on a rational base with an integer exponent (the result
is exact); `0` to a negative power raises `ZeroDivisionError`. -/
def qpow (q : ℚ) (k : Int) : Except PyErr ℚ :=
  if 0 ≤ k then .ok (q ^ k.toNat)
  else if q = 0 then .error .zeroDiv
  else .ok (q ^ k)

/-- Python `**`.  An int base with a nonnegative int exponent stays an
int; a negative int exponent or a float operand gives a float.  A
non-integral float exponent leaves the rational idealisation (CPython
returns a float, or a complex number for a negative base) and yields the
unpinned value. -/
def powV : Value → Value → Except PyErr Value
  | .pynone, _ => .error .typeErr
  | _, .pynone => .error .typeErr
  | .func _, _ => .error .typeErr
  | _, .func _ => .error .typeErr
  | .nonrat, _ => .ok .nonrat
  | _, .nonrat => .ok .nonrat
  | .int a, .int k =>
    if 0 ≤ k then .ok (.int (a ^ k.toNat))
    else if a = 0 then .error .zeroDiv
    else .ok (.float ((a : ℚ) ^ k))
  | .float q, .int k => (qpow q k).map .float
  | .int a, .float e =>
    if e.den = 1 then (qpow (a : ℚ) e.num).map .float else .ok .nonrat
  | .float q, .float e =>
    if e.den = 1 then (qpow q e.num).map .float else .ok .nonrat

/-- Python unary `-`. -/
def negV : Value → Except PyErr Value
  | .int a => .ok (.int (-a))
  | .float q => .ok (.float (-q))
  | .nonrat => .ok .nonrat
  | _ => .error .typeErr

/-- Python unary `+`. -/
def posV : Value → Except PyErr Value
  | .int a => .ok (.int a)
  | .float q => .ok (.float q)
  | .nonrat => .ok .nonrat
  | _ => .error .typeErr

/-- Python truthiness of the modelled values.  Whether an unpinned
transcendental value is zero is outside the idealisation. -/
def truthy : Value → Except PyErr Bool
  | .int a => .ok (a ≠ 0)
  | .float q => .ok (q ≠ 0)
  | .pynone => .ok false
  | .func _ => .ok true
  | .nonrat => .error .unsupported

/-- Round half to even (Python `round`). -/
def roundHalfEven (q : ℚ) : Int :=
  let f := q.floor
  let r := q - (f : ℚ)
  if r < 1 / 2 then f
  else if 1 / 2 < r then f + 1
  else if f % 2 = 0 then f else f + 1

/-- Comparison-based fold used by `min`/`max`: keeps the first extremal
argument, as CPython does. -/
def selectBy (lt : ℚ → ℚ → Bool) (c : Value) : List Value → Except PyErr Value
  | [] => .ok c
  | v :: rest =>
    match c, v with
    | .nonrat, _ => .ok .nonrat
    | _, .nonrat => .ok .nonrat
    | .int a, .int b => selectBy lt (if lt (b : ℚ) (a : ℚ) then .int b else .int a) rest
    | .int a, .float b => selectBy lt (if lt b (a : ℚ) then .float b else .int a) rest
    | .float a, .int b => selectBy lt (if lt (b : ℚ) a then .int b else .float a) rest
    | .float a, .float b => selectBy lt (if lt b a then .float b else .float a) rest
    | _, _ => .error .typeErr

/-- Application of the modelled callables.  Wrong arities and non-number
arguments raise `TypeError` as CPython does; `sqrt` is exact on perfect
squares of rationals and unpinned otherwise. -/
def applyFn : Fn → List Value → Except PyErr Value
  | .absF, [.int a] => .ok (.int |a|)
  | .absF, [.float q] => .ok (.float |q|)
  | .absF, [.nonrat] => .ok .nonrat
  | .absF, _ => .error .typeErr
  | .roundF, [.int a] => .ok (.int a)
  | .roundF, [.float q] => .ok (.int (roundHalfEven q))
  | .roundF, [.nonrat] => .ok .nonrat
  | .roundF, [.int a, .int k] =>
    if 0 ≤ k then .ok (.int a)
    else
      let p : Int := 10 ^ (-k).toNat
      .ok (.int (roundHalfEven ((a : ℚ) / (p : ℚ)) * p))
  | .roundF, [.float q, .int k] =>
    .ok (.float (((roundHalfEven (q * (10 : ℚ) ^ k) : ℚ)) / (10 : ℚ) ^ k))
  | .roundF, [.nonrat, .int _] => .ok .nonrat
  | .roundF, _ => .error .typeErr
  | .minF, v :: w :: rest => selectBy (fun x y => x < y) v (w :: rest)
  | .minF, _ => .error .typeErr
  | .maxF, v :: w :: rest => selectBy (fun x y => y < x) v (w :: rest)
  | .maxF, _ => .error .typeErr
  | .floorF, [.int a] => .ok (.int a)
  | .floorF, [.float q] => .ok (.int q.floor)
  | .floorF, [.nonrat] => .ok .nonrat
  | .floorF, _ => .error .typeErr
  | .ceilF, [.int a] => .ok (.int a)
  | .ceilF, [.float q] => .ok (.int q.ceil)
  | .ceilF, [.nonrat] => .ok .nonrat
  | .ceilF, _ => .error .typeErr
  | .truncF, [.int a] => .ok (.int a)
  | .truncF, [.float q] => .ok (.int (if 0 ≤ q then q.floor else q.ceil))
  | .truncF, [.nonrat] => .ok .nonrat
  | .truncF, _ => .error .typeErr
  | .fabsF, [.int a] => .ok (.float |(a : ℚ)|)
  | .fabsF, [.float q] => .ok (.float |q|)
  | .fabsF, [.nonrat] => .ok .nonrat
  | .fabsF, _ => .error .typeErr
  | .sqrtF, [.int a] =>
    if a < 0 then .error .valueErr
    else if (Nat.sqrt a.toNat) ^ 2 = a.toNat then .ok (.float (Nat.sqrt a.toNat : ℚ))
    else .ok .nonrat
  | .sqrtF, [.float q] =>
    if q < 0 then .error .valueErr
    else if (Nat.sqrt q.num.toNat) ^ 2 = q.num.toNat ∧ (Nat.sqrt q.den) ^ 2 = q.den then
      .ok (.float ((Nat.sqrt q.num.toNat : ℚ) / (Nat.sqrt q.den : ℚ)))
    else .ok .nonrat
  | .sqrtF, [.nonrat] => .ok .nonrat
  | .sqrtF, _ => .error .typeErr
  | .isqrtF, [.int a] =>
    if a < 0 then .error .valueErr else .ok (.int (Nat.sqrt a.toNat))
  | .isqrtF, _ => .error .typeErr
  | .gcdF, args =>
    if args.all (fun v => match v with | .int _ => true | _ => false) then
      .ok (.int ((args.foldl
        (fun (g : Nat) v => match v with | .int a => Nat.gcd g a.natAbs | _ => g) 0 : Nat) : Int))
    else .error .typeErr
  | .factF, [.int a] =>
    if a < 0 then .error .valueErr else .ok (.int (Nat.factorial a.toNat))
  | .factF, _ => .error .typeErr
  | .otherF _, _ => .ok .nonrat

/-- The public (no-double-underscore) members of the CPython 3.11 `math`
module, as collected by
`{k: v for k, v in math.__dict__.items() if not k.startswith("__")}`.
Functions without an exact rational meaning map to `otherF`; the
constants `e`/`inf`/`nan`/`pi`/`tau` are unpinned values. -/
def mathPublic : List (String × Value) :=
  [("acos", .func (.otherF "acos")), ("acosh", .func (.otherF "acosh")),
   ("asin", .func (.otherF "asin")), ("asinh", .func (.otherF "asinh")),
   ("atan", .func (.otherF "atan")), ("atan2", .func (.otherF "atan2")),
   ("atanh", .func (.otherF "atanh")), ("cbrt", .func (.otherF "cbrt")),
   ("ceil", .func .ceilF), ("comb", .func (.otherF "comb")),
   ("copysign", .func (.otherF "copysign")), ("cos", .func (.otherF "cos")),
   ("cosh", .func (.otherF "cosh")), ("degrees", .func (.otherF "degrees")),
   ("dist", .func (.otherF "dist")), ("e", .nonrat),
   ("erf", .func (.otherF "erf")), ("erfc", .func (.otherF "erfc")),
   ("exp", .func (.otherF "exp")), ("exp2", .func (.otherF "exp2")),
   ("expm1", .func (.otherF "expm1")), ("fabs", .func .fabsF),
   ("factorial", .func .factF), ("floor", .func .floorF),
   ("fmod", .func (.otherF "fmod")), ("frexp", .func (.otherF "frexp")),
   ("fsum", .func (.otherF "fsum")), ("gamma", .func (.otherF "gamma")),
   ("gcd", .func .gcdF), ("hypot", .func (.otherF "hypot")),
   ("inf", .nonrat), ("isclose", .func (.otherF "isclose")),
   ("isfinite", .func (.otherF "isfinite")), ("isinf", .func (.otherF "isinf")),
   ("isnan", .func (.otherF "isnan")), ("isqrt", .func .isqrtF),
   ("lcm", .func (.otherF "lcm")), ("ldexp", .func (.otherF "ldexp")),
   ("lgamma", .func (.otherF "lgamma")), ("log", .func (.otherF "log")),
   ("log10", .func (.otherF "log10")), ("log1p", .func (.otherF "log1p")),
   ("log2", .func (.otherF "log2")), ("modf", .func (.otherF "modf")),
   ("nan", .nonrat), ("nextafter", .func (.otherF "nextafter")),
   ("perm", .func (.otherF "perm")), ("pi", .nonrat),
   ("pow", .func (.otherF "pow")), ("prod", .func (.otherF "prod")),
   ("radians", .func (.otherF "radians")), ("remainder", .func (.otherF "remainder")),
   ("sin", .func (.otherF "sin")), ("sinh", .func (.otherF "sinh")),
   ("sqrt", .func .sqrtF), ("tan", .func (.otherF "tan")),
   ("tanh", .func (.otherF "tanh")), ("tau", .nonrat),
   ("trunc", .func .truncF), ("ulp", .func (.otherF "ulp"))]

/-- The `allowed_names` dict of `restricted_eval`: `abs`, `round`,
`min`, `max`, then the public math members. -/
def allowed_names : List (String × Value) :=
  [("abs", .func .absF), ("round", .func .roundF),
   ("min", .func .minF), ("max", .func .maxF)] ++ mathPublic

/-- The `safe_env` globals dict passed to `eval`:
`{"__builtins__": None}` updated with `allowed_names` (so the name
`__builtins__` itself resolves to `None` inside an evaluated
expression). -/
def safe_env : List (String × Value) :=
  ("__builtins__", .pynone) :: allowed_names

/-- Abstract syntax of the modelled fragment of Python expressions.
`cond a c b` is `a if c else b`. -/
inductive Expr : Type
  | lit : Value → Expr
  | var : String → Expr
  | neg : Expr → Expr
  | pos : Expr → Expr
  | add : Expr → Expr → Expr
  | sub : Expr → Expr → Expr
  | mul : Expr → Expr → Expr
  | div : Expr → Expr → Expr
  | fdiv : Expr → Expr → Expr
  | mod : Expr → Expr → Expr
  | pow : Expr → Expr → Expr
  | cond : Expr → Expr → Expr → Expr
  | call : Expr → List Expr → Expr

mutual

/-- Conditional-expression level:
`conditional ::= arith ["if" arith "else" conditional]`
(the CPython grammar with the boolean levels specialised away, since
comparison and boolean operators are outside the modelled fragment). -/
def parseCond : Nat → List Tok → Except PyErr (Expr × List Tok)
  | 0, _ => .error .synErr
  | f + 1, ts =>
    match parseAdd f ts with
    | .error e => .error e
    | .ok (a, rest) =>
      match rest with
      | .kwIf :: rest2 =>
        match parseAdd f rest2 with
        | .error e => .error e
        | .ok (c, rest3) =>
          match rest3 with
          | .kwElse :: rest4 =>
            match parseCond f rest4 with
            | .error e => .error e
            | .ok (b, rest5) => .ok (.cond a c b, rest5)
          | _ => .error .synErr
      | _ => .ok (a, rest)

/-- Additive level: `arith ::= term (("+" | "-") term)*`. -/
def parseAdd : Nat → List Tok → Except PyErr (Expr × List Tok)
  | 0, _ => .error .synErr
  | f + 1, ts =>
    match parseMul f ts with
    | .error e => .error e
    | .ok (a, rest) => parseAddLoop f a rest

def parseAddLoop : Nat → Expr → List Tok → Except PyErr (Expr × List Tok)
  | 0, _, _ => .error .synErr
  | f + 1, acc, ts =>
    match ts with
    | .plus :: r =>
      match parseMul f r with
      | .error e => .error e
      | .ok (b, r2) => parseAddLoop f (.add acc b) r2
    | .minus :: r =>
      match parseMul f r with
      | .error e => .error e
      | .ok (b, r2) => parseAddLoop f (.sub acc b) r2
    | _ => .ok (acc, ts)

/-- Multiplicative level: `term ::= factor (("*" | "/" | "//" | "%") factor)*`. -/
def parseMul : Nat → List Tok → Except PyErr (Expr × List Tok)
  | 0, _ => .error .synErr
  | f + 1, ts =>
    match parseUnary f ts with
    | .error e => .error e
    | .ok (a, rest) => parseMulLoop f a rest

def parseMulLoop : Nat → Expr → List Tok → Except PyErr (Expr × List Tok)
  | 0, _, _ => .error .synErr
  | f + 1, acc, ts =>
    match ts with
    | .star :: r =>
      match parseUnary f r with
      | .error e => .error e
      | .ok (b, r2) => parseMulLoop f (.mul acc b) r2
    | .slash :: r =>
      match parseUnary f r with
      | .error e => .error e
      | .ok (b, r2) => parseMulLoop f (.div acc b) r2
    | .dslash :: r =>
      match parseUnary f r with
      | .error e => .error e
      | .ok (b, r2) => parseMulLoop f (.fdiv acc b) r2
    | .percent :: r =>
      match parseUnary f r with
      | .error e => .error e
      | .ok (b, r2) => parseMulLoop f (.mod acc b) r2
    | _ => .ok (acc, ts)

/-- Unary level: `factor ::= ("-" | "+") factor | power`.  Python gives
`**` a higher precedence than a unary minus on its left (`-2**2 == -4`). -/
def parseUnary : Nat → List Tok → Except PyErr (Expr × List Tok)
  | 0, _ => .error .synErr
  | f + 1, ts =>
    match ts with
    | .minus :: r =>
      match parseUnary f r with
      | .error e => .error e
      | .ok (a, r2) => .ok (.neg a, r2)
    | .plus :: r =>
      match parseUnary f r with
      | .error e => .error e
      | .ok (a, r2) => .ok (.pos a, r2)
    | _ => parsePower f ts

/-- Power level: `power ::= primary ["**" factor]` — right-associative,
and the exponent may start with a unary sign (`2**-1`). -/
def parsePower : Nat → List Tok → Except PyErr (Expr × List Tok)
  | 0, _ => .error .synErr
  | f + 1, ts =>
    match parsePrimary f ts with
    | .error e => .error e
    | .ok (a, rest) =>
      match rest with
      | .dstar :: r2 =>
        match parseUnary f r2 with
        | .error e => .error e
        | .ok (b, r3) => .ok (.pow a b, r3)
      | _ => .ok (a, rest)

/-- Primary level: an atom followed by any number of call suffixes. -/
def parsePrimary : Nat → List Tok → Except PyErr (Expr × List Tok)
  | 0, _ => .error .synErr
  | f + 1, ts =>
    match parseAtom f ts with
    | .error e => .error e
    | .ok (a, rest) => parseCallLoop f a rest

def parseCallLoop : Nat → Expr → List Tok → Except PyErr (Expr × List Tok)
  | 0, _, _ => .error .synErr
  | f + 1, acc, ts =>
    match ts with
    | .lparen :: r =>
      match r with
      | .rparen :: r2 => parseCallLoop f (.call acc []) r2
      | _ =>
        match parseArgs f r with
        | .error e => .error e
        | .ok (args, r2) =>
          match r2 with
          | .rparen :: r3 => parseCallLoop f (.call acc args) r3
          | _ => .error .synErr
    | _ => .ok (acc, ts)

/-- Comma-separated call arguments (each a full conditional expression;
a trailing comma before the closing parenthesis is allowed, as in
Python). -/
def parseArgs : Nat → List Tok → Except PyErr (List Expr × List Tok)
  | 0, _ => .error .synErr
  | f + 1, ts =>
    match parseCond f ts with
    | .error e => .error e
    | .ok (a, r) =>
      match r with
      | .comma :: .rparen :: r2 => .ok ([a], .rparen :: r2)
      | .comma :: r2 =>
        match parseArgs f r2 with
        | .error e => .error e
        | .ok (args, r3) => .ok (a :: args, r3)
      | _ => .ok ([a], r)

/-- Atoms: literals, names, parenthesised conditional expressions. -/
def parseAtom : Nat → List Tok → Except PyErr (Expr × List Tok)
  | 0, _ => .error .synErr
  | f + 1, ts =>
    match ts with
    | .num v :: r => .ok (.lit v, r)
    | .name n :: r => .ok (.var n, r)
    | .lparen :: r =>
      match parseCond f r with
      | .error e => .error e
      | .ok (a, r2) =>
        match r2 with
        | .rparen :: r3 => .ok (a, r3)
        | _ => .error .synErr
    | _ => .error .synErr

end

/-- Parse a complete expression: Python `eval` compiles the whole string
before running it, so any leftover tokens are a syntax error.  The fuel
`8 * (length + 1)` only depends on the token count (so two token streams
of equal length parse with equal fuel). -/
def parseAll (ts : List Tok) : Except PyErr Expr :=
  match parseCond (8 * (ts.length + 1)) ts with
  | .error e => .error e
  | .ok (a, []) => .ok a
  | .ok (_, _ :: _) => .error .synErr

mutual

/-- Evaluation of the modelled expression ASTs: names resolve in the
given environment (a miss subscripts the `None` stored under
`__builtins__`, raising the `TypeError` of `noneSubscript`), operands
evaluate left to
right, the conditional evaluates only the selected branch, a call
evaluates the callee, then the arguments, then applies. -/
def evalE (env : List (String × Value)) : Expr → Except PyErr Value
  | .lit v => .ok v
  | .var n =>
    match dlookup env n with
    | some v => .ok v
    | none => .error .noneSubscript
  | .neg a =>
    match evalE env a with
    | .error e => .error e
    | .ok x => negV x
  | .pos a =>
    match evalE env a with
    | .error e => .error e
    | .ok x => posV x
  | .add a b =>
    match evalE env a with
    | .error e => .error e
    | .ok x =>
      match evalE env b with
      | .error e => .error e
      | .ok y => addV x y
  | .sub a b =>
    match evalE env a with
    | .error e => .error e
    | .ok x =>
      match evalE env b with
      | .error e => .error e
      | .ok y => subV x y
  | .mul a b =>
    match evalE env a with
    | .error e => .error e
    | .ok x =>
      match evalE env b with
      | .error e => .error e
      | .ok y => mulV x y
  | .div a b =>
    match evalE env a with
    | .error e => .error e
    | .ok x =>
      match evalE env b with
      | .error e => .error e
      | .ok y => divV x y
  | .fdiv a b =>
    match evalE env a with
    | .error e => .error e
    | .ok x =>
      match evalE env b with
      | .error e => .error e
      | .ok y => fdivV x y
  | .mod a b =>
    match evalE env a with
    | .error e => .error e
    | .ok x =>
      match evalE env b with
      | .error e => .error e
      | .ok y => modV x y
  | .pow a b =>
    match evalE env a with
    | .error e => .error e
    | .ok x =>
      match evalE env b with
      | .error e => .error e
      | .ok y => powV x y
  | .cond a c b =>
    match evalE env c with
    | .error e => .error e
    | .ok cv =>
      match truthy cv with
      | .error e => .error e
      | .ok t => if t then evalE env a else evalE env b
  | .call f args =>
    match evalE env f with
    | .error e => .error e
    | .ok fv =>
      match evalArgs env args with
      | .error e => .error e
      | .ok vs =>
        match fv with
        | .func g => applyFn g vs
        | _ => .error .typeErr

def evalArgs (env : List (String × Value)) : List Expr → Except PyErr (List Value)
  | [] => .ok []
  | a :: rest =>
    match evalE env a with
    | .error e => .error e
    | .ok v =>
      match evalArgs env rest with
      | .error e => .error e
      | .ok vs => .ok (v :: vs)

end

/-- Evaluate a substituted expression string the way
`eval(expression, safe_env, {})` does on the modelled fragment:
lex, compile the whole string, then run it in the given globals. -/
def evalStr (env : List (String × Value)) (s : List Char) : Except PyErr Value :=
  match tokenize s with
  | .error e => .error e
  | .ok ts =>
    match parseAll ts with
    | .error e => .error e
    | .ok a => evalE env a

/-- The apostrophe character, as a string. -/
def apos : String := String.singleton (Char.ofNat 39)

/-- Model of `str(e)` for the modelled exceptions (the text CPython puts
in the f-string `{e}`). -/
def errMsg : PyErr → String
  | .noneSubscript => apos ++ "NoneType" ++ apos ++ " object is not subscriptable"
  | .zeroDiv => "division by zero"
  | .typeErr => "unsupported operand type"
  | .valueErr => "math domain error"
  | .synErr => "invalid syntax"
  | .unsupported => "construct outside the modelled fragment"

/-- The diagnostic printed by the `except` branch:
`f"Encountered '{e}' error in evaluating expression : {expression}"`,
where `expression` is the post-substitution string. -/
def diagMsg (e : PyErr) (s : String) : String :=
  "Encountered " ++ apos ++ errMsg e ++ apos ++
    " error in evaluating expression : " ++ s

/-- `restricted_eval`, with the variables dict also returned so that the
absence of mutation is part of the statement surface.  The substitution
runs before the `try` block, so its exceptions propagate out of the
function unprinted (`Outcome.uncaught`); only a failure of `eval` on the
substituted string reaches the `except` branch that prints the
diagnostic and terminates the process. -/
def restricted_eval_state (expression : String) (vars0 : Dict) :
    Outcome Value × Dict :=
  match subst vars0 expression.toList with
  | .error err => (.uncaught err, vars0)
  | .ok s2 =>
    match evalStr safe_env s2 with
    | .ok v => (.ok v, vars0)
    | .error e => (.fatalExit (diagMsg e (String.mk s2)), vars0)

/-- The value/outcome of `restricted_eval` alone. -/
def restricted_eval (expression : String) (vars0 : Dict) : Outcome Value :=
  (restricted_eval_state expression vars0).1

/-- `get_scale_and_position_as_function_of_pygame_surface_dimensions`.
The pygame surface argument is represented by its two queried
dimensions (`surface.get_width()`/`surface.get_height()`, ints).  Any
evaluation outcome other than a value (process exit, escaping exception)
aborts the whole computation, exactly as in the source, where the
evaluator either returns or kills the process. -/
def get_scale_and_position_as_function_of_pygame_surface_dimensions
    (surface_width surface_height : Int)
    (x_pos_function y_pos_function x_scale_function y_scale_function : String)
    (surface_name : String := "surface") :
    Outcome (Value × Value × Value × Value) :=
  let vars0 : Dict :=
    [(surface_name ++ "_width", .int surface_width),
     (surface_name ++ "_height", .int surface_height)]
  match restricted_eval x_scale_function vars0 with
  | .fatalExit m => .fatalExit m
  | .uncaught e => .uncaught e
  | .ok x_scale =>
    match restricted_eval y_scale_function vars0 with
    | .fatalExit m => .fatalExit m
    | .uncaught e => .uncaught e
    | .ok y_scale =>
      let variables2 : Dict :=
        vars0 ++ [("x_scale", x_scale), ("y_scale", y_scale)]
      match restricted_eval x_pos_function variables2 with
      | .fatalExit m => .fatalExit m
      | .uncaught e => .uncaught e
      | .ok x =>
        match restricted_eval y_pos_function variables2 with
        | .fatalExit m => .fatalExit m
        | .uncaught e => .uncaught e
        | .ok y => .ok (x, y, x_scale, y_scale)

/-- The reference semantics on the spec side of claim C1: "substituting
the variables' values into E and computing it under standard arithmetic
semantics" — the expression is evaluated once, with the variable names
resolved *semantically* to their values (shadowing the allowed names,
as textual substitution would). -/
def semanticEval (expression : String) (vars0 : Dict) :
    Except PyErr Value :=
  evalStr (vars0 ++ safe_env) expression.toList

/-- Sequencing of `restricted_eval` outcomes: a process exit or escaping
exception in an earlier call aborts everything after it. -/
def Outcome.bind {α β : Type} : Outcome α → (α → Outcome β) → Outcome β
  | .ok a, f => f a
  | .fatalExit m, _ => .fatalExit m
  | .uncaught e, _ => .uncaught e

/-- C4: `compute_placement` on a surface of width 800 and height 600 with
`x_pos_expr="surface_width/2"`, `y_pos_expr="surface_height/2"`,
`x_scale_expr="1"`, `y_scale_expr="1"` returns `(400.0, 300.0, 1, 1)` —
the four results in the order (x, y, x_scale, y_scale), the positions as
floats (true division) and the scales as the int `1`. -/
theorem placement_800_600_example :
    get_scale_and_position_as_function_of_pygame_surface_dimensions 800 600
      "surface_width/2" "surface_height/2" "1" "1" =
      .ok (.float 400, .float 300, .int 1, .int 1) := by decide

/-- C5 (the code's actual behaviour at the claimed input): with an empty
variable mapping the substitution pattern is `\b()\b`, whose empty
alternative matches before `__` and makes `replace_var` raise
`KeyError('')` — *before* the `try` block around `eval`.  The call
`evaluate("__import__('os')", {})` therefore dies with an uncaught
`KeyError` and no diagnostic, not via the forbidden-name error path. -/
theorem import_os_empty_mapping_uncaught_keyerror :
    restricted_eval_state ("__import__(" ++ apos ++ "os" ++ apos ++ ")") [] =
      (.uncaught .keyErr, []) := by decide

/-- C2: whenever `eval` on the substituted string fails, `restricted_eval`
prints the diagnostic — which contains the triggering error text and the
post-substitution expression — and terminates the process; no value is
returned on that path. -/
theorem restricted_eval_eval_failure_fatal
    (e : String) (d : Dict) (s2 : List Char) (err : PyErr)
    (hs : subst d e.toList = .ok s2)
    (he : evalStr safe_env s2 = .error err) :
    restricted_eval_state e d = (.fatalExit (diagMsg err (String.mk s2)), d) ∧
    (errMsg err).data <:+: (diagMsg err (String.mk s2)).data ∧
    s2 <:+: (diagMsg err (String.mk s2)).data := by
  refine ⟨?_, ?_, ?_⟩
  · unfold restricted_eval_state
    rw [hs]
    dsimp only
    rw [he]
  · refine ⟨("Encountered " ++ apos).data,
      (apos ++ " error in evaluating expression : " ++ String.mk s2).data, ?_⟩
    simp [diagMsg, String.data_append]
  · refine ⟨("Encountered " ++ apos ++ errMsg err ++ apos ++
      " error in evaluating expression : ").data, [], ?_⟩
    simp [diagMsg, String.data_append]

theorem restricted_eval_eval_failure_fatal_witness :
    restricted_eval_state "1/0" [("x", Value.int 1)] =
      (.fatalExit (diagMsg .zeroDiv (String.mk ['1', '/', '0'])), [("x", Value.int 1)]) ∧
    (errMsg PyErr.zeroDiv).data <:+: (diagMsg .zeroDiv (String.mk ['1', '/', '0'])).data ∧
    ['1', '/', '0'] <:+: (diagMsg .zeroDiv (String.mk ['1', '/', '0'])).data :=
  restricted_eval_eval_failure_fatal "1/0" [("x", .int 1)] ['1', '/', '0']
    .zeroDiv (by decide) (by decide)

/-- C9: `restricted_eval` never mutates the variable mapping passed to
it: the mapping coming out of a call is the mapping that went in (the
function only reads the dict — `keys()` for the pattern and item lookup
in the replacement callback; the `x_scale`/`y_scale` extensions happen
in the caller). -/
theorem restricted_eval_preserves_variables (e : String) (d : Dict) :
    (restricted_eval_state e d).2 = d := by
  unfold restricted_eval_state
  split
  · rfl
  · split <;> rfl

/-- C10: `restricted_eval` is deterministic — equal expression strings
and equal mappings (same keys, same insertion order, same values) give
equal outcomes.  The embedding is a pure function of exactly these two
arguments because the source consults no other state: the regex is built
only from the keys, and the evaluation environment is rebuilt from
constants on every call. -/
theorem restricted_eval_deterministic (e1 e2 : String) (d1 d2 : Dict)
    (he : e1 = e2) (hd : d1 = d2) :
    restricted_eval_state e1 d1 = restricted_eval_state e2 d2 := by
  subst he
  subst hd
  rfl

theorem restricted_eval_deterministic_witness :
    restricted_eval_state "x+1" [("x", Value.int 1)] =
      restricted_eval_state "x+1" [("x", Value.int 1)] :=
  restricted_eval_deterministic "x+1" "x+1"
    [("x", Value.int 1)] [("x", Value.int 1)] rfl rfl

/-- C3: the placement calculator evaluates the two scale expressions
first (x before y) against the mapping holding only the surface
dimensions, then extends that mapping with `x_scale` and `y_scale` bound
to the two results, and only then evaluates the two position expressions
(x before y) — so `x_pos_expr="x_scale*10"` with
`x_scale_expr="surface_width/100"` on an 800-wide surface sees
`x_scale = 8.0` and yields `80.0`. -/
theorem placement_scale_before_position :
    (∀ (sw sh : Int) (xp yp xs ys nm : String),
      get_scale_and_position_as_function_of_pygame_surface_dimensions
          sw sh xp yp xs ys nm =
        (let m1 : Dict := [(nm ++ "_width", .int sw), (nm ++ "_height", .int sh)]
         Outcome.bind (restricted_eval xs m1) (fun xsv =>
         Outcome.bind (restricted_eval ys m1) (fun ysv =>
         let m2 : Dict := m1 ++ [("x_scale", xsv), ("y_scale", ysv)]
         Outcome.bind (restricted_eval xp m2) (fun x =>
         Outcome.bind (restricted_eval yp m2) (fun y =>
         Outcome.ok (x, y, xsv, ysv))))))) ∧
    get_scale_and_position_as_function_of_pygame_surface_dimensions 800 600
      "x_scale*10" "0" "surface_width/100" "2" "surface" =
      .ok (.float 80, .int 0, .float 8, .int 2) := by
  constructor
  · intro sw sh xp yp xs ys nm
    unfold get_scale_and_position_as_function_of_pygame_surface_dimensions
    dsimp only
    cases restricted_eval xs [(nm ++ "_width", .int sw), (nm ++ "_height", .int sh)] <;>
      simp only [Outcome.bind] <;>
    first
    | rfl
    | (rename_i xsv
       cases restricted_eval ys [(nm ++ "_width", .int sw), (nm ++ "_height", .int sh)] <;>
         simp only [Outcome.bind] <;>
       first
       | rfl
       | (rename_i ysv
          cases restricted_eval xp ([(nm ++ "_width", .int sw), (nm ++ "_height", .int sh)] ++
              [("x_scale", xsv), ("y_scale", ysv)]) <;>
            simp only [Outcome.bind] <;>
          first
          | rfl
          | (rename_i x
             cases restricted_eval yp ([(nm ++ "_width", .int sw), (nm ++ "_height", .int sh)] ++
                 [("x_scale", xsv), ("y_scale", ysv)]) <;>
               simp only [Outcome.bind] <;> rfl)))
  · decide

/-- With an empty variable mapping the alternation is the single empty
string: the pattern `\b()\b` matches (emptily) at every word boundary,
and the replacement callback then looks up the key `""`, which is not in
the mapping — `KeyError`.  The first boundary exists as soon as a word
character is present (or was just passed). -/
theorem substAux_empty_keyErr (fuel : Nat) (prevW : Bool) (s : List Char)
    (hf : s.length < fuel)
    (h : prevW = true ∨ ∃ c ∈ s, isWordChar c = true) :
    substAux [] fuel prevW s = .error .keyErr := by
  induction fuel generalizing prevW s with
  | zero => omega
  | succ fuel ih =>
    cases s with
    | nil =>
      have hp : prevW = true := by
        rcases h with h | ⟨c, hc, _⟩
        · exact h
        · cases hc
      subst hp
      simp [substAux, boundary, tryAlts, altList, altMatch, dlookup]
    | cons c s3 =>
      by_cases hb : boundary prevW (c :: s3) = true
      · have htry : tryAlts prevW (altList []) (c :: s3) = some ("", c :: s3) := by
          simp [tryAlts, altList, altMatch, hb]
        simp [substAux, hb, htry, dlookup]
      · have hpw : prevW = isWordChar c := by
          simp [boundary] at hb
          exact hb
        have hrec : substAux [] fuel (isWordChar c) s3 = .error .keyErr := by
          apply ih
          · simp at hf; omega
          · rcases h with h | ⟨c2, hc2, hw2⟩
            · left; rw [← hpw, h]
            · rcases List.mem_cons.mp hc2 with rfl | hmem
              · left; exact hw2
              · right; exact ⟨c2, hmem, hw2⟩
        simp [substAux, hb, hrec, Except.map]

/-- C8: calling `restricted_eval` with an *empty* variable mapping and an
expression containing at least one word character raises `KeyError`
inside the substitution — before the try-guarded evaluation — so the
exception escapes the function and no diagnostic is printed. -/
theorem empty_mapping_word_char_keyerror (e : String)
    (h : ∃ c ∈ e.toList, isWordChar c = true) :
    restricted_eval_state e [] = (.uncaught .keyErr, []) := by
  unfold restricted_eval_state subst
  rw [substAux_empty_keyErr _ _ _ (by omega) (Or.inr h)]

theorem empty_mapping_word_char_keyerror_witness :
    (∃ c ∈ "x+1".toList, isWordChar c = true) ∧
    restricted_eval_state "x+1" [] = (.uncaught .keyErr, []) :=
  ⟨by decide, empty_mapping_word_char_keyerror "x+1" (by decide)⟩

/-- The continuation context right after a word run: either nothing, or
a non-word character. -/
def headNotWord : List Char → Prop
  | [] => True
  | c :: _ => isWordChar c = false

instance : DecidablePred headNotWord := fun t => by
  cases t <;> simp [headNotWord] <;> infer_instance

/-- A word alternative matches its own text when a word boundary
follows. -/
theorem altMatch_self (w t : List Char) (p : Bool)
    (hw : ∀ c ∈ w, isWordChar c = true) (hne : w ≠ [])
    (ht : headNotWord t) : altMatch p w (w ++ t) = some t := by
  induction w generalizing p with
  | nil => exact absurd rfl hne
  | cons a w' ih =>
    have ha : isWordChar a = true := hw a (by simp)
    cases w' with
    | nil =>
      show altMatch p [a] (a :: t) = some t
      unfold altMatch
      rw [if_pos rfl]
      cases t with
      | nil => simp [altMatch, boundary, ha]
      | cons c t' =>
        have hc : isWordChar c = false := ht
        simp [altMatch, boundary, ha, hc]
    | cons b w'' =>
      show altMatch p (a :: b :: w'') (a :: ((b :: w'') ++ t)) = some t
      unfold altMatch
      rw [if_pos rfl]
      exact ih (fun c hc => hw c (by simp [hc])) (by simp) (p := isWordChar a)

/-- Conversely, a word alternative that matches at the start of a word
run must be exactly that run (the trailing `\b` rules out stopping
early, maximality rules out running past). -/
theorem altMatch_word_eq (k : List Char) :
    ∀ (w t : List Char) (p : Bool) (s2 : List Char),
    (∀ c ∈ k, isWordChar c = true) → k ≠ [] →
    (∀ c ∈ w, isWordChar c = true) → headNotWord t →
    altMatch p k (w ++ t) = some s2 → k = w ∧ s2 = t := by
  induction k with
  | nil => intro w t p s2 _ hkne; exact absurd rfl hkne
  | cons a k' ih =>
    intro w t p s2 hk hkne hw ht h
    have ha : isWordChar a = true := hk a (by simp)
    cases w with
    | nil =>
      exfalso
      simp only [List.nil_append] at h
      cases t with
      | nil => simp [altMatch] at h
      | cons c t' =>
        have hc : isWordChar c = false := ht
        have hac : a ≠ c := by
          intro hh
          rw [hh] at ha
          rw [ha] at hc
          cases hc
        simp [altMatch, hac] at h
    | cons b w' =>
      simp only [List.cons_append] at h
      unfold altMatch at h
      by_cases hab : a = b
      · rw [if_pos hab] at h
        cases k' with
        | nil =>
          unfold altMatch at h
          split at h
          next hbnd =>
            cases h
            cases w' with
            | nil => exact ⟨by rw [hab], rfl⟩
            | cons b' w'' =>
              exfalso
              have hb' : isWordChar b' = true := hw b' (by simp)
              simp [boundary, ha, hb'] at hbnd
          next => cases h
        | cons a' k'' =>
          have := ih w' t (isWordChar a) s2
            (fun c hc => hk c (by simp [hc])) (by simp)
            (fun c hc => hw c (by simp [hc])) ht h
          exact ⟨by rw [hab, this.1], this.2⟩
      · rw [if_neg hab] at h
        cases h

/-- At the start of a word run, the alternation returns the run itself
when it is one of the (word-shaped) keys, and nothing otherwise. -/
theorem tryAlts_run (alts : List String) (p : Bool) (w t : List Char)
    (hwne : w ≠ []) (hw : ∀ c ∈ w, isWordChar c = true) (ht : headNotWord t)
    (halts : ∀ k ∈ alts, k.toList ≠ [] ∧ ∀ c ∈ k.toList, isWordChar c = true) :
    (String.mk w ∈ alts → tryAlts p alts (w ++ t) = some (String.mk w, t)) ∧
    (String.mk w ∉ alts → tryAlts p alts (w ++ t) = none) := by
  induction alts with
  | nil => exact ⟨fun h => absurd h (by simp), fun _ => rfl⟩
  | cons k rest ih =>
    have hk := halts k (by simp)
    have ihr := ih (fun k2 hk2 => halts k2 (by simp [hk2]))
    cases hm : altMatch p k.toList (w ++ t) with
    | some s2 =>
      have heq := altMatch_word_eq k.toList w t p s2 hk.2 hk.1 hw ht hm
      have hkw : k = String.mk w := by
        cases k
        simp only [String.toList] at heq
        rw [← heq.1]
      constructor
      · intro _
        unfold tryAlts
        rw [hm, heq.2, hkw]
      · intro hnm
        exact absurd (by rw [← hkw]; exact List.mem_cons_self k rest) hnm
    | none =>
      have step : tryAlts p (k :: rest) (w ++ t) = tryAlts p rest (w ++ t) := by
        conv_lhs => unfold tryAlts
        rw [hm]
      constructor
      · intro hmem
        rcases List.mem_cons.mp hmem with rfl | hmem2
        · exfalso
          have : altMatch p (String.mk w).toList (w ++ t) = some t :=
            altMatch_self w t p hw hwne ht
          rw [this] at hm
          cases hm
        · rw [step]
          exact ihr.1 hmem2
      · intro hnm
        rw [step]
        exact ihr.2 (fun hmem2 => hnm (by simp [hmem2]))

/-- No word-shaped alternative matches at a non-word character. -/
theorem tryAlts_nonword (alts : List String) (p : Bool) (c : Char) (s : List Char)
    (hc : isWordChar c = false)
    (halts : ∀ k ∈ alts, k.toList ≠ [] ∧ ∀ c2 ∈ k.toList, isWordChar c2 = true) :
    tryAlts p alts (c :: s) = none := by
  induction alts with
  | nil => rfl
  | cons k rest ih =>
    have hk := halts k (by simp)
    have hm : altMatch p k.toList (c :: s) = none := by
      cases hkl : k.toList with
      | nil => exact absurd hkl hk.1
      | cons a k' =>
        have ha : isWordChar a = true := hk.2 a (by rw [hkl]; simp)
        have hac : a ≠ c := by
          intro hh
          rw [hh] at ha
          rw [ha] at hc
          cases hc
        simp [altMatch, hac]
    unfold tryAlts
    rw [hm]
    exact ih (fun k2 hk2 => halts k2 (by simp [hk2]))

/-- For a nonempty dict the alternation list is exactly the key list. -/
theorem altList_eq (d : Dict) (hne : d ≠ []) : altList d = d.map Prod.fst := by
  unfold altList
  cases d with
  | nil => exact absurd rfl hne
  | cons kv rest => rfl

theorem dlookup_some_mem (d : Dict) (n : String) (v : Value)
    (h : dlookup d n = some v) : n ∈ d.map Prod.fst := by
  induction d with
  | nil => cases h
  | cons kv rest ih =>
    unfold dlookup at h
    split at h
    next heq => simp [← heq]
    next => simpa using Or.inr (ih h)

theorem dlookup_isSome_iff_mem (d : Dict) (n : String) :
    (dlookup d n).isSome = true ↔ n ∈ d.map Prod.fst := by
  induction d with
  | nil => simp [dlookup]
  | cons kv rest ih =>
    unfold dlookup
    by_cases heq : kv.1 = n
    · simp [heq]
    · simp only [if_neg heq, ih, List.map_cons, List.mem_cons]
      constructor
      · exact Or.inr
      · rintro (h | h)
        · exact absurd h.symm heq
        · exact h

theorem getLast?_word : ∀ (w : List Char), w ≠ [] →
    (∀ c ∈ w, isWordChar c = true) →
    (match w.getLast? with | some c => isWordChar c | none => false) = true := by
  intro w
  induction w with
  | nil => intro h _; exact absurd rfl h
  | cons a w2 ih =>
    intro _ hw
    cases w2 with
    | nil => simpa using hw a (by simp)
    | cons b w3 =>
      rw [List.getLast?_cons_cons]
      exact ih (by simp) (fun c hc => hw c (by simp [hc]))

theorem lastWord_run (w : List Char) (hne : w ≠ [])
    (hw : ∀ c ∈ w, isWordChar c = true) : lastWord (String.mk w) = true := by
  unfold lastWord
  exact getLast?_word w hne hw

/-- The fuel of `substAux` is irrelevant as long as it exceeds the input
length (the scan consumes at least one character per step). -/
theorem substAux_fuelIrr (d : Dict) : ∀ f1 f2 (p : Bool) (s : List Char),
    s.length < f1 → s.length < f2 → substAux d f1 p s = substAux d f2 p s := by
  intro f1
  induction f1 with
  | zero => intro f2 p s h1 _; omega
  | succ f1 ih =>
    intro f2 p s h1 h2
    cases f2 with
    | zero => omega
    | succ f2 =>
      by_cases hb : boundary p s = true
      · cases htry : tryAlts p (altList d) s with
        | none =>
          cases s with
          | nil => simp [substAux, hb, htry]
          | cons c s3 =>
            have hr := ih f2 (isWordChar c) s3
              (by simp at h1; omega) (by simp at h2; omega)
            simp [substAux, hb, htry, hr]
        | some ks =>
          obtain ⟨k, s2⟩ := ks
          have hlen := tryAlts_length htry
          cases hlk : dlookup d k with
          | none => simp [substAux, hb, htry, hlk]
          | some v =>
            cases hps : pyStr v with
            | none => simp [substAux, hb, htry, hlk, hps]
            | some repl =>
              by_cases hk0 : k.length = 0
              · cases s with
                | nil => simp [substAux, hb, htry, hlk, hps, hk0]
                | cons c s3 =>
                  have hr := ih f2 (isWordChar c) s3
                    (by simp at h1; omega) (by simp at h2; omega)
                  simp [substAux, hb, htry, hlk, hps, hk0, hr]
              · have hr := ih f2 (lastWord k) s2 (by omega) (by omega)
                simp [substAux, hb, htry, hlk, hps, hk0, hr]
      · cases s with
        | nil => simp [substAux, hb]
        | cons c s3 =>
          have hr := ih f2 (isWordChar c) s3
            (by simp at h1; omega) (by simp at h2; omega)
          simp [substAux, hb, hr]

/-- Inside a word run there is never a boundary, so the scan copies the
run verbatim regardless of the keys. -/
theorem substAux_midrun (d : Dict) : ∀ (w : List Char),
    (∀ c ∈ w, isWordChar c = true) →
    ∀ (t : List Char) (fuel : Nat), (w ++ t).length < fuel →
    substAux d fuel true (w ++ t) = (substAux d fuel true t).map (fun r => w ++ r) := by
  intro w
  induction w with
  | nil =>
    intro _ t fuel _
    simp only [List.nil_append]
    cases substAux d fuel true t <;> simp [Except.map]
  | cons a w2 ih =>
    intro hw t fuel hf
    have ha : isWordChar a = true := hw a (by simp)
    cases fuel with
    | zero => simp at hf
    | succ fuel =>
      have hb : boundary true ((a :: w2) ++ t) = false := by
        simp [boundary, ha]
      have hlen : (w2 ++ t).length < fuel := by simp at hf ⊢; omega
      have hr := ih (fun c hc => hw c (by simp [hc])) t fuel hlen
      have hirr := substAux_fuelIrr d fuel (fuel + 1) true t
        (by simp at hf; omega) (by simp at hf; omega)
      simp only [List.cons_append] at hb ⊢
      rw [← hirr]
      cases hX : substAux d fuel true t <;>
        simp [substAux, hb, ha, hr, hX, Except.map]

/-- The set of hypotheses on the dict used by the word-boundary lemmas:
nonempty, and every key is a nonempty word string. -/
def wordKeys (d : Dict) : Prop :=
  d ≠ [] ∧ ∀ kv ∈ d, kv.1.toList ≠ [] ∧ ∀ c ∈ kv.1.toList, isWordChar c = true

instance : DecidablePred wordKeys := fun d => by
  unfold wordKeys
  infer_instance

theorem wordKeys_alts {d : Dict} (h : wordKeys d) :
    ∀ k ∈ altList d, k.toList ≠ [] ∧ ∀ c ∈ k.toList, isWordChar c = true := by
  intro k hk
  rw [altList_eq d h.1] at hk
  obtain ⟨kv, hkv, rfl⟩ := List.mem_map.mp hk
  exact h.2 kv hkv

/-- A word run that is not a key is copied unchanged (word-bounded
matching: a key occurring as a strict substring of the run cannot match
because the trailing boundary fails). -/
theorem substAux_run_nokey (d : Dict) (hd : wordKeys d)
    (w t : List Char) (hwne : w ≠ []) (hw : ∀ c ∈ w, isWordChar c = true)
    (ht : headNotWord t) (hnk : dlookup d (String.mk w) = none) :
    ∀ fuel, (w ++ t).length < fuel →
    substAux d fuel false (w ++ t) = (substAux d fuel true t).map (fun r => w ++ r) := by
  intro fuel hf
  cases fuel with
  | zero => simp at hf
  | succ fuel =>
    obtain ⟨a, w2, rfl⟩ : ∃ a w2, w = a :: w2 := by
      cases w with
      | nil => exact absurd rfl hwne
      | cons a w2 => exact ⟨a, w2, rfl⟩
    have ha : isWordChar a = true := hw a (by simp)
    have hb : boundary false ((a :: w2) ++ t) = true := by
      simp [boundary, ha]
    have hmem : String.mk (a :: w2) ∉ altList d := by
      rw [altList_eq d hd.1]
      intro hmem
      have := (dlookup_isSome_iff_mem d (String.mk (a :: w2))).mpr hmem
      rw [hnk] at this
      cases this
    have htry : tryAlts false (altList d) ((a :: w2) ++ t) = none :=
      (tryAlts_run (altList d) false (a :: w2) t hwne hw ht (wordKeys_alts hd)).2 hmem
    have hlen : (w2 ++ t).length < fuel := by simp at hf ⊢; omega
    have hmid := substAux_midrun d w2 (fun c hc => hw c (by simp [hc])) t fuel hlen
    have hirr := substAux_fuelIrr d fuel (fuel + 1) true t
      (by simp at hf; omega) (by simp at hf; omega)
    simp only [List.cons_append] at hb htry ⊢
    rw [← hirr]
    cases hX : substAux d fuel true t <;>
      simp [substAux, hb, htry, ha, hmid, hX, Except.map]

/-- A word run that is a key is replaced (in full, by the string form of
its value) and the scan continues right after it. -/
theorem substAux_run_key (d : Dict) (hd : wordKeys d)
    (w t : List Char) (hwne : w ≠ []) (hw : ∀ c ∈ w, isWordChar c = true)
    (ht : headNotWord t) (v : Value) (repl : List Char)
    (hlook : dlookup d (String.mk w) = some v) (hrepl : pyStr v = some repl) :
    ∀ fuel, (w ++ t).length < fuel →
    substAux d fuel false (w ++ t) = (substAux d fuel true t).map (fun r => repl ++ r) := by
  intro fuel hf
  cases fuel with
  | zero => simp at hf
  | succ fuel =>
    have hb : boundary false (w ++ t) = true := by
      obtain ⟨a, w2, rfl⟩ : ∃ a w2, w = a :: w2 := by
        cases w with
        | nil => exact absurd rfl hwne
        | cons a w2 => exact ⟨a, w2, rfl⟩
      simp [boundary, hw a (by simp)]
    have hmem : String.mk w ∈ altList d := by
      rw [altList_eq d hd.1]
      exact dlookup_some_mem d (String.mk w) v hlook
    have htry : tryAlts false (altList d) (w ++ t) = some (String.mk w, t) :=
      (tryAlts_run (altList d) false w t hwne hw ht (wordKeys_alts hd)).1 hmem
    have hwl : w.length ≠ 0 := by
      cases w with
      | nil => exact absurd rfl hwne
      | cons a w2 => simp
    have hk0 : (String.mk w).length ≠ 0 := hwl
    have hlw : lastWord (String.mk w) = true := lastWord_run w hwne hw
    have hirr := substAux_fuelIrr d fuel (fuel + 1) true t
      (by simp at hf; omega) (by simp at hf; omega)
    rw [← hirr]
    cases hX : substAux d fuel true t <;>
      simp [substAux, hb, htry, hlook, hrepl, hk0, hlw, hX, Except.map] <;>
      exact fun hw0 => absurd hw0 hwne

/-- C6: substitution is word-bounded.  For a maximal identifier word `w`
in the expression (boundary before, non-word character or end after):
if `w` is not a key it is left completely unreplaced — in particular a
variable name occurring as a strict substring of the longer identifier
`w` is not replaced inside it — and if `w` is a key, exactly the whole
word is replaced by the string form of its value; in both cases the
scan continues independently on the rest. -/
theorem subst_word_bounded
    (d : Dict) (hd : wordKeys d) (w t : List Char)
    (hwne : w ≠ []) (hw : ∀ c ∈ w, isWordChar c = true) (ht : headNotWord t) :
    (dlookup d (String.mk w) = none →
      subst d (w ++ t) = (substAux d (t.length + 1) true t).map (fun r => w ++ r)) ∧
    (∀ v repl, dlookup d (String.mk w) = some v → pyStr v = some repl →
      subst d (w ++ t) = (substAux d (t.length + 1) true t).map (fun r => repl ++ r)) := by
  have hlt : t.length < (w ++ t).length + 1 := by
    have := List.length_append w t
    omega
  constructor
  · intro hnk
    unfold subst
    rw [substAux_run_nokey d hd w t hwne hw ht hnk ((w ++ t).length + 1) (by omega)]
    rw [substAux_fuelIrr d ((w ++ t).length + 1) (t.length + 1) true t hlt (by omega)]
  · intro v repl hlook hrepl
    unfold subst
    rw [substAux_run_key d hd w t hwne hw ht v repl hlook hrepl
      ((w ++ t).length + 1) (by omega)]
    rw [substAux_fuelIrr d ((w ++ t).length + 1) (t.length + 1) true t hlt (by omega)]

theorem subst_word_bounded_witness :
    subst [("x", Value.int 7)] ('x' :: '2' :: ' ' :: '+' :: ' ' :: 'x' :: []) =
      .ok ('x' :: '2' :: ' ' :: '+' :: ' ' :: '7' :: []) := by
  have h := (subst_word_bounded [("x", Value.int 7)] (by decide)
      ['x', '2'] (' ' :: '+' :: ' ' :: 'x' :: [])
      (by decide) (by decide) (by decide)).1 (by decide)
  rw [show ('x' :: '2' :: ' ' :: '+' :: ' ' :: 'x' :: []) =
    (['x', '2'] ++ (' ' :: '+' :: ' ' :: 'x' :: [])) from rfl]
  rw [h]
  decide

/-- C7 (the code's actual behaviour): Python expression-level control
flow *is* reachable from the evaluated expression — a conditional
expression runs fine inside `eval` even with `__builtins__` emptied, so
`restricted_eval` returns `1` for `"1 if 2 else 3"` instead of
rejecting the construct. -/
theorem conditional_reachable_in_restricted_eval :
    restricted_eval "1 if 2 else 3" [("x", Value.int 1)] = .ok (.int 1) := by
  decide

/-- C7 (amended): the evaluation environment binds exactly `abs`,
`round`, `min`, `max` and the public math names — plus the key
`__builtins__` itself, which the source sets to `None` — and nothing
else: a bare unknown identifier misses the globals, CPython then
subscripts the `None` stored under `__builtins__`, and the resulting
`TypeError: 'NoneType' object is not subscriptable` makes the process
print the diagnostic and exit. -/
theorem safe_env_names_exact :
    (∀ n : String, (dlookup safe_env n).isSome = true ↔
      (n = "__builtins__" ∨ n ∈ allowed_names.map Prod.fst)) ∧
    restricted_eval "foo" [("z", Value.int 0)] =
      .fatalExit (diagMsg .noneSubscript "foo") := by
  constructor
  · intro n
    rw [dlookup_isSome_iff_mem]
    show n ∈ (("__builtins__", Value.pynone) :: allowed_names).map Prod.fst ↔ _
    simp
  · decide

/-- C1 (the claim as stated is false): textual substitution does not
implement mathematical substitution.  With `x = -2`, the expression
`x**2` becomes the string `-2**2`, which Python parses as `-(2**2) = -4`
— while substituting the *value* −2 for `x` gives `(-2)**2 = 4`.  The
two sides are computed by `restricted_eval` (textual) and
`semanticEval` (the reference semantics of the claim). -/
theorem restricted_eval_pow_negative_counterexample :
    restricted_eval "x**2" [("x", Value.int (-2))] = .ok (.int (-4)) ∧
    semanticEval "x**2" [("x", Value.int (-2))] = .ok (.int 4) := by
  constructor
  · decide
  · decide

/-- Substitution on tokens: a name bound in the dict becomes the literal
of its value, every other token is unchanged. -/
def substTok (d : Dict) : Tok → Tok
  | .name n =>
    match dlookup d n with
    | some v => .num v
    | none => .name n
  | t => t

/-- Atomic (operand) tokens: literals and names. -/
def isAtomTok : Tok → Bool
  | .num _ => true
  | .name _ => true
  | _ => false

/-- No two adjacent atomic tokens (any token stream that parses as a
complete expression has this shape, because two operands always have an
operator, keyword, parenthesis or comma between them). -/
def noAdjAtoms (ts : List Tok) : Prop :=
  List.Chain' (fun a b => ¬(isAtomTok a = true ∧ isAtomTok b = true)) ts

instance : DecidablePred noAdjAtoms := fun ts => by
  unfold noAdjAtoms
  infer_instance

/-- A key that is a Python identifier of the modelled fragment: a
nonempty word not starting with a digit and distinct from the keywords
the fragment lexes specially. -/
def identKey (k : String) : Prop :=
  k.toList ≠ [] ∧ (∀ c ∈ k.toList, isWordChar c = true) ∧
  (∀ c, k.toList.head? = some c → isDigitC c = false) ∧
  k ≠ "if" ∧ k ≠ "else" ∧ k ≠ "True" ∧ k ≠ "False" ∧ k ≠ "None"

/-- A value whose `str` form exists and re-lexes as a single literal
token of the same value: a nonnegative int small enough for CPython's
int-to-str digit limit (at most 4300 decimal digits — beyond that
`str` raises `ValueError` inside `replace_var`, uncaught), a float with
a plain-decimal `str` form, or `None`. -/
def substitutable : Value → Prop
  | .int n => 0 ≤ n ∧ (renderNat n.natAbs).length ≤ 4300
  | .float q => (floatStr q).isSome = true
  | .pynone => True
  | .func _ => False
  | .nonrat => False

/-- The dict hypotheses of the substitution-correctness theorem:
nonempty (an empty dict raises `KeyError` instead — claim C8), with
identifier keys and substitutable values. -/
def GoodDict (d : Dict) : Prop :=
  d ≠ [] ∧ ∀ kv ∈ d, identKey kv.1 ∧ substitutable kv.2

instance : DecidablePred identKey := fun k => by
  unfold identKey
  infer_instance

instance : DecidablePred substitutable := fun v => by
  cases v <;> simp [substitutable] <;> infer_instance

instance : DecidablePred GoodDict := fun d => by
  unfold GoodDict
  infer_instance

theorem goodDict_wordKeys {d : Dict} (h : GoodDict d) : wordKeys d := by
  refine ⟨h.1, fun kv hkv => ?_⟩
  have := (h.2 kv hkv).1
  exact ⟨this.1, this.2.1⟩

/-- The fuel of `tokenizeF` is irrelevant as long as it exceeds the
input length. -/
theorem tokenizeF_fuelIrr : ∀ f1 f2 (s : List Char), s.length < f1 →
    s.length < f2 → tokenizeF f1 s = tokenizeF f2 s := by
  intro f1
  induction f1 with
  | zero => intro f2 s h1 _; omega
  | succ f1 ih =>
    intro f2 s h1 h2
    cases f2 with
    | zero => omega
    | succ f2 =>
      cases s with
      | nil => rfl
      | cons c s2 =>
        simp only [List.length_cons] at h1 h2
        by_cases hsp : c = ' '
        · have hr := ih f2 s2 (by omega) (by omega)
          simp [tokenizeF, hsp, hr]
        · by_cases hd : isDigitC c = true
          · have hlen := readNum_length_digit c s2 hd
            have hr := ih f2 (readNum (c :: s2)).2 (by omega) (by omega)
            cases hres : (readNum (c :: s2)).1 with
            | ok v => simp [tokenizeF, hsp, hd, hres, hr]
              | error e => simp [tokenizeF, hsp, hd, hres]
          · by_cases hdot : c = '.'
            · subst hdot
              cases s2 with
              | nil => simp [tokenizeF, hsp, hd]
              | cons c2 s3 =>
                by_cases hd2 : isDigitC c2 = true
                · have hlen := readNum_length_dot (c2 :: s3)
                  have hr := ih f2 (readNum ('.' :: c2 :: s3)).2
                    (by simp only [List.length_cons] at hlen h1; omega)
                    (by simp only [List.length_cons] at hlen h2; omega)
                  cases hres : (readNum ('.' :: c2 :: s3)).1 with
                  | ok v => simp [tokenizeF, hsp, hd, hd2, hres, hr]
                  | error e => simp [tokenizeF, hsp, hd, hd2, hres]
                · simp [tokenizeF, hsp, hd, hd2]
            · by_cases hid : isIdentStart c = true
              · have hlt := dropWhile_word_lt c s2 hid
                have hr := ih f2 (List.dropWhile isWordChar (c :: s2))
                  (by omega) (by omega)
                simp [tokenizeF, hsp, hd, hdot, hid, hr]
              · have hr := ih f2 s2 (by omega) (by omega)
                by_cases hpl : c = '+'
                · subst hpl
                  have d1 : isDigitC '+' = false := by decide
                  have i1 : isIdentStart '+' = false := by decide
                  simp [tokenizeF, d1, i1, hr]
                · by_cases hmi : c = '-'
                  · subst hmi
                    have d1 : isDigitC '-' = false := by decide
                    have i1 : isIdentStart '-' = false := by decide
                    simp [tokenizeF, d1, i1, hr]
                  · by_cases hst : c = '*'
                    · subst hst
                      have d1 : isDigitC '*' = false := by decide
                      have i1 : isIdentStart '*' = false := by decide
                      cases s2 with
                      | nil => simp [tokenizeF, d1, i1, hr]
                      | cons c2 s3 =>
                        by_cases hc2 : c2 = '*'
                        · subst hc2
                          have hr3 := ih f2 s3 (by simp at h1 ⊢; omega)
                            (by simp at h2 ⊢; omega)
                          simp [tokenizeF, d1, i1, hr3]
                        · simp [tokenizeF, d1, i1, hc2, hr]
                    · by_cases hsl : c = '/'
                      · subst hsl
                        have d1 : isDigitC '/' = false := by decide
                        have i1 : isIdentStart '/' = false := by decide
                        cases s2 with
                        | nil => simp [tokenizeF, d1, i1, hr]
                        | cons c2 s3 =>
                          by_cases hc2 : c2 = '/'
                          · subst hc2
                            have hr3 := ih f2 s3 (by simp at h1 ⊢; omega)
                              (by simp at h2 ⊢; omega)
                            simp [tokenizeF, d1, i1, hr3]
                          · simp [tokenizeF, d1, i1, hc2, hr]
                      · by_cases hpc : c = '%'
                        · subst hpc
                          have d1 : isDigitC '%' = false := by decide
                          have i1 : isIdentStart '%' = false := by decide
                          simp [tokenizeF, d1, i1, hr]
                        · by_cases hlp : c = '('
                          · subst hlp
                            have d1 : isDigitC '(' = false := by decide
                            have i1 : isIdentStart '(' = false := by decide
                            simp [tokenizeF, d1, i1, hr]
                          · by_cases hrp : c = ')'
                            · subst hrp
                              have d1 : isDigitC ')' = false := by decide
                              have i1 : isIdentStart ')' = false := by decide
                              simp [tokenizeF, d1, i1, hr]
                            · by_cases hcm : c = ','
                              · subst hcm
                                have d1 : isDigitC ',' = false := by decide
                                have i1 : isIdentStart ',' = false := by decide
                                simp [tokenizeF, d1, i1, hr]
                              · simp [tokenizeF, hsp, hd, hdot, hid, hpl, hmi, hst, hsl, hpc, hlp, hrp, hcm]

theorem digit_word {c : Char} (h : isDigitC c = true) : isWordChar c = true := by
unfold isDigitC at h
unfold isWordChar
simp only [Bool.or_eq_true]
tauto

theorem word_not_digit_identStart {c : Char} (hw : isWordChar c = true)
  (hd : isDigitC c = false) : isIdentStart c = true := by
unfold isWordChar at hw
unfold isDigitC at hd
unfold isIdentStart
simp only [Bool.or_eq_true] at *
rcases hw with ((h | h) | h) | h
· tauto
· tauto
· rw [h] at hd; cases hd
· tauto

theorem digit_ne_space {c : Char} (h : isDigitC c = true) : c ≠ ' ' := by
intro he; rw [he] at h; exact absurd h (by decide)

theorem digit_ne_dot {c : Char} (h : isDigitC c = true) : c ≠ '.' := by
intro he; rw [he] at h; exact absurd h (by decide)

theorem identStart_ne_space {c : Char} (h : isIdentStart c = true) : c ≠ ' ' := by
intro he; rw [he] at h; exact absurd h (by decide)

theorem identStart_ne_dot {c : Char} (h : isIdentStart c = true) : c ≠ '.' := by
intro he; rw [he] at h; exact absurd h (by decide)

theorem identStart_not_digit {c : Char} (h : isIdentStart c = true) :
  isDigitC c = false := by
unfold isIdentStart at h
unfold isDigitC
simp only [Bool.or_eq_true] at h
rcases h with (h | h) | h
· rcases Bool.and_eq_true _ _ |>.mp h with ⟨h1, h2⟩
  simp only [Bool.and_eq_false_iff]
  simp only [decide_eq_true_eq] at h1 h2
  right
  simp only [decide_eq_false_iff_not]
  intro hc
  exact absurd (le_trans h1 hc) (by decide)
· rcases Bool.and_eq_true _ _ |>.mp h with ⟨h1, h2⟩
  simp only [Bool.and_eq_false_iff]
  right
  simp only [decide_eq_false_iff_not]
  simp only [decide_eq_true_eq] at h1 h2
  intro hc
  exact absurd (le_trans h1 hc) (by decide)
· simp only [decide_eq_true_eq] at h
  rw [h]
  decide

/-- Splitting `takeWhile`/`dropWhile` around a run that satisfies the
predicate followed by a rest that does not start with it. -/
theorem span_all_append (p : Char → Bool) : ∀ (w u : List Char),
  (∀ c ∈ w, p c = true) → (∀ c, u.head? = some c → p c = false) →
  List.takeWhile p (w ++ u) = w ∧ List.dropWhile p (w ++ u) = u := by
intro w
induction w with
| nil =>
  intro u _ hu
  cases u with
  | nil => simp
  | cons c t =>
    have := hu c rfl
    simp [List.takeWhile, List.dropWhile, this]
| cons a w2 ih =>
  intro u hw hu
  have ha : p a = true := hw a (by simp)
  have := ih u (fun c hc => hw c (by simp [hc])) hu
  simp [List.takeWhile, List.dropWhile, ha, this.1, this.2]

theorem dropWhile_head_false (p : Char → Bool) : ∀ (l : List Char) (c : Char),
  (List.dropWhile p l).head? = some c → p c = false := by
intro l
induction l with
| nil => intro c h; cases h
| cons a t ih =>
  intro c h
  by_cases ha : p a
  · rw [List.dropWhile_cons_of_pos ha] at h
    exact ih c h
  · rw [List.dropWhile_cons_of_neg ha] at h
    cases h
    exact Bool.not_eq_true _ ▸ (by simpa using ha)

theorem takeWhile_all (p : Char → Bool) : ∀ (l : List Char),
  ∀ c ∈ List.takeWhile p l, p c = true := by
intro l
induction l with
| nil => intro c h; cases h
| cons a t ih =>
  intro c h
  by_cases ha : p a
  · rw [List.takeWhile_cons_of_pos ha] at h
    rcases List.mem_cons.mp h with rfl | h2
    · exact ha
    · exact ih c h2
  · rw [List.takeWhile_cons_of_neg ha] at h
    cases h

theorem takeWhile_dropWhile_append (p : Char → Bool) (l : List Char) :
  List.takeWhile p l ++ List.dropWhile p l = l :=
List.takeWhile_append_dropWhile p l

theorem digitChar_digit : ∀ m, m < 10 → isDigitC (Nat.digitChar m) = true := by
decide

theorem digitChar_val : ∀ m, m < 10 → (Nat.digitChar m).toNat - 48 = m := by
decide

theorem renderNatAux_digits : ∀ (fuel n : Nat),
  ∀ c ∈ renderNatAux fuel n, isDigitC c = true := by
intro fuel
induction fuel with
| zero => intro n c h; cases h
| succ fuel ih =>
  intro n c h
  unfold renderNatAux at h
  by_cases hn : n = 0
  · rw [if_pos hn] at h; cases h
  · rw [if_neg hn] at h
    rcases List.mem_append.mp h with h2 | h2
    · exact ih (n / 10) c h2
    · rcases List.mem_singleton.mp h2 with rfl
      exact digitChar_digit (n % 10) (Nat.mod_lt n (by omega))

theorem parseDigits_snoc (l : List Char) (c : Char) :
  parseDigits (l ++ [c]) = 10 * parseDigits l + (c.toNat - 48) := by
unfold parseDigits
rw [List.foldl_append]
rfl

theorem renderNatAux_roundtrip : ∀ (fuel n : Nat), n < fuel →
  parseDigits (renderNatAux fuel n) = n := by
intro fuel
induction fuel with
| zero => intro n h; omega
| succ fuel ih =>
  intro n h
  unfold renderNatAux
  by_cases hn : n = 0
  · rw [if_pos hn]
    simpa [parseDigits] using hn.symm
  · rw [if_neg hn]
    rw [parseDigits_snoc]
    have h1 : n / 10 < n := Nat.div_lt_self (by omega) (by omega)
    rw [ih (n / 10) (by omega)]
    rw [digitChar_val (n % 10) (Nat.mod_lt n (by omega))]
    omega

theorem renderNat_digits (n : Nat) : ∀ c ∈ renderNat n, isDigitC c = true := by
unfold renderNat
by_cases hn : n = 0
· rw [if_pos hn]
  intro c h
  rcases List.mem_singleton.mp h with rfl
  decide
· rw [if_neg hn]
  exact renderNatAux_digits (n + 1) n

theorem renderNat_ne_nil (n : Nat) : renderNat n ≠ [] := by
unfold renderNat
by_cases hn : n = 0
· rw [if_pos hn]; simp
· rw [if_neg hn]
  unfold renderNatAux
  rw [if_neg hn]
  simp

theorem renderNat_roundtrip (n : Nat) : parseDigits (renderNat n) = n := by
unfold renderNat
by_cases hn : n = 0
· rw [if_pos hn, hn]; decide
· rw [if_neg hn]
  exact renderNatAux_roundtrip (n + 1) n (by omega)

theorem renderNatAux_length : ∀ (fuel n k : Nat), n < fuel → n < 10 ^ k →
  (renderNatAux fuel n).length ≤ k := by
intro fuel
induction fuel with
| zero => intro n k h; omega
| succ fuel ih =>
  intro n k h hk
  unfold renderNatAux
  by_cases hn : n = 0
  · rw [if_pos hn]; simp
  · rw [if_neg hn]
    have hkpos : k ≠ 0 := by
      intro h0
      rw [h0] at hk
      simp at hk
      omega
    obtain ⟨k2, rfl⟩ : ∃ k2, k = k2 + 1 := ⟨k - 1, by omega⟩
    have h1 : n / 10 < n := Nat.div_lt_self (by omega) (by omega)
    have h2 : n / 10 < 10 ^ k2 := by
      rw [Nat.div_lt_iff_lt_mul (by omega)]
      calc n < 10 ^ (k2 + 1) := hk
      _ = 10 ^ k2 * 10 := by rw [pow_succ]
    have := ih (n / 10) k2 (by omega) h2
    simp only [List.length_append, List.length_singleton]
    omega

theorem renderNat_length_le (n k : Nat) (h1 : 1 ≤ k) (h2 : n < 10 ^ k) :
  (renderNat n).length ≤ k := by
unfold renderNat
by_cases hn : n = 0
· rw [if_pos hn]; simpa using h1
· rw [if_neg hn]
  exact renderNatAux_length (n + 1) n k (by omega) h2

theorem parseDigits_cons_zero (l : List Char) :
  parseDigits ('0' :: l) = parseDigits l := by
unfold parseDigits
simp only [List.foldl_cons]
rfl

theorem parseDigits_zeros_append : ∀ (m : Nat) (l : List Char),
  parseDigits (List.replicate m '0' ++ l) = parseDigits l := by
intro m
induction m with
| zero => intro l; simp
| succ m ih =>
  intro l
  rw [List.replicate_succ, List.cons_append, parseDigits_cons_zero]
  exact ih l

theorem decExp_den (q : ℚ) : ∀ (n k : Nat), decExp q n = some k →
  (q * (10 : ℚ) ^ k).den = 1 := by
intro n
induction n with
| zero =>
  intro k h
  unfold decExp at h
  by_cases hc : (q * (10 : ℚ) ^ (0 : Nat)).den = 1
  · rw [if_pos hc] at h
    cases h
    exact hc
  · rw [if_neg hc] at h
    cases h
| succ n ih =>
  intro k h
  unfold decExp at h
  cases hd : decExp q n with
  | some k2 =>
    rw [hd] at h
    injection h with h2
    subst h2
    exact ih _ hd
  | none =>
    rw [hd] at h
    by_cases hc : (q * (10 : ℚ) ^ (n + 1)).den = 1
    · rw [if_pos hc] at h
      cases h
      exact hc
    · rw [if_neg hc] at h
      cases h

/-- Recomposing a nonnegative rational from its rendered integer and
fractional decimal parts. -/
theorem decimal_recompose (q : ℚ) (ipN frN m : Nat) (hm : 1 ≤ m)
  (hip : (ipN : ℚ) = (⌊q⌋ : ℚ))
  (hfr : (frN : ℚ) = (q - (⌊q⌋ : ℚ)) * (10 : ℚ) ^ m)
  (hlt : frN < 10 ^ m) :
  ((parseDigits (renderNat ipN) : ℚ) +
    (parseDigits (List.replicate (m - (renderNat frN).length) '0' ++ renderNat frN) : ℚ) /
    (10 : ℚ) ^ (List.replicate (m - (renderNat frN).length) '0' ++ renderNat frN).length) = q := by
have hlen := renderNat_length_le frN m hm hlt
rw [parseDigits_zeros_append, renderNat_roundtrip, renderNat_roundtrip]
simp only [List.length_append, List.length_replicate]
have hexp : m - (renderNat frN).length + (renderNat frN).length = m := by omega
rw [hexp, hip, hfr]
field_simp

/-- The plain-decimal `str` form of a float re-parses (integer part, dot,
fractional part) to exactly the rational it renders. -/
theorem floatStr_spec (q : ℚ) (repl : List Char) (h : floatStr q = some repl) :
  ∃ ds fs, repl = ds ++ '.' :: fs ∧ ds ≠ [] ∧ fs ≠ [] ∧
    (∀ c ∈ ds, isDigitC c = true) ∧ (∀ c ∈ fs, isDigitC c = true) ∧
    ((parseDigits ds : ℚ) + (parseDigits fs : ℚ) / (10 : ℚ) ^ fs.length) = q := by
unfold floatStr at h
split at h
case isTrue hcond =>
  cases hk : decExp q 16 with
  | none => rw [hk] at h; cases h
  | some k =>
    rw [hk] at h
    simp only [Option.some.injEq] at h
    cases h
    have hq0 : 0 ≤ q := hcond.1
    have hfl0 : (0 : ℤ) ≤ ⌊q⌋ := Int.floor_nonneg.mpr hq0
    have hden_k : (q * (10 : ℚ) ^ k).den = 1 := decExp_den q 16 k hk
    have hk1 : 1 ≤ max k 1 := le_max_right _ _
    have hz : ∃ z : ℤ, q * (10 : ℚ) ^ (max k 1) = (z : ℚ) := by
      have hm : ((q * (10 : ℚ) ^ k).num : ℚ) = q * (10 : ℚ) ^ k :=
        Rat.coe_int_num_of_den_eq_one hden_k
      refine ⟨(q * (10 : ℚ) ^ k).num * 10 ^ (max k 1 - k), ?_⟩
      push_cast
      rw [hm, mul_assoc, ← pow_add]
      congr 2
      omega
    have hr : ∃ z : ℤ, (q - (⌊q⌋ : ℚ)) * (10 : ℚ) ^ (max k 1) = (z : ℚ) := by
      obtain ⟨z, hz⟩ := hz
      refine ⟨z - ⌊q⌋ * 10 ^ (max k 1), ?_⟩
      push_cast
      rw [sub_mul, hz]
    obtain ⟨z, hzr⟩ := hr
    have hpow_pos : (0 : ℚ) < (10 : ℚ) ^ (max k 1) := by positivity
    have hr0 : (0 : ℚ) ≤ (q - (⌊q⌋ : ℚ)) * (10 : ℚ) ^ (max k 1) :=
      mul_nonneg (sub_nonneg.mpr (Int.floor_le q)) (le_of_lt hpow_pos)
    have hrlt : (q - (⌊q⌋ : ℚ)) * (10 : ℚ) ^ (max k 1) < (10 : ℚ) ^ (max k 1) := by
      have h1 : q - (⌊q⌋ : ℚ) < 1 := by
        have := Int.lt_floor_add_one q
        linarith
      calc (q - (⌊q⌋ : ℚ)) * (10 : ℚ) ^ (max k 1)
          < 1 * (10 : ℚ) ^ (max k 1) := mul_lt_mul_of_pos_right h1 hpow_pos
      _ = (10 : ℚ) ^ (max k 1) := one_mul _
    have hz0 : (0 : ℤ) ≤ z := by
      rw [hzr] at hr0
      exact_mod_cast hr0
    have hzlt : z < (10 : ℤ) ^ (max k 1) := by
      rw [hzr] at hrlt
      exact_mod_cast hrlt
    have hnum : ((q - (⌊q⌋ : ℚ)) * (10 : ℚ) ^ (max k 1)).num = z := by
      rw [hzr]
      exact Rat.num_intCast z
    have hfrq : ((((q - (⌊q⌋ : ℚ)) * (10 : ℚ) ^ (max k 1)).num.toNat : ℚ)) =
        (q - (⌊q⌋ : ℚ)) * (10 : ℚ) ^ (max k 1) := by
      rw [hnum, hzr]
      exact_mod_cast Int.toNat_of_nonneg hz0
    have hfrlt : ((q - (⌊q⌋ : ℚ)) * (10 : ℚ) ^ (max k 1)).num.toNat <
        10 ^ (max k 1) := by
      rw [hnum]
      have : ((10 : ℤ) ^ (max k 1)) = ((10 ^ (max k 1) : ℕ) : ℤ) := by push_cast; rfl
      omega
    have hlen := renderNat_length_le _ _ hk1 hfrlt
    have hipq : ((⌊q⌋.toNat : ℚ)) = (⌊q⌋ : ℚ) := by
      exact_mod_cast Int.toNat_of_nonneg hfl0
    refine ⟨_, _, rfl, renderNat_ne_nil _, ?_, renderNat_digits _, ?_, ?_⟩
    · intro hnil
      have := congrArg List.length hnil
      simp only [List.length_append, List.length_replicate, List.length_nil] at this
      omega
    · intro c hc
      rcases List.mem_append.mp hc with h2 | h2
      · rcases List.mem_replicate.mp h2 with ⟨_, rfl⟩
        decide
      · exact renderNat_digits _ c h2
    · exact decimal_recompose q ⌊q⌋.toNat _ (max k 1) hk1 hipq hfrq hfrlt
case isFalse => cases h

theorem tokenize_nil_eq : tokenize [] = .ok [] := rfl

theorem tokenize_cons_space (s : List Char) : tokenize (' ' :: s) = tokenize s := by
unfold tokenize
simp only [List.length_cons]
simp [tokenizeF]

theorem tokenize_cons_digit (c : Char) (s : List Char) (hc : isDigitC c = true) :
  tokenize (c :: s) =
    match (readNum (c :: s)).1 with
    | .ok v => (tokenize (readNum (c :: s)).2).map (fun ts => Tok.num v :: ts)
    | .error e => .error e := by
have hsp : ¬c = ' ' := digit_ne_space hc
unfold tokenize
simp only [List.length_cons]
have hstep : tokenizeF (s.length + 1 + 1) (c :: s) =
    match (readNum (c :: s)).1 with
    | .ok v => (tokenizeF (s.length + 1) (readNum (c :: s)).2).map
        (fun ts => Tok.num v :: ts)
    | .error e => .error e := by
  simp [tokenizeF, hsp, hc]
rw [hstep]
cases hres : (readNum (c :: s)).1 with
| ok v =>
  rw [tokenizeF_fuelIrr (s.length + 1) ((readNum (c :: s)).2.length + 1)
    ((readNum (c :: s)).2) (by have := readNum_length_digit c s hc; omega) (by omega)]
| error e => rfl

theorem tokenize_cons_dot_digit (c2 : Char) (s2 : List Char) (h2 : isDigitC c2 = true) :
  tokenize ('.' :: c2 :: s2) =
    match (readNum ('.' :: c2 :: s2)).1 with
    | .ok v => (tokenize (readNum ('.' :: c2 :: s2)).2).map (fun ts => Tok.num v :: ts)
    | .error e => .error e := by
have d1 : isDigitC '.' = false := by decide
unfold tokenize
simp only [List.length_cons]
have hstep : tokenizeF (s2.length + 1 + 1 + 1) ('.' :: c2 :: s2) =
    match (readNum ('.' :: c2 :: s2)).1 with
    | .ok v => (tokenizeF (s2.length + 1 + 1) (readNum ('.' :: c2 :: s2)).2).map
        (fun ts => Tok.num v :: ts)
    | .error e => .error e := by
  simp [tokenizeF, d1, h2]
rw [hstep]
cases hres : (readNum ('.' :: c2 :: s2)).1 with
| ok v =>
  rw [tokenizeF_fuelIrr (s2.length + 1 + 1) ((readNum ('.' :: c2 :: s2)).2.length + 1)
    ((readNum ('.' :: c2 :: s2)).2)
    (by have := readNum_length_dot (c2 :: s2); simp only [List.length_cons] at this; omega)
    (by omega)]
| error e => rfl

theorem tokenize_cons_dot_bad (s2 : List Char)
  (h2 : ∀ c, s2.head? = some c → isDigitC c = false) :
  tokenize ('.' :: s2) = .error .synErr := by
have d1 : isDigitC '.' = false := by decide
unfold tokenize
cases s2 with
| nil => simp [tokenizeF, d1]
| cons c2 s3 =>
  have h3 := h2 c2 rfl
  simp [tokenizeF, d1, h3]

theorem tokenize_cons_word (c : Char) (s : List Char) (hc : isIdentStart c = true) :
  tokenize (c :: s) = (tokenize (List.dropWhile isWordChar (c :: s))).map
    (fun ts => wordTok (String.mk (List.takeWhile isWordChar (c :: s))) :: ts) := by
have hsp : ¬c = ' ' := identStart_ne_space hc
have hd : isDigitC c = false := identStart_not_digit hc
have hdot : ¬c = '.' := identStart_ne_dot hc
unfold tokenize
simp only [List.length_cons]
have hstep : tokenizeF (s.length + 1 + 1) (c :: s) =
    (tokenizeF (s.length + 1) (List.dropWhile isWordChar (c :: s))).map
      (fun ts => wordTok (String.mk (List.takeWhile isWordChar (c :: s))) :: ts) := by
  simp [tokenizeF, hsp, hd, hdot, hc]
rw [hstep]
rw [tokenizeF_fuelIrr (s.length + 1) ((List.dropWhile isWordChar (c :: s)).length + 1)
  (List.dropWhile isWordChar (c :: s))
  (by have := dropWhile_word_lt c s hc; omega) (by omega)]

/-- The single-character operator tokens. -/
def opTok : Char → Option Tok
| '+' => some .plus
| '-' => some .minus
| '%' => some .percent
| '(' => some .lparen
| ')' => some .rparen
| ',' => some .comma
| _ => none

theorem tokenize_cons_op (c : Char) (t : Tok) (s : List Char) (h : opTok c = some t) :
  tokenize (c :: s) = (tokenize s).map (fun ts => t :: ts) := by
unfold opTok at h
split at h
· cases h
  have d1 : isDigitC '+' = false := by decide
  have i1 : isIdentStart '+' = false := by decide
  unfold tokenize
  simp only [List.length_cons]
  simp [tokenizeF, d1, i1]
· cases h
  have d1 : isDigitC '-' = false := by decide
  have i1 : isIdentStart '-' = false := by decide
  unfold tokenize
  simp only [List.length_cons]
  simp [tokenizeF, d1, i1]
· cases h
  have d1 : isDigitC '%' = false := by decide
  have i1 : isIdentStart '%' = false := by decide
  unfold tokenize
  simp only [List.length_cons]
  simp [tokenizeF, d1, i1]
· cases h
  have d1 : isDigitC '(' = false := by decide
  have i1 : isIdentStart '(' = false := by decide
  unfold tokenize
  simp only [List.length_cons]
  simp [tokenizeF, d1, i1]
· cases h
  have d1 : isDigitC ')' = false := by decide
  have i1 : isIdentStart ')' = false := by decide
  unfold tokenize
  simp only [List.length_cons]
  simp [tokenizeF, d1, i1]
· cases h
  have d1 : isDigitC ',' = false := by decide
  have i1 : isIdentStart ',' = false := by decide
  unfold tokenize
  simp only [List.length_cons]
  simp [tokenizeF, d1, i1]
· cases h

theorem tokenizeF_dstar (f : Nat) (s : List Char) :
  tokenizeF (f + 1) ('*' :: '*' :: s) = (tokenizeF f s).map (fun ts => Tok.dstar :: ts) := by
have d1 : isDigitC '*' = false := by decide
have i1 : isIdentStart '*' = false := by decide
simp [tokenizeF, d1, i1]

theorem tokenize_cons_dstar (s : List Char) :
  tokenize ('*' :: '*' :: s) = (tokenize s).map (fun ts => Tok.dstar :: ts) := by
unfold tokenize
simp only [List.length_cons]
rw [tokenizeF_dstar (s.length + 1 + 1) s,
  tokenizeF_fuelIrr (s.length + 1 + 1) (s.length + 1) s (by omega) (by omega)]

theorem tokenize_cons_star (s : List Char)
  (hhd : ∀ c, s.head? = some c → c ≠ '*') :
  tokenize ('*' :: s) = (tokenize s).map (fun ts => Tok.star :: ts) := by
have d1 : isDigitC '*' = false := by decide
have i1 : isIdentStart '*' = false := by decide
unfold tokenize
cases s with
| nil => simp [tokenizeF, d1, i1]
| cons c2 s3 =>
  have hne := hhd c2 rfl
  simp only [List.length_cons]
  simp [tokenizeF, d1, i1, hne]

theorem tokenizeF_dslash (f : Nat) (s : List Char) :
  tokenizeF (f + 1) ('/' :: '/' :: s) = (tokenizeF f s).map (fun ts => Tok.dslash :: ts) := by
have d1 : isDigitC '/' = false := by decide
have i1 : isIdentStart '/' = false := by decide
simp [tokenizeF, d1, i1]

theorem tokenize_cons_dslash (s : List Char) :
  tokenize ('/' :: '/' :: s) = (tokenize s).map (fun ts => Tok.dslash :: ts) := by
unfold tokenize
simp only [List.length_cons]
rw [tokenizeF_dslash (s.length + 1 + 1) s,
  tokenizeF_fuelIrr (s.length + 1 + 1) (s.length + 1) s (by omega) (by omega)]

theorem tokenize_cons_slash (s : List Char)
  (hhd : ∀ c, s.head? = some c → c ≠ '/') :
  tokenize ('/' :: s) = (tokenize s).map (fun ts => Tok.slash :: ts) := by
have d1 : isDigitC '/' = false := by decide
have i1 : isIdentStart '/' = false := by decide
unfold tokenize
cases s with
| nil => simp [tokenizeF, d1, i1]
| cons c2 s3 =>
  have hne := hhd c2 rfl
  simp only [List.length_cons]
  simp [tokenizeF, d1, i1, hne]

theorem readNum_int_chunk (ds u : List Char)
  (hds : ∀ c ∈ ds, isDigitC c = true)
  (hu : ∀ c, u.head? = some c → isWordChar c = false ∧ c ≠ '.') :
  readNum (ds ++ u) = (.ok (.int (parseDigits ds)), u) := by
cases u with
| nil =>
  have h1 := span_all_append isDigitC ds [] hds (fun c hc => by cases hc)
  simp only [List.append_nil] at h1 ⊢
  simp [readNum, h1.1, h1.2]
| cons c u2 =>
  have h2 := hu c rfl
  have hspan := span_all_append isDigitC ds (c :: u2) hds (fun x hx => by
    cases hx
    cases hdc : isDigitC c with
    | false => rfl
    | true => exact absurd (digit_word hdc) (by simp [h2.1]))
  simp [readNum, hspan.1, hspan.2, h2.1, h2.2]

theorem readNum_int_chunk_err (ds : List Char) (c : Char) (u2 : List Char)
  (hds : ∀ x ∈ ds, isDigitC x = true) (hcw : isWordChar c = true)
  (hcd : isDigitC c = false) (hcdot : c ≠ '.') :
  (readNum (ds ++ c :: u2)).1 = .error .synErr := by
have hspan := span_all_append isDigitC ds (c :: u2) hds (fun x hx => by
  cases hx; exact hcd)
simp [readNum, hspan.1, hspan.2, hcdot, hcw]

theorem readNum_float_chunk (ds fs u : List Char)
  (hds : ∀ c ∈ ds, isDigitC c = true) (hfs : ∀ c ∈ fs, isDigitC c = true)
  (hu : ∀ c, u.head? = some c → isWordChar c = false) :
  readNum (ds ++ '.' :: (fs ++ u)) =
    (.ok (.float ((parseDigits ds : ℚ) + (parseDigits fs : ℚ) / (10 : ℚ) ^ fs.length)),
      u) := by
have hdot : isDigitC '.' = false := by decide
have hspan1 := span_all_append isDigitC ds ('.' :: (fs ++ u)) hds (fun c hc => by
  cases hc; exact hdot)
cases u with
| nil =>
  have hspan2 := span_all_append isDigitC fs [] hfs (fun c hc => by cases hc)
  simp only [List.append_nil] at hspan1 hspan2 ⊢
  simp [readNum, hspan1.1, hspan1.2, hspan2.1, hspan2.2]
| cons c u2 =>
  have h2 := hu c rfl
  have hspan2 := span_all_append isDigitC fs (c :: u2) hfs (fun x hx => by
    cases hx
    cases hdc : isDigitC c with
    | false => rfl
    | true => exact absurd (digit_word hdc) (by simp [h2]))
  simp [readNum, hspan1.1, hspan1.2, hspan2.1, hspan2.2, h2]

theorem readNum_float_chunk_err (ds fs : List Char) (c : Char) (u2 : List Char)
  (hds : ∀ x ∈ ds, isDigitC x = true) (hfs : ∀ x ∈ fs, isDigitC x = true)
  (hcw : isWordChar c = true) (hcd : isDigitC c = false) :
  (readNum (ds ++ '.' :: (fs ++ c :: u2))).1 = .error .synErr := by
have hdot : isDigitC '.' = false := by decide
have hspan1 := span_all_append isDigitC ds ('.' :: (fs ++ c :: u2)) hds (fun x hx => by
  cases hx; exact hdot)
have hspan2 := span_all_append isDigitC fs (c :: u2) hfs (fun x hx => by
  cases hx; exact hcd)
simp [readNum, hspan1.1, hspan1.2, hspan2.1, hspan2.2, hcw]

/-- Successful numeral lexing: the input splits into an all-digit run, an
optional dot and fraction run, and a rest that starts with a non-word
character (and not a dot, in the integer case); the value is determined
by the digit runs. -/
theorem readNum_ok_cases (s : List Char) (v : Value)
  (h : (readNum s).1 = .ok v) :
  (v = .int (parseDigits (List.takeWhile isDigitC s)) ∧
    (readNum s).2 = List.dropWhile isDigitC s ∧
    (∀ c, (List.dropWhile isDigitC s).head? = some c →
      isWordChar c = false ∧ c ≠ '.')) ∨
  (∃ r2, List.dropWhile isDigitC s = '.' :: r2 ∧
    v = .float ((parseDigits (List.takeWhile isDigitC s) : ℚ) +
      (parseDigits (List.takeWhile isDigitC r2) : ℚ) /
      (10 : ℚ) ^ (List.takeWhile isDigitC r2).length) ∧
    (readNum s).2 = List.dropWhile isDigitC r2 ∧
    (∀ c, (List.dropWhile isDigitC r2).head? = some c → isWordChar c = false)) := by
have hD := takeWhile_all isDigitC s
have hs := takeWhile_dropWhile_append isDigitC s
cases hR : List.dropWhile isDigitC s with
| nil =>
  rw [hR, List.append_nil] at hs
  have hrn := readNum_int_chunk (List.takeWhile isDigitC s) [] hD
    (fun c hc => by cases hc)
  rw [List.append_nil] at hrn
  conv at hrn => lhs; rw [hs]
  refine Or.inl ⟨?_, ?_, ?_⟩
  · rw [hrn] at h
    injection h with h2
    exact h2.symm
  · rw [hrn]
  · intro c hc
    cases hc
| cons c1 r2 =>
  have hc1d : isDigitC c1 = false :=
    dropWhile_head_false isDigitC s c1 (by rw [hR]; rfl)
  rw [hR] at hs
  by_cases hdot : c1 = '.'
  · subst hdot
    have hF := takeWhile_all isDigitC r2
    have hs2 := takeWhile_dropWhile_append isDigitC r2
    cases hR3 : List.dropWhile isDigitC r2 with
    | nil =>
      rw [hR3, List.append_nil] at hs2
      have hrn := readNum_float_chunk (List.takeWhile isDigitC s)
        (List.takeWhile isDigitC r2) [] hD hF (fun c hc => by cases hc)
      rw [List.append_nil] at hrn
      conv at hrn => lhs; rw [hs2, hs]
      refine Or.inr ⟨r2, rfl, ?_, ?_, ?_⟩
      · rw [hrn] at h
        injection h with h2
        exact h2.symm
      · rw [hrn, hR3]
      · intro c hc
        rw [hR3] at hc
        cases hc
    | cons c3 r4 =>
      have hc3d : isDigitC c3 = false :=
        dropWhile_head_false isDigitC r2 c3 (by rw [hR3]; rfl)
      by_cases hw3 : isWordChar c3 = true
      · exfalso
        have hrn := readNum_float_chunk_err (List.takeWhile isDigitC s)
          (List.takeWhile isDigitC r2) c3 r4 hD hF hw3 hc3d
        rw [show List.takeWhile isDigitC r2 ++ c3 :: r4 = r2 from by
          rw [← hR3]; exact hs2] at hrn
        rw [hs] at hrn
        rw [hrn] at h
        cases h
      · have hrn := readNum_float_chunk (List.takeWhile isDigitC s)
          (List.takeWhile isDigitC r2) (c3 :: r4) hD hF
          (fun c hc => by cases hc; simpa using hw3)
        rw [show List.takeWhile isDigitC r2 ++ c3 :: r4 = r2 from by
          rw [← hR3]; exact hs2] at hrn
        rw [hs] at hrn
        refine Or.inr ⟨r2, rfl, ?_, ?_, ?_⟩
        · rw [hrn] at h
          injection h with h2
          exact h2.symm
        · rw [hrn, hR3]
        · intro c hc
          rw [hR3] at hc
          cases hc
          simpa using hw3
  · by_cases hw1 : isWordChar c1 = true
    · exfalso
      have hrn := readNum_int_chunk_err (List.takeWhile isDigitC s) c1 r2 hD hw1 hc1d hdot
      rw [hs] at hrn
      rw [hrn] at h
      cases h
    · have hrn := readNum_int_chunk (List.takeWhile isDigitC s) (c1 :: r2) hD
        (fun c hc => by cases hc; exact ⟨by simpa using hw1, hdot⟩)
      rw [hs] at hrn
      refine Or.inl ⟨?_, ?_, ?_⟩
      · rw [hrn] at h
        injection h with h2
        exact h2.symm
      · rw [hrn]
      · intro c hc
        cases hc
        exact ⟨by simpa using hw1, hdot⟩

theorem tokenize_int_prepend (ds u : List Char) (us : List Tok) (hne : ds ≠ [])
  (hds : ∀ c ∈ ds, isDigitC c = true)
  (hu : ∀ c, u.head? = some c → isWordChar c = false ∧ c ≠ '.')
  (h : tokenize u = .ok us) :
  tokenize (ds ++ u) = .ok (Tok.num (.int (parseDigits ds)) :: us) := by
obtain ⟨c, ds2, rfl⟩ : ∃ c ds2, ds = c :: ds2 := by
  cases ds with
  | nil => exact absurd rfl hne
  | cons c ds2 => exact ⟨c, ds2, rfl⟩
have hc : isDigitC c = true := hds c (by simp)
have hrn : readNum (c :: (ds2 ++ u)) = (.ok (.int (parseDigits (c :: ds2))), u) := by
  have := readNum_int_chunk (c :: ds2) u hds hu
  simpa [List.cons_append] using this
rw [List.cons_append, tokenize_cons_digit c (ds2 ++ u) hc, hrn]
simp only []
rw [h]
rfl

theorem tokenize_float_prepend (ds fs u : List Char) (us : List Tok) (hne : ds ≠ [])
  (hds : ∀ c ∈ ds, isDigitC c = true) (hfs : ∀ c ∈ fs, isDigitC c = true)
  (hu : ∀ c, u.head? = some c → isWordChar c = false)
  (h : tokenize u = .ok us) :
  tokenize (ds ++ '.' :: (fs ++ u)) =
    .ok (Tok.num (.float ((parseDigits ds : ℚ) +
      (parseDigits fs : ℚ) / (10 : ℚ) ^ fs.length)) :: us) := by
obtain ⟨c, ds2, rfl⟩ : ∃ c ds2, ds = c :: ds2 := by
  cases ds with
  | nil => exact absurd rfl hne
  | cons c ds2 => exact ⟨c, ds2, rfl⟩
have hc : isDigitC c = true := hds c (by simp)
have hrn : readNum (c :: (ds2 ++ '.' :: (fs ++ u))) =
    (.ok (.float ((parseDigits (c :: ds2) : ℚ) +
      (parseDigits fs : ℚ) / (10 : ℚ) ^ fs.length)), u) := by
  have := readNum_float_chunk (c :: ds2) fs u hds hfs hu
  simpa [List.cons_append] using this
rw [List.cons_append, tokenize_cons_digit c (ds2 ++ '.' :: (fs ++ u)) hc, hrn]
simp only []
rw [h]
rfl

theorem tokenize_dotfloat_prepend (fs u : List Char) (us : List Tok)
  (hne : fs ≠ []) (hfs : ∀ c ∈ fs, isDigitC c = true)
  (hu : ∀ c, u.head? = some c → isWordChar c = false)
  (h : tokenize u = .ok us) :
  tokenize ('.' :: (fs ++ u)) =
    .ok (Tok.num (.float ((parseDigits ([] : List Char) : ℚ) +
      (parseDigits fs : ℚ) / (10 : ℚ) ^ fs.length)) :: us) := by
obtain ⟨c2, fs2, rfl⟩ : ∃ c2 fs2, fs = c2 :: fs2 := by
  cases fs with
  | nil => exact absurd rfl hne
  | cons c2 fs2 => exact ⟨c2, fs2, rfl⟩
have hc2 : isDigitC c2 = true := hfs c2 (by simp)
have hrn : readNum ('.' :: (c2 :: fs2 ++ u)) =
    (.ok (.float ((parseDigits ([] : List Char) : ℚ) +
      (parseDigits (c2 :: fs2) : ℚ) / (10 : ℚ) ^ (c2 :: fs2).length)), u) := by
  have := readNum_float_chunk [] (c2 :: fs2) u (fun c hc => by cases hc) hfs hu
  simpa using this
have hshape : ('.' :: (c2 :: fs2 ++ u)) = ('.' :: c2 :: (fs2 ++ u)) := by simp
rw [hshape, tokenize_cons_dot_digit c2 (fs2 ++ u) hc2, ← hshape, hrn]
simp only []
rw [h]
rfl

theorem tokenize_word_prepend (w u : List Char) (us : List Tok) (hne : w ≠ [])
  (hw : ∀ c ∈ w, isWordChar c = true)
  (hid : ∀ c, w.head? = some c → isIdentStart c = true)
  (hu : ∀ c, u.head? = some c → isWordChar c = false)
  (h : tokenize u = .ok us) :
  tokenize (w ++ u) = .ok (wordTok (String.mk w) :: us) := by
obtain ⟨c, w2, rfl⟩ : ∃ c w2, w = c :: w2 := by
  cases w with
  | nil => exact absurd rfl hne
  | cons c w2 => exact ⟨c, w2, rfl⟩
have hc : isIdentStart c = true := hid c rfl
have hspan := span_all_append isWordChar (c :: w2) u hw hu
rw [List.cons_append, tokenize_cons_word c (w2 ++ u) hc]
rw [show (c :: (w2 ++ u)) = ((c :: w2) ++ u) from by simp]
rw [hspan.1, hspan.2, h]
rfl

theorem tryAlts_nil_input (alts : List String) (p : Bool)
  (halts : ∀ k ∈ alts, k.toList ≠ []) : tryAlts p alts [] = none := by
induction alts with
| nil => rfl
| cons k rest ih =>
  have hm : altMatch p k.toList [] = none := by
    cases hkl : k.toList with
    | nil => exact absurd hkl (halts k (by simp))
    | cons a k2 => simp [altMatch]
  unfold tryAlts
  rw [hm]
  exact ih (fun k2 hk2 => halts k2 (by simp [hk2]))

theorem tryAlts_headNe (alts : List String) (p : Bool) (c : Char) (s : List Char)
  (halts : ∀ k ∈ alts, k.toList ≠ [] ∧
    ∀ a, k.toList.head? = some a → a ≠ c) :
  tryAlts p alts (c :: s) = none := by
induction alts with
| nil => rfl
| cons k rest ih =>
  have hm : altMatch p k.toList (c :: s) = none := by
    cases hkl : k.toList with
    | nil => exact absurd hkl (halts k (by simp)).1
    | cons a k2 =>
      have hne := (halts k (by simp)).2 a (by rw [hkl]; rfl)
      simp [altMatch, hne]
  unfold tryAlts
  rw [hm]
  exact ih (fun k2 hk2 => halts k2 (by simp [hk2]))

/-- The scan returns an empty input unchanged (for word-shaped keys,
which never match at the end of input). -/
theorem substAux_nil (d : Dict) (hd : wordKeys d) (fuel : Nat) (p : Bool) :
  substAux d (fuel + 1) p [] = .ok [] := by
have htry := tryAlts_nil_input (altList d) p (fun k hk => (wordKeys_alts hd k hk).1)
by_cases hb : boundary p [] = true
· simp [substAux, hb, htry]
· simp [substAux, hb]

/-- A non-word character is always copied unchanged, and the scan
continues with `prevW = false`. -/
theorem substAux_copy_nonword (d : Dict) (hd : wordKeys d) (p : Bool)
  (c : Char) (hc : isWordChar c = false) (t : List Char) :
  ∀ fuel, (c :: t).length < fuel →
  substAux d fuel p (c :: t) = (substAux d fuel false t).map (fun r => c :: r) := by
intro fuel hf
simp only [List.length_cons] at hf
cases fuel with
| zero => omega
| succ fuel =>
  have hirr := substAux_fuelIrr d fuel (fuel + 1) false t (by omega) (by omega)
  cases p with
  | false =>
    have hb : boundary false (c :: t) = false := by simp [boundary, hc]
    rw [← hirr]
    cases hX : substAux d fuel false t <;>
      simp [substAux, hb, hc, hX, Except.map]
  | true =>
    have hb : boundary true (c :: t) = true := by simp [boundary, hc]
    have htryn : tryAlts true (altList d) (c :: t) = none :=
      tryAlts_nonword (altList d) true c t hc (wordKeys_alts hd)
    rw [← hirr]
    cases hX : substAux d fuel false t <;>
      simp [substAux, hb, hc, htryn, hX, Except.map]

/-- A run of digits after a non-word position is copied unchanged when no
key starts with a digit; the scan continues with `prevW = true`. -/
theorem substAux_copy_digitrun (d : Dict) (hd : wordKeys d)
  (hheads : ∀ kv ∈ d, ∀ a, kv.1.toList.head? = some a → isDigitC a = false)
  (ds t : List Char) (hne : ds ≠ []) (hds : ∀ c ∈ ds, isDigitC c = true) :
  ∀ fuel, (ds ++ t).length < fuel →
  substAux d fuel false (ds ++ t) = (substAux d fuel true t).map (fun r => ds ++ r) := by
intro fuel hf
cases fuel with
| zero => simp at hf
| succ fuel =>
  obtain ⟨a, ds2, rfl⟩ : ∃ a ds2, ds = a :: ds2 := by
    cases ds with
    | nil => exact absurd rfl hne
    | cons a ds2 => exact ⟨a, ds2, rfl⟩
  have had : isDigitC a = true := hds a (by simp)
  have haw : isWordChar a = true := digit_word had
  have hb : boundary false ((a :: ds2) ++ t) = true := by simp [boundary, haw]
  have htry : tryAlts false (altList d) (a :: (ds2 ++ t)) = none := by
    apply tryAlts_headNe
    intro k hk
    refine ⟨(wordKeys_alts hd k hk).1, fun b hb2 => ?_⟩
    rw [altList_eq d hd.1] at hk
    obtain ⟨kv, hkv, rfl⟩ := List.mem_map.mp hk
    have hbd := hheads kv hkv b hb2
    intro he
    rw [he, had] at hbd
    cases hbd
  have hlen : (ds2 ++ t).length < fuel := by simp at hf ⊢; omega
  have hmid := substAux_midrun d ds2 (fun c hc => digit_word (hds c (by simp [hc]))) t fuel hlen
  have hirr := substAux_fuelIrr d fuel (fuel + 1) true t
    (by simp at hf; omega) (by simp at hf; omega)
  simp only [List.cons_append] at hb ⊢
  rw [← hirr]
  cases hX : substAux d fuel true t <;>
    simp [substAux, hb, htry, haw, hmid, hX, Except.map]

theorem dlookup_mem (d : Dict) (n : String) (v : Value)
  (h : dlookup d n = some v) : (n, v) ∈ d := by
induction d with
| nil => cases h
| cons kv rest ih =>
  unfold dlookup at h
  split at h
  next heq =>
    injection h with h2
    rw [← heq, ← h2]
    simp
  next => simpa using Or.inr (ih h)

theorem goodDict_keys_ident {d : Dict} (hd : GoodDict d) {n : String}
  (h : n ∈ d.map Prod.fst) : identKey n := by
obtain ⟨kv, hkv, rfl⟩ := List.mem_map.mp h
exact (hd.2 kv hkv).1

theorem wordTok_name_of_identKey (w : String) (h : identKey w) :
  wordTok w = .name w := by
obtain ⟨-, -, -, h4, h5, h6, h7, h8⟩ := h
unfold wordTok
rw [if_neg h4, if_neg h5, if_neg h6, if_neg h7, if_neg h8]

theorem substTok_wordTok_none (d : Dict) (w : String)
  (h : dlookup d w = none) : substTok d (wordTok w) = wordTok w := by
unfold wordTok
by_cases h1 : w = "if"
· simp [h1, substTok]
· by_cases h2 : w = "else"
  · simp [h1, h2, substTok]
  · by_cases h3 : w = "True"
    · simp [h1, h2, h3, substTok]
    · by_cases h4 : w = "False"
      · simp [h1, h2, h3, h4, substTok]
      · by_cases h5 : w = "None"
        · simp [h1, h2, h3, h4, h5, substTok]
        · simp [h1, h2, h3, h4, h5, substTok, h]

theorem tokenize_dot_head (u : List Char) (ts0 : List Tok)
  (h : tokenize ('.' :: u) = .ok ts0) : ∃ q rest, ts0 = .num q :: rest := by
cases u with
| nil =>
  rw [tokenize_cons_dot_bad [] (fun c hc => by cases hc)] at h
  cases h
| cons c2 u2 =>
  by_cases h2 : isDigitC c2 = true
  · rw [tokenize_cons_dot_digit c2 u2 h2] at h
    cases hres : (readNum ('.' :: c2 :: u2)).1 with
    | error e => rw [hres] at h; cases h
    | ok v =>
      rw [hres] at h
      cases htokr : tokenize (readNum ('.' :: c2 :: u2)).2 with
      | error e => rw [htokr] at h; cases h
      | ok l =>
        rw [htokr] at h
        injection h with h3
        exact ⟨v, l, h3.symm⟩
  · rw [tokenize_cons_dot_bad (c2 :: u2)
      (fun c hc => by cases hc; simpa using h2)] at h
    cases h

theorem tokenize_cons_other (c : Char) (s : List Char)
  (hsp : ¬c = ' ') (hdg : isDigitC c = false) (hdot : ¬c = '.')
  (hid : isIdentStart c = false) (hpl : ¬c = '+') (hmi : ¬c = '-')
  (hst : ¬c = '*') (hsl : ¬c = '/') (hpc : ¬c = '%') (hlp : ¬c = '(')
  (hrp : ¬c = ')') (hcm : ¬c = ',') :
  tokenize (c :: s) = .error .synErr := by
unfold tokenize
simp [tokenizeF, hsp, hdg, hdot, hid, hpl, hmi, hst, hsl, hpc, hlp, hrp, hcm]

/-- The induction package of the substitution/lexing commutation: the
scan of `s` (starting with word-flag `p`) succeeds with output `s2`,
the output lexes to the token-wise substitution of the tokens of `s`,
and the heads of `s` and `s2` are aligned (empty together; a non-word
head is copied exactly; a word head stays a word head). -/
def SubstOut (d : Dict) (p : Bool) (s s2 : List Char) (ts : List Tok) : Prop :=
(∀ fuel, s.length < fuel → substAux d fuel p s = .ok s2) ∧
tokenize s2 = .ok (ts.map (substTok d)) ∧
(s2 = [] ↔ s = []) ∧
(∀ c, s.head? = some c → isWordChar c = false → s2.head? = some c) ∧
(∀ c, s.head? = some c → isWordChar c = true →
  ∃ c2, s2.head? = some c2 ∧ isWordChar c2 = true)

theorem substOut_nil (d : Dict) (hwk : wordKeys d) (p : Bool) :
  SubstOut d p [] [] [] := by
refine ⟨?_, by simpa using tokenize_nil_eq, by simp, ?_, ?_⟩
· intro fuel hf
  cases fuel with
  | zero => simp at hf
  | succ f => exact substAux_nil d hwk f p
· intro c hc; cases hc
· intro c hc; cases hc

theorem substOut_copy1 (d : Dict) (hwk : wordKeys d) (p : Bool) (c : Char)
  (hcw : isWordChar c = false) (s0 t2 : List Char)
  (hsub : ∀ fuel, s0.length < fuel → substAux d fuel false s0 = .ok t2) :
  ∀ fuel, (c :: s0).length < fuel →
    substAux d fuel p (c :: s0) = .ok (c :: t2) := by
intro fuel hf
rw [substAux_copy_nonword d hwk p c hcw s0 fuel hf]
rw [hsub fuel (by simp at hf; omega)]
rfl

theorem substOut_space (d : Dict) (hwk : wordKeys d) (p : Bool) (s0 t2 : List Char)
  (ts : List Tok) (hout : SubstOut d false s0 t2 ts) :
  SubstOut d p (' ' :: s0) (' ' :: t2) ts := by
obtain ⟨hsub, htok2, hnil, hheadn, hheadw⟩ := hout
refine ⟨substOut_copy1 d hwk p ' ' (by decide) s0 t2 hsub, ?_, by simp, ?_, ?_⟩
· rw [tokenize_cons_space]; exact htok2
· intro c hc hw; cases hc; rfl
· intro c hc hw; cases hc; exact absurd hw (by decide)

theorem substTok_opTok (d : Dict) (c : Char) (t : Tok) (h : opTok c = some t) :
  substTok d t = t := by
unfold opTok at h
split at h <;> first
  | (cases h; rfl)
  | cases h

theorem opTok_nonword (c : Char) (t : Tok) (h : opTok c = some t) :
  isWordChar c = false := by
unfold opTok at h
split at h <;> first
  | decide
  | cases h

theorem substOut_op (d : Dict) (hwk : wordKeys d) (p : Bool) (c : Char) (t : Tok)
  (hop : opTok c = some t) (s0 t2 : List Char) (ts1 : List Tok)
  (hout : SubstOut d false s0 t2 ts1) :
  SubstOut d p (c :: s0) (c :: t2) (t :: ts1) := by
obtain ⟨hsub, htok2, hnil, hheadn, hheadw⟩ := hout
have hcw := opTok_nonword c t hop
refine ⟨substOut_copy1 d hwk p c hcw s0 t2 hsub, ?_, by simp, ?_, ?_⟩
· rw [tokenize_cons_op c t t2 hop, htok2]
  simp [substTok_opTok d c t hop, Except.map]
· intro c4 hc hw; cases hc; rfl
· intro c4 hc hw; cases hc; exact absurd hw (by simp [hcw])

theorem substOut_dstar (d : Dict) (hwk : wordKeys d) (p : Bool)
  (s03 t2 : List Char) (ts1 : List Tok)
  (hout : SubstOut d false s03 t2 ts1) :
  SubstOut d p ('*' :: '*' :: s03) ('*' :: '*' :: t2) (.dstar :: ts1) := by
obtain ⟨hsub, htok2, hnil, hheadn, hheadw⟩ := hout
have h1 := substOut_copy1 d hwk false '*' (by decide) s03 t2 hsub
have h2 := substOut_copy1 d hwk p '*' (by decide) ('*' :: s03) ('*' :: t2) h1
refine ⟨h2, ?_, by simp, ?_, ?_⟩
· rw [tokenize_cons_dstar, htok2]
  rfl
· intro c4 hc hw; cases hc; rfl
· intro c4 hc hw; cases hc; exact absurd hw (by decide)

theorem substOut_star (d : Dict) (hwk : wordKeys d) (p : Bool)
  (s0 t2 : List Char) (ts1 : List Tok)
  (hhd : ∀ c, s0.head? = some c → c ≠ '*')
  (hout : SubstOut d false s0 t2 ts1) :
  SubstOut d p ('*' :: s0) ('*' :: t2) (.star :: ts1) := by
obtain ⟨hsub, htok2, hnil, hheadn, hheadw⟩ := hout
have hhd2 : ∀ c, t2.head? = some c → c ≠ '*' := by
  intro c4 hc4
  cases s0 with
  | nil =>
    rw [hnil.mpr rfl] at hc4
    cases hc4
  | cons c3 s03 =>
    by_cases hw3 : isWordChar c3 = true
    · obtain ⟨c5, hc5, hw5⟩ := hheadw c3 rfl hw3
      rw [hc5] at hc4
      cases hc4
      intro he
      rw [he] at hw5
      exact absurd hw5 (by decide)
    · have := hheadn c3 rfl (by simpa using hw3)
      rw [this] at hc4
      cases hc4
      exact hhd _ rfl
refine ⟨substOut_copy1 d hwk p '*' (by decide) s0 t2 hsub, ?_, by simp, ?_, ?_⟩
· rw [tokenize_cons_star t2 hhd2, htok2]
  rfl
· intro c4 hc hw; cases hc; rfl
· intro c4 hc hw; cases hc; exact absurd hw (by decide)

theorem substOut_dslash (d : Dict) (hwk : wordKeys d) (p : Bool)
  (s03 t2 : List Char) (ts1 : List Tok)
  (hout : SubstOut d false s03 t2 ts1) :
  SubstOut d p ('/' :: '/' :: s03) ('/' :: '/' :: t2) (.dslash :: ts1) := by
obtain ⟨hsub, htok2, hnil, hheadn, hheadw⟩ := hout
have h1 := substOut_copy1 d hwk false '/' (by decide) s03 t2 hsub
have h2 := substOut_copy1 d hwk p '/' (by decide) ('/' :: s03) ('/' :: t2) h1
refine ⟨h2, ?_, by simp, ?_, ?_⟩
· rw [tokenize_cons_dslash, htok2]
  rfl
· intro c4 hc hw; cases hc; rfl
· intro c4 hc hw; cases hc; exact absurd hw (by decide)

theorem substOut_slash (d : Dict) (hwk : wordKeys d) (p : Bool)
  (s0 t2 : List Char) (ts1 : List Tok)
  (hhd : ∀ c, s0.head? = some c → c ≠ '/')
  (hout : SubstOut d false s0 t2 ts1) :
  SubstOut d p ('/' :: s0) ('/' :: t2) (.slash :: ts1) := by
obtain ⟨hsub, htok2, hnil, hheadn, hheadw⟩ := hout
have hhd2 : ∀ c, t2.head? = some c → c ≠ '/' := by
  intro c4 hc4
  cases s0 with
  | nil =>
    rw [hnil.mpr rfl] at hc4
    cases hc4
  | cons c3 s03 =>
    by_cases hw3 : isWordChar c3 = true
    · obtain ⟨c5, hc5, hw5⟩ := hheadw c3 rfl hw3
      rw [hc5] at hc4
      cases hc4
      intro he
      rw [he] at hw5
      exact absurd hw5 (by decide)
    · have := hheadn c3 rfl (by simpa using hw3)
      rw [this] at hc4
      cases hc4
      exact hhd _ rfl
refine ⟨substOut_copy1 d hwk p '/' (by decide) s0 t2 hsub, ?_, by simp, ?_, ?_⟩
· rw [tokenize_cons_slash t2 hhd2, htok2]
  rfl
· intro c4 hc hw; cases hc; rfl
· intro c4 hc hw; cases hc; exact absurd hw (by decide)

theorem goodDict_headNotDigit {d : Dict} (hd : GoodDict d) :
  ∀ kv ∈ d, ∀ a, kv.1.toList.head? = some a → isDigitC a = false :=
fun kv hkv => ((hd.2 kv hkv).1).2.2.1

theorem head_cons_append (a : Char) (l r : List Char) :
  ((a :: l) ++ r).head? = some a := rfl

theorem substOut_int_chunk (d : Dict) (hd : GoodDict d)
  (D R t2 : List Char) (ts1 : List Tok)
  (hDne : D ≠ []) (hDdig : ∀ c ∈ D, isDigitC c = true)
  (hRhead : ∀ c, R.head? = some c → isWordChar c = false ∧ c ≠ '.')
  (hout : SubstOut d true R t2 ts1) :
  SubstOut d false (D ++ R) (D ++ t2)
    (.num (.int (parseDigits D)) :: ts1) := by
obtain ⟨hsub, htok2, hnil, hheadn, hheadw⟩ := hout
have hwk := goodDict_wordKeys hd
have hheads := goodDict_headNotDigit hd
have ht2 : ∀ c, t2.head? = some c → isWordChar c = false ∧ c ≠ '.' := by
  intro c4 hc4
  cases R with
  | nil => rw [hnil.mpr rfl] at hc4; cases hc4
  | cons c3 R3 =>
    have h3 := hRhead c3 rfl
    have hh := hheadn c3 rfl h3.1
    rw [hh] at hc4
    cases hc4
    exact h3
refine ⟨?_, ?_, ?_, ?_, ?_⟩
· intro fuel hf
  rw [substAux_copy_digitrun d hwk hheads D R hDne hDdig fuel hf]
  rw [hsub fuel (by simp only [List.length_append] at hf; omega)]
  rfl
· rw [tokenize_int_prepend D t2 (ts1.map (substTok d)) hDne hDdig ht2 htok2]
  rfl
· simp [hDne]
· intro c4 hc4 hw
  obtain ⟨a, D2, rfl⟩ : ∃ a D2, D = a :: D2 := by
    cases D with
    | nil => exact absurd rfl hDne
    | cons a D2 => exact ⟨a, D2, rfl⟩
  rw [head_cons_append] at hc4
  injection hc4 with h2
  subst h2
  exact absurd (digit_word (hDdig a (by simp))) (by simp [hw])
· intro c4 hc4 hw
  obtain ⟨a, D2, rfl⟩ : ∃ a D2, D = a :: D2 := by
    cases D with
    | nil => exact absurd rfl hDne
    | cons a D2 => exact ⟨a, D2, rfl⟩
  exact ⟨a, head_cons_append a D2 t2, digit_word (hDdig a (by simp))⟩

theorem substOut_float_chunk (d : Dict) (hd : GoodDict d)
  (D F R3 t2 : List Char) (ts1 : List Tok) (pR3 : Bool)
  (hDne : D ≠ []) (hDdig : ∀ c ∈ D, isDigitC c = true)
  (hFdig : ∀ c ∈ F, isDigitC c = true)
  (hpF1 : F = [] → pR3 = false) (hpF2 : F ≠ [] → pR3 = true)
  (hR3head : ∀ c, R3.head? = some c → isWordChar c = false)
  (hout : SubstOut d pR3 R3 t2 ts1) :
  SubstOut d false (D ++ '.' :: (F ++ R3)) (D ++ '.' :: (F ++ t2))
    (.num (.float ((parseDigits D : ℚ) +
      (parseDigits F : ℚ) / (10 : ℚ) ^ F.length)) :: ts1) := by
obtain ⟨hsub, htok2, hnil, hheadn, hheadw⟩ := hout
have hwk := goodDict_wordKeys hd
have hheads := goodDict_headNotDigit hd
have ht2 : ∀ c, t2.head? = some c → isWordChar c = false := by
  intro c4 hc4
  cases R3 with
  | nil => rw [hnil.mpr rfl] at hc4; cases hc4
  | cons c3 R33 =>
    have h3 := hR3head c3 rfl
    have hh := hheadn c3 rfl h3
    rw [hh] at hc4
    cases hc4
    exact h3
have hsubF : ∀ fuel, (F ++ R3).length < fuel →
    substAux d fuel false (F ++ R3) = .ok (F ++ t2) := by
  intro fuel hf
  cases F with
  | nil =>
    have hp0 : pR3 = false := hpF1 rfl
    subst hp0
    simp only [List.nil_append] at hf ⊢
    exact hsub fuel hf
  | cons cf F2 =>
    have hp1 : pR3 = true := hpF2 (by simp)
    subst hp1
    rw [substAux_copy_digitrun d hwk hheads (cf :: F2) R3 (by simp) hFdig fuel hf]
    rw [hsub fuel (by simp only [List.length_append] at hf; omega)]
    rfl
refine ⟨?_, ?_, ?_, ?_, ?_⟩
· intro fuel hf
  rw [substAux_copy_digitrun d hwk hheads D ('.' :: (F ++ R3)) hDne hDdig fuel hf]
  rw [substAux_copy_nonword d hwk true '.' (by decide) (F ++ R3) fuel
    (by simp only [List.length_append, List.length_cons] at hf ⊢; omega)]
  rw [hsubF fuel (by simp only [List.length_append, List.length_cons] at hf ⊢; omega)]
  rfl
· rw [tokenize_float_prepend D F t2 (ts1.map (substTok d)) hDne hDdig hFdig ht2 htok2]
  rfl
· simp [hDne]
· intro c4 hc4 hw
  obtain ⟨a, D2, rfl⟩ : ∃ a D2, D = a :: D2 := by
    cases D with
    | nil => exact absurd rfl hDne
    | cons a D2 => exact ⟨a, D2, rfl⟩
  rw [head_cons_append] at hc4
  injection hc4 with h2
  subst h2
  exact absurd (digit_word (hDdig a (by simp))) (by simp [hw])
· intro c4 hc4 hw
  obtain ⟨a, D2, rfl⟩ : ∃ a D2, D = a :: D2 := by
    cases D with
    | nil => exact absurd rfl hDne
    | cons a D2 => exact ⟨a, D2, rfl⟩
  exact ⟨a, head_cons_append a D2 t2, digit_word (hDdig a (by simp))⟩

theorem substOut_dotfloat_chunk (d : Dict) (hd : GoodDict d) (p : Bool)
  (F R3 t2 : List Char) (ts1 : List Tok)
  (hFne : F ≠ []) (hFdig : ∀ c ∈ F, isDigitC c = true)
  (hR3head : ∀ c, R3.head? = some c → isWordChar c = false)
  (hout : SubstOut d true R3 t2 ts1) :
  SubstOut d p ('.' :: (F ++ R3)) ('.' :: (F ++ t2))
    (.num (.float ((parseDigits ([] : List Char) : ℚ) +
      (parseDigits F : ℚ) / (10 : ℚ) ^ F.length)) :: ts1) := by
obtain ⟨hsub, htok2, hnil, hheadn, hheadw⟩ := hout
have hwk := goodDict_wordKeys hd
have hheads := goodDict_headNotDigit hd
have ht2 : ∀ c, t2.head? = some c → isWordChar c = false := by
  intro c4 hc4
  cases R3 with
  | nil => rw [hnil.mpr rfl] at hc4; cases hc4
  | cons c3 R33 =>
    have h3 := hR3head c3 rfl
    have hh := hheadn c3 rfl h3
    rw [hh] at hc4
    cases hc4
    exact h3
refine ⟨?_, ?_, by simp, ?_, ?_⟩
· intro fuel hf
  rw [substAux_copy_nonword d hwk p '.' (by decide) (F ++ R3) fuel hf]
  rw [substAux_copy_digitrun d hwk hheads F R3 hFne hFdig fuel
    (by simp only [List.length_cons] at hf; omega)]
  rw [hsub fuel
    (by simp only [List.length_cons, List.length_append] at hf ⊢; omega)]
  rfl
· rw [tokenize_dotfloat_prepend F t2 (ts1.map (substTok d)) hFne hFdig ht2 htok2]
  rfl
· intro c4 hc4 hw; cases hc4; rfl
· intro c4 hc4 hw; cases hc4; exact absurd hw (by decide)

theorem substOut_word_nokey (d : Dict) (hd : GoodDict d)
  (W T t2 : List Char) (ts1 : List Tok)
  (hWne : W ≠ []) (hW : ∀ c ∈ W, isWordChar c = true)
  (hWid : ∀ c, W.head? = some c → isIdentStart c = true)
  (hT : ∀ c, T.head? = some c → isWordChar c = false)
  (hlook : dlookup d (String.mk W) = none)
  (hout : SubstOut d true T t2 ts1) :
  SubstOut d false (W ++ T) (W ++ t2) (wordTok (String.mk W) :: ts1) := by
obtain ⟨hsub, htok2, hnil, hheadn, hheadw⟩ := hout
have hwk := goodDict_wordKeys hd
have ht : headNotWord T := by
  cases T with
  | nil => trivial
  | cons c3 T3 => exact hT c3 rfl
have ht2 : ∀ c, t2.head? = some c → isWordChar c = false := by
  intro c4 hc4
  cases T with
  | nil => rw [hnil.mpr rfl] at hc4; cases hc4
  | cons c3 T3 =>
    have h3 := hT c3 rfl
    have hh := hheadn c3 rfl h3
    rw [hh] at hc4
    cases hc4
    exact h3
refine ⟨?_, ?_, ?_, ?_, ?_⟩
· intro fuel hf
  rw [substAux_run_nokey d hwk W T hWne hW ht hlook fuel hf]
  rw [hsub fuel (by simp only [List.length_append] at hf; omega)]
  rfl
· rw [tokenize_word_prepend W t2 (ts1.map (substTok d)) hWne hW hWid ht2 htok2]
  simp [substTok_wordTok_none d (String.mk W) hlook]
· simp [hWne]
· intro c4 hc4 hw
  obtain ⟨a, W2, rfl⟩ : ∃ a W2, W = a :: W2 := by
    cases W with
    | nil => exact absurd rfl hWne
    | cons a W2 => exact ⟨a, W2, rfl⟩
  rw [head_cons_append] at hc4
  injection hc4 with h2
  subst h2
  exact absurd (hW a (by simp)) (by simp [hw])
· intro c4 hc4 hw
  obtain ⟨a, W2, rfl⟩ : ∃ a W2, W = a :: W2 := by
    cases W with
    | nil => exact absurd rfl hWne
    | cons a W2 => exact ⟨a, W2, rfl⟩
  exact ⟨a, head_cons_append a W2 t2, hW a (by simp)⟩

theorem substOut_word_key (d : Dict) (hd : GoodDict d)
  (W T t2 : List Char) (ts1 : List Tok) (v : Value) (repl : List Char)
  (hWne : W ≠ []) (hW : ∀ c ∈ W, isWordChar c = true)
  (hT : ∀ c, T.head? = some c → isWordChar c = false)
  (hlook : dlookup d (String.mk W) = some v)
  (hrepl : pyStr v = some repl)
  (hrelex : ∀ us, tokenize t2 = .ok us →
    tokenize (repl ++ t2) = .ok (.num v :: us))
  (hreplhead : ∃ c2, repl.head? = some c2 ∧ isWordChar c2 = true)
  (hout : SubstOut d true T t2 ts1) :
  SubstOut d false (W ++ T) (repl ++ t2) (.name (String.mk W) :: ts1) := by
obtain ⟨hsub, htok2, hnil, hheadn, hheadw⟩ := hout
have hwk := goodDict_wordKeys hd
have ht : headNotWord T := by
  cases T with
  | nil => trivial
  | cons c3 T3 => exact hT c3 rfl
obtain ⟨c2, hc2, hw2⟩ := hreplhead
obtain ⟨r0, rfl⟩ : ∃ r0, repl = c2 :: r0 := by
  cases repl with
  | nil => cases hc2
  | cons a r0 =>
    injection hc2 with h2
    exact ⟨r0, by rw [h2]⟩
refine ⟨?_, ?_, ?_, ?_, ?_⟩
· intro fuel hf
  rw [substAux_run_key d hwk W T hWne hW ht v (c2 :: r0) hlook hrepl fuel hf]
  rw [hsub fuel (by simp only [List.length_append] at hf; omega)]
  rfl
· rw [hrelex (ts1.map (substTok d)) htok2]
  simp [substTok, hlook]
· constructor
  · intro h; cases h
  · intro h
    exact absurd h (by simp [hWne])
· intro c4 hc4 hw
  obtain ⟨a, W2, rfl⟩ : ∃ a W2, W = a :: W2 := by
    cases W with
    | nil => exact absurd rfl hWne
    | cons a W2 => exact ⟨a, W2, rfl⟩
  rw [head_cons_append] at hc4
  injection hc4 with h2
  subst h2
  exact absurd (hW a (by simp)) (by simp [hw])
· intro c4 hc4 hw
  exact ⟨c2, rfl, hw2⟩

theorem relex_int (z : ℤ) (hz : 0 ≤ z) (t2 : List Char)
  (ht2 : ∀ c, t2.head? = some c → isWordChar c = false ∧ c ≠ '.') :
  ∀ us, tokenize t2 = .ok us →
    tokenize (renderInt z ++ t2) = .ok (.num (.int z) :: us) := by
intro us h
have hzr : renderInt z = renderNat z.natAbs := by
  unfold renderInt
  rw [if_neg (by omega)]
rw [hzr]
have hpre := tokenize_int_prepend (renderNat z.natAbs) t2 us
  (renderNat_ne_nil _) (renderNat_digits _) ht2 h
rw [renderNat_roundtrip] at hpre
rw [Int.natAbs_of_nonneg hz] at hpre
exact hpre

theorem relex_float (q : ℚ) (repl : List Char) (hflo : floatStr q = some repl)
  (t2 : List Char)
  (ht2 : ∀ c, t2.head? = some c → isWordChar c = false) :
  ∀ us, tokenize t2 = .ok us →
    tokenize (repl ++ t2) = .ok (.num (.float q) :: us) := by
intro us h
obtain ⟨ds, fs, rfl, hdsne, hfsne, hdsdig, hfsdig, hval⟩ := floatStr_spec q repl hflo
have hpre := tokenize_float_prepend ds fs t2 us hdsne hdsdig hfsdig ht2 h
rw [hval] at hpre
rw [show (ds ++ '.' :: fs) ++ t2 = ds ++ '.' :: (fs ++ t2) from by simp]
exact hpre

theorem relex_none (t2 : List Char)
  (ht2 : ∀ c, t2.head? = some c → isWordChar c = false) :
  ∀ us, tokenize t2 = .ok us →
    tokenize (['N', 'o', 'n', 'e'] ++ t2) = .ok (.num .pynone :: us) := by
intro us h
have hpre := tokenize_word_prepend ['N', 'o', 'n', 'e'] t2 us (by simp)
  (by decide) (by decide) ht2 h
have hwtok : wordTok (String.mk ['N', 'o', 'n', 'e']) = Tok.num .pynone := by decide
rw [hwtok] at hpre
exact hpre

theorem noAdjAtoms_tail {t : Tok} {ts : List Tok} (h : noAdjAtoms (t :: ts)) :
  noAdjAtoms ts :=
(List.chain'_cons'.mp h).2

theorem noAdjAtoms_rel {t1 t2 : Tok} {ts : List Tok}
  (h : noAdjAtoms (t1 :: t2 :: ts)) :
  ¬(isAtomTok t1 = true ∧ isAtomTok t2 = true) :=
(List.chain'_cons'.mp h).1 t2 rfl

/-- The central commutation: on a lexable input whose token stream has no
two adjacent atoms, the substitution scan succeeds and its output lexes
to the token-wise substitution of the original stream. -/
theorem substTokenizeCore (d : Dict) (hd : GoodDict d) :
  ∀ n (s : List Char) (p : Bool) (ts : List Tok), s.length ≤ n →
  tokenize s = .ok ts →
  noAdjAtoms ts →
  (p = true → headNotWord s) →
  ∃ s2, SubstOut d p s s2 ts := by
have hwk := goodDict_wordKeys hd
intro n
induction n with
| zero =>
  intro s p ts hlen htok hadj hp
  have hs : s = [] := by
    cases s with
    | nil => rfl
    | cons c s0 => simp at hlen
  subst hs
  rw [tokenize_nil_eq] at htok
  injection htok with h2
  subst h2
  exact ⟨[], substOut_nil d hwk p⟩
| succ n ih =>
  intro s p ts hlen htok hadj hp
  cases s with
  | nil =>
    rw [tokenize_nil_eq] at htok
    injection htok with h2
    subst h2
    exact ⟨[], substOut_nil d hwk p⟩
  | cons c s0 =>
    simp only [List.length_cons] at hlen
    by_cases hsp : c = ' '
    · subst hsp
      rw [tokenize_cons_space] at htok
      obtain ⟨t2, hout⟩ := ih s0 false ts (by omega) htok hadj (by simp)
      exact ⟨' ' :: t2, substOut_space d hwk p s0 t2 ts hout⟩
    · by_cases hdg : isDigitC c = true
      · have hp0 : p = false := by
          cases p with
          | false => rfl
          | true =>
            have h2 : isWordChar c = false := hp rfl
            exact absurd (digit_word hdg) (by simp [h2])
        subst hp0
        rw [tokenize_cons_digit c s0 hdg] at htok
        cases hres : (readNum (c :: s0)).1 with
        | error e => rw [hres] at htok; cases htok
        | ok v =>
          rw [hres] at htok
          cases htokr : tokenize (readNum (c :: s0)).2 with
          | error e => rw [htokr] at htok; cases htok
          | ok ts1 =>
            rw [htokr] at htok
            injection htok with h2
            subst h2
            rcases readNum_ok_cases (c :: s0) v hres with
              ⟨hv, hrest, hhead⟩ | ⟨r2, hr1, hv, hrest, hhead⟩
            · subst hv
              rw [hrest] at htokr
              have hRlen : (List.dropWhile isDigitC (c :: s0)).length ≤ n := by
                rw [List.dropWhile_cons_of_pos hdg]
                have := length_dropWhile_le isDigitC s0
                omega
              have hpr : true = true → headNotWord (List.dropWhile isDigitC (c :: s0)) := by
                intro _
                cases hR : List.dropWhile isDigitC (c :: s0) with
                | nil => trivial
                | cons c3 R3 => exact (hhead c3 (by rw [hR]; rfl)).1
              obtain ⟨t2, hout⟩ := ih (List.dropWhile isDigitC (c :: s0)) true ts1
                hRlen htokr (noAdjAtoms_tail hadj) hpr
              have hchunk := substOut_int_chunk d hd (List.takeWhile isDigitC (c :: s0))
                (List.dropWhile isDigitC (c :: s0)) t2 ts1
                (by rw [List.takeWhile_cons_of_pos hdg]; simp)
                (takeWhile_all isDigitC (c :: s0)) hhead hout
              rw [takeWhile_dropWhile_append isDigitC (c :: s0)] at hchunk
              exact ⟨List.takeWhile isDigitC (c :: s0) ++ t2, hchunk⟩
            · rw [hrest] at htokr
              have h4 : ('.' :: r2).length ≤ s0.length := by
                rw [← hr1, List.dropWhile_cons_of_pos hdg]
                exact length_dropWhile_le isDigitC s0
              have hR3len : (List.dropWhile isDigitC r2).length ≤ n := by
                have := length_dropWhile_le isDigitC r2
                simp only [List.length_cons] at h4
                omega
              have hpr : ∀ pp : Bool, pp = true →
                  headNotWord (List.dropWhile isDigitC r2) := by
                intro _ _
                cases hR : List.dropWhile isDigitC r2 with
                | nil => trivial
                | cons c3 R3 => exact hhead c3 (by rw [hR]; rfl)
              have hDne : List.takeWhile isDigitC (c :: s0) ≠ [] := by
                rw [List.takeWhile_cons_of_pos hdg]; simp
              by_cases hFe : List.takeWhile isDigitC r2 = []
              · obtain ⟨t2, hout⟩ := ih (List.dropWhile isDigitC r2) false ts1
                  hR3len htokr (noAdjAtoms_tail hadj) (by simp)
                have hchunk := substOut_float_chunk d hd
                  (List.takeWhile isDigitC (c :: s0)) (List.takeWhile isDigitC r2)
                  (List.dropWhile isDigitC r2) t2 ts1 false hDne
                  (takeWhile_all isDigitC (c :: s0)) (takeWhile_all isDigitC r2)
                  (fun _ => rfl) (fun hne => absurd hFe hne) hhead hout
                rw [takeWhile_dropWhile_append isDigitC r2, ← hr1,
                  takeWhile_dropWhile_append isDigitC (c :: s0)] at hchunk
                subst hv
                exact ⟨List.takeWhile isDigitC (c :: s0) ++ '.' ::
                  (List.takeWhile isDigitC r2 ++ t2), hchunk⟩
              · obtain ⟨t2, hout⟩ := ih (List.dropWhile isDigitC r2) true ts1
                  hR3len htokr (noAdjAtoms_tail hadj) (hpr true)
                have hchunk := substOut_float_chunk d hd
                  (List.takeWhile isDigitC (c :: s0)) (List.takeWhile isDigitC r2)
                  (List.dropWhile isDigitC r2) t2 ts1 true hDne
                  (takeWhile_all isDigitC (c :: s0)) (takeWhile_all isDigitC r2)
                  (fun h0 => absurd h0 hFe) (fun _ => rfl) hhead hout
                rw [takeWhile_dropWhile_append isDigitC r2, ← hr1,
                  takeWhile_dropWhile_append isDigitC (c :: s0)] at hchunk
                subst hv
                exact ⟨List.takeWhile isDigitC (c :: s0) ++ '.' ::
                  (List.takeWhile isDigitC r2 ++ t2), hchunk⟩
      · by_cases hdot : c = '.'
        · subst hdot
          cases s0 with
          | nil =>
            rw [tokenize_cons_dot_bad [] (fun c3 hc3 => by cases hc3)] at htok
            cases htok
          | cons c2 s02 =>
            by_cases h2 : isDigitC c2 = true
            · rw [tokenize_cons_dot_digit c2 s02 h2] at htok
              cases hres : (readNum ('.' :: c2 :: s02)).1 with
              | error e => rw [hres] at htok; cases htok
              | ok v =>
                rw [hres] at htok
                cases htokr : tokenize (readNum ('.' :: c2 :: s02)).2 with
                | error e => rw [htokr] at htok; cases htok
                | ok ts1 =>
                  rw [htokr] at htok
                  injection htok with h3
                  subst h3
                  have hdrop : List.dropWhile isDigitC ('.' :: c2 :: s02) =
                      '.' :: c2 :: s02 := by
                    rw [List.dropWhile_cons_of_neg (by decide)]
                  rcases readNum_ok_cases ('.' :: c2 :: s02) v hres with
                    ⟨hv, hrest, hhead⟩ | ⟨r2, hr1, hv, hrest, hhead⟩
                  · exact absurd rfl (hhead '.' (by rw [hdrop]; rfl)).2
                  · rw [hdrop] at hr1
                    injection hr1 with h4 h5
                    subst h5
                    have htake : List.takeWhile isDigitC ('.' :: c2 :: s02) = [] := by
                      rw [List.takeWhile_cons_of_neg (by decide)]
                    rw [htake] at hv
                    rw [hrest] at htokr
                    have hR3len : (List.dropWhile isDigitC (c2 :: s02)).length ≤ n := by
                      have := length_dropWhile_le isDigitC (c2 :: s02)
                      simp only [List.length_cons] at this hlen ⊢
                      omega
                    have hpr : true = true →
                        headNotWord (List.dropWhile isDigitC (c2 :: s02)) := by
                      intro _
                      cases hR : List.dropWhile isDigitC (c2 :: s02) with
                      | nil => trivial
                      | cons c3 R3 => exact hhead c3 (by rw [hR]; rfl)
                    obtain ⟨t2, hout⟩ := ih (List.dropWhile isDigitC (c2 :: s02)) true ts1
                      hR3len htokr (noAdjAtoms_tail hadj) hpr
                    have hFne : List.takeWhile isDigitC (c2 :: s02) ≠ [] := by
                      rw [List.takeWhile_cons_of_pos h2]; simp
                    have hchunk := substOut_dotfloat_chunk d hd p
                      (List.takeWhile isDigitC (c2 :: s02))
                      (List.dropWhile isDigitC (c2 :: s02)) t2 ts1 hFne
                      (takeWhile_all isDigitC (c2 :: s02)) hhead hout
                    rw [takeWhile_dropWhile_append isDigitC (c2 :: s02)] at hchunk
                    subst hv
                    exact ⟨'.' :: (List.takeWhile isDigitC (c2 :: s02) ++ t2), hchunk⟩
            · rw [tokenize_cons_dot_bad (c2 :: s02) (fun c3 hc3 => by
                injection hc3 with h4
                rw [← h4]
                simpa using h2)] at htok
              cases htok
        · by_cases hid : isIdentStart c = true
          · have hp0 : p = false := by
              cases p with
              | false => rfl
              | true =>
                have h2 : isWordChar c = false := hp rfl
                exact absurd (identStart_word hid) (by simp [h2])
            subst hp0
            rw [tokenize_cons_word c s0 hid] at htok
            cases htokr : tokenize (List.dropWhile isWordChar (c :: s0)) with
            | error e => rw [htokr] at htok; cases htok
            | ok ts1 =>
              rw [htokr] at htok
              injection htok with h2
              subst h2
              have hTlen : (List.dropWhile isWordChar (c :: s0)).length ≤ n := by
                have := dropWhile_word_lt c s0 hid
                omega
              have hT : ∀ c3, (List.dropWhile isWordChar (c :: s0)).head? = some c3 →
                  isWordChar c3 = false :=
                fun c3 hc3 => dropWhile_head_false isWordChar (c :: s0) c3 hc3
              have hpr : true = true →
                  headNotWord (List.dropWhile isWordChar (c :: s0)) := by
                intro _
                cases hR : List.dropWhile isWordChar (c :: s0) with
                | nil => trivial
                | cons c3 R3 => exact hT c3 (by rw [hR]; rfl)
              obtain ⟨t2, hout⟩ := ih (List.dropWhile isWordChar (c :: s0)) true ts1
                hTlen htokr (noAdjAtoms_tail hadj) hpr
              have hWshape : List.takeWhile isWordChar (c :: s0) =
                  c :: List.takeWhile isWordChar s0 :=
                List.takeWhile_cons_of_pos (identStart_word hid)
              have hWne : List.takeWhile isWordChar (c :: s0) ≠ [] := by
                rw [hWshape]; simp
              have hW := takeWhile_all isWordChar (c :: s0)
              have hWid : ∀ cc, (List.takeWhile isWordChar (c :: s0)).head? = some cc →
                  isIdentStart cc = true := by
                intro cc hcc
                rw [hWshape] at hcc
                injection hcc with h3
                rw [← h3]
                exact hid
              cases hlook : dlookup d (String.mk (List.takeWhile isWordChar (c :: s0))) with
              | none =>
                have hchunk := substOut_word_nokey d hd
                  (List.takeWhile isWordChar (c :: s0))
                  (List.dropWhile isWordChar (c :: s0)) t2 ts1
                  hWne hW hWid hT hlook hout
                rw [takeWhile_dropWhile_append isWordChar (c :: s0)] at hchunk
                exact ⟨List.takeWhile isWordChar (c :: s0) ++ t2, hchunk⟩
              | some v =>
                have hident : identKey (String.mk (List.takeWhile isWordChar (c :: s0))) :=
                  goodDict_keys_ident hd (dlookup_some_mem d _ v hlook)
                have hwt := wordTok_name_of_identKey _ hident
                rw [hwt]
                have hmem := dlookup_mem d _ v hlook
                have hsb : substitutable v := (hd.2 _ hmem).2
                have hTdot : ∀ c3, (List.dropWhile isWordChar (c :: s0)).head? = some c3 →
                    c3 ≠ '.' := by
                  intro c3 hc3 he
                  subst he
                  obtain ⟨T1, hT1⟩ : ∃ T1, List.dropWhile isWordChar (c :: s0) = '.' :: T1 := by
                    cases hTs : List.dropWhile isWordChar (c :: s0) with
                    | nil => rw [hTs] at hc3; cases hc3
                    | cons a T1 =>
                      rw [hTs] at hc3
                      injection hc3 with h4
                      exact ⟨T1, by rw [h4]⟩
                  rw [hT1] at htokr
                  obtain ⟨q, rest, hq⟩ := tokenize_dot_head T1 ts1 htokr
                  subst hq
                  have hadj2 : noAdjAtoms
                      (wordTok (String.mk (List.takeWhile isWordChar (c :: s0))) ::
                        Tok.num q :: rest) := hadj
                  rw [hwt] at hadj2
                  exact noAdjAtoms_rel hadj2 ⟨rfl, rfl⟩
                have ht2n : ∀ c3, t2.head? = some c3 → isWordChar c3 = false := by
                  intro c4 hc4
                  cases hTs : List.dropWhile isWordChar (c :: s0) with
                  | nil =>
                    rw [hout.2.2.1.mpr hTs] at hc4
                    cases hc4
                  | cons c3 T3 =>
                    have h3 := hT c3 (by rw [hTs]; rfl)
                    have hh := hout.2.2.2.1 c3 (by rw [hTs]; rfl) h3
                    rw [hh] at hc4
                    injection hc4 with h5
                    subst h5
                    exact h3
                have ht2nd : ∀ c3, t2.head? = some c3 →
                    isWordChar c3 = false ∧ c3 ≠ '.' := by
                  intro c4 hc4
                  refine ⟨ht2n c4 hc4, ?_⟩
                  cases hTs : List.dropWhile isWordChar (c :: s0) with
                  | nil =>
                    rw [hout.2.2.1.mpr hTs] at hc4
                    cases hc4
                  | cons c3 T3 =>
                    have h3 := hT c3 (by rw [hTs]; rfl)
                    have hh := hout.2.2.2.1 c3 (by rw [hTs]; rfl) h3
                    rw [hh] at hc4
                    injection hc4 with h5
                    subst h5
                    exact hTdot c3 (by rw [hTs]; rfl)
                cases v with
                | int z =>
                  have hz : (0 : ℤ) ≤ z := hsb.1
                  have hrh : ∃ cc, (renderInt z).head? = some cc ∧ isWordChar cc = true := by
                    have hzr : renderInt z = renderNat z.natAbs := by
                      unfold renderInt
                      rw [if_neg (by omega)]
                    rw [hzr]
                    cases hrn : renderNat z.natAbs with
                    | nil => exact absurd hrn (renderNat_ne_nil _)
                    | cons a l =>
                      exact ⟨a, rfl, digit_word (renderNat_digits _ a (by rw [hrn]; simp))⟩
                  have hchunk := substOut_word_key d hd
                    (List.takeWhile isWordChar (c :: s0))
                    (List.dropWhile isWordChar (c :: s0)) t2 ts1 (.int z) (renderInt z)
                    hWne hW hT hlook (by simp [pyStr, hsb.2])
                    (relex_int z hz t2 ht2nd) hrh hout
                  rw [takeWhile_dropWhile_append isWordChar (c :: s0)] at hchunk
                  exact ⟨renderInt z ++ t2, hchunk⟩
                | float q =>
                  obtain ⟨repl, hflo⟩ := Option.isSome_iff_exists.mp hsb
                  have hrh : ∃ cc, repl.head? = some cc ∧ isWordChar cc = true := by
                    obtain ⟨ds, fs, rfl, hdsne, hfsne, hdsdig, hfsdig, hval⟩ :=
                      floatStr_spec q repl hflo
                    obtain ⟨a, ds2, rfl⟩ : ∃ a ds2, ds = a :: ds2 := by
                      cases ds with
                      | nil => exact absurd rfl hdsne
                      | cons a ds2 => exact ⟨a, ds2, rfl⟩
                    exact ⟨a, rfl, digit_word (hdsdig a (by simp))⟩
                  have hchunk := substOut_word_key d hd
                    (List.takeWhile isWordChar (c :: s0))
                    (List.dropWhile isWordChar (c :: s0)) t2 ts1 (.float q) repl
                    hWne hW hT hlook hflo (relex_float q repl hflo t2 ht2n) hrh hout
                  rw [takeWhile_dropWhile_append isWordChar (c :: s0)] at hchunk
                  exact ⟨repl ++ t2, hchunk⟩
                | pynone =>
                  have hchunk := substOut_word_key d hd
                    (List.takeWhile isWordChar (c :: s0))
                    (List.dropWhile isWordChar (c :: s0)) t2 ts1 .pynone
                    ['N', 'o', 'n', 'e']
                    hWne hW hT hlook rfl (relex_none t2 ht2n)
                    ⟨'N', rfl, by decide⟩ hout
                  rw [takeWhile_dropWhile_append isWordChar (c :: s0)] at hchunk
                  exact ⟨['N', 'o', 'n', 'e'] ++ t2, hchunk⟩
                | func g => exact hsb.elim
                | nonrat => exact hsb.elim
          · by_cases hst : c = '*'
            · subst hst
              cases s0 with
              | nil =>
                rw [tokenize_cons_star [] (fun c3 hc3 => by cases hc3)] at htok
                rw [tokenize_nil_eq] at htok
                injection htok with h2
                subst h2
                exact ⟨['*'], substOut_star d hwk p [] [] []
                  (fun c3 hc3 => by cases hc3) (substOut_nil d hwk false)⟩
              | cons c2 s02 =>
                by_cases hc2 : c2 = '*'
                · subst hc2
                  rw [tokenize_cons_dstar] at htok
                  cases htokr : tokenize s02 with
                  | error e => rw [htokr] at htok; cases htok
                  | ok ts1 =>
                    rw [htokr] at htok
                    injection htok with h2
                    subst h2
                    obtain ⟨t2, hout⟩ := ih s02 false ts1
                      (by simp only [List.length_cons] at hlen; omega) htokr
                      (noAdjAtoms_tail hadj) (by simp)
                    exact ⟨'*' :: '*' :: t2, substOut_dstar d hwk p s02 t2 ts1 hout⟩
                · have hne2 : ∀ c3, (c2 :: s02).head? = some c3 → c3 ≠ '*' := by
                    intro c3 hc3
                    injection hc3 with h4
                    rw [← h4]
                    exact hc2
                  rw [tokenize_cons_star (c2 :: s02) hne2] at htok
                  cases htokr : tokenize (c2 :: s02) with
                  | error e => rw [htokr] at htok; cases htok
                  | ok ts1 =>
                    rw [htokr] at htok
                    injection htok with h2
                    subst h2
                    obtain ⟨t2, hout⟩ := ih (c2 :: s02) false ts1 (by omega) htokr
                      (noAdjAtoms_tail hadj) (by simp)
                    exact ⟨'*' :: t2, substOut_star d hwk p (c2 :: s02) t2 ts1 hne2 hout⟩
            · by_cases hsl : c = '/'
              · subst hsl
                cases s0 with
                | nil =>
                  rw [tokenize_cons_slash [] (fun c3 hc3 => by cases hc3)] at htok
                  rw [tokenize_nil_eq] at htok
                  injection htok with h2
                  subst h2
                  exact ⟨['/'], substOut_slash d hwk p [] [] []
                    (fun c3 hc3 => by cases hc3) (substOut_nil d hwk false)⟩
                | cons c2 s02 =>
                  by_cases hc2 : c2 = '/'
                  · subst hc2
                    rw [tokenize_cons_dslash] at htok
                    cases htokr : tokenize s02 with
                    | error e => rw [htokr] at htok; cases htok
                    | ok ts1 =>
                      rw [htokr] at htok
                      injection htok with h2
                      subst h2
                      obtain ⟨t2, hout⟩ := ih s02 false ts1
                        (by simp only [List.length_cons] at hlen; omega) htokr
                        (noAdjAtoms_tail hadj) (by simp)
                      exact ⟨'/' :: '/' :: t2, substOut_dslash d hwk p s02 t2 ts1 hout⟩
                  · have hne2 : ∀ c3, (c2 :: s02).head? = some c3 → c3 ≠ '/' := by
                      intro c3 hc3
                      injection hc3 with h4
                      rw [← h4]
                      exact hc2
                    rw [tokenize_cons_slash (c2 :: s02) hne2] at htok
                    cases htokr : tokenize (c2 :: s02) with
                    | error e => rw [htokr] at htok; cases htok
                    | ok ts1 =>
                      rw [htokr] at htok
                      injection htok with h2
                      subst h2
                      obtain ⟨t2, hout⟩ := ih (c2 :: s02) false ts1 (by omega) htokr
                        (noAdjAtoms_tail hadj) (by simp)
                      exact ⟨'/' :: t2, substOut_slash d hwk p (c2 :: s02) t2 ts1 hne2 hout⟩
              · cases hoc : opTok c with
                | some t =>
                  rw [tokenize_cons_op c t s0 hoc] at htok
                  cases htokr : tokenize s0 with
                  | error e => rw [htokr] at htok; cases htok
                  | ok ts1 =>
                    rw [htokr] at htok
                    injection htok with h2
                    subst h2
                    obtain ⟨t2, hout⟩ := ih s0 false ts1 (by omega) htokr
                      (noAdjAtoms_tail hadj) (by simp)
                    exact ⟨c :: t2, substOut_op d hwk p c t hoc s0 t2 ts1 hout⟩
                | none =>
                  have hpl : ¬c = '+' := fun he => by
                    rw [he] at hoc; exact absurd hoc (by decide)
                  have hmi : ¬c = '-' := fun he => by
                    rw [he] at hoc; exact absurd hoc (by decide)
                  have hpc : ¬c = '%' := fun he => by
                    rw [he] at hoc; exact absurd hoc (by decide)
                  have hlp : ¬c = '(' := fun he => by
                    rw [he] at hoc; exact absurd hoc (by decide)
                  have hrp : ¬c = ')' := fun he => by
                    rw [he] at hoc; exact absurd hoc (by decide)
                  have hcm : ¬c = ',' := fun he => by
                    rw [he] at hoc; exact absurd hoc (by decide)
                  rw [tokenize_cons_other c s0 hsp (by simpa using hdg) hdot
                    (by simpa using hid) hpl hmi hst hsl hpc hlp hrp hcm] at htok
                  cases htok

mutual

/-- Substitution on ASTs: a variable bound in the dict becomes the
literal of its value (what parsing the substituted token stream
produces). -/
def substE (d : Dict) : Expr → Expr
  | .lit v => .lit v
  | .var n =>
    match dlookup d n with
    | some v => .lit v
    | none => .var n
  | .neg a => .neg (substE d a)
  | .pos a => .pos (substE d a)
  | .add a b => .add (substE d a) (substE d b)
  | .sub a b => .sub (substE d a) (substE d b)
  | .mul a b => .mul (substE d a) (substE d b)
  | .div a b => .div (substE d a) (substE d b)
  | .fdiv a b => .fdiv (substE d a) (substE d b)
  | .mod a b => .mod (substE d a) (substE d b)
  | .pow a b => .pow (substE d a) (substE d b)
  | .cond a c b => .cond (substE d a) (substE d c) (substE d b)
  | .call f args => .call (substE d f) (substEArgs d args)

def substEArgs (d : Dict) : List Expr → List Expr
  | [] => []
  | a :: rest => substE d a :: substEArgs d rest

end

theorem substTok_num (d : Dict) (v : Value) : substTok d (.num v) = .num v := rfl

theorem substTok_kwIf (d : Dict) : substTok d .kwIf = .kwIf := rfl

theorem substTok_kwElse (d : Dict) : substTok d .kwElse = .kwElse := rfl

theorem substTok_plus (d : Dict) : substTok d .plus = .plus := rfl

theorem substTok_minus (d : Dict) : substTok d .minus = .minus := rfl

theorem substTok_star (d : Dict) : substTok d .star = .star := rfl

theorem substTok_slash (d : Dict) : substTok d .slash = .slash := rfl

theorem substTok_dslash (d : Dict) : substTok d .dslash = .dslash := rfl

theorem substTok_percent (d : Dict) : substTok d .percent = .percent := rfl

theorem substTok_dstar (d : Dict) : substTok d .dstar = .dstar := rfl

theorem substTok_lparen (d : Dict) : substTok d .lparen = .lparen := rfl

theorem substTok_rparen (d : Dict) : substTok d .rparen = .rparen := rfl

theorem substTok_comma (d : Dict) : substTok d .comma = .comma := rfl

/-- Substituting literal tokens for bound name tokens commutes with every
level of the recursive-descent parser (token-for-token, so with the same
fuel): the parsed tree is the AST-level substitution of the original. -/
theorem parse_commute (d : Dict) : ∀ f : Nat,
    (∀ ts a r, parseCond f ts = .ok (a, r) →
      parseCond f (ts.map (substTok d)) = .ok (substE d a, r.map (substTok d))) ∧
    (∀ ts a r, parseAdd f ts = .ok (a, r) →
      parseAdd f (ts.map (substTok d)) = .ok (substE d a, r.map (substTok d))) ∧
    (∀ acc ts a r, parseAddLoop f acc ts = .ok (a, r) →
      parseAddLoop f (substE d acc) (ts.map (substTok d)) =
        .ok (substE d a, r.map (substTok d))) ∧
    (∀ ts a r, parseMul f ts = .ok (a, r) →
      parseMul f (ts.map (substTok d)) = .ok (substE d a, r.map (substTok d))) ∧
    (∀ acc ts a r, parseMulLoop f acc ts = .ok (a, r) →
      parseMulLoop f (substE d acc) (ts.map (substTok d)) =
        .ok (substE d a, r.map (substTok d))) ∧
    (∀ ts a r, parseUnary f ts = .ok (a, r) →
      parseUnary f (ts.map (substTok d)) = .ok (substE d a, r.map (substTok d))) ∧
    (∀ ts a r, parsePower f ts = .ok (a, r) →
      parsePower f (ts.map (substTok d)) = .ok (substE d a, r.map (substTok d))) ∧
    (∀ ts a r, parsePrimary f ts = .ok (a, r) →
      parsePrimary f (ts.map (substTok d)) = .ok (substE d a, r.map (substTok d))) ∧
    (∀ acc ts a r, parseCallLoop f acc ts = .ok (a, r) →
      parseCallLoop f (substE d acc) (ts.map (substTok d)) =
        .ok (substE d a, r.map (substTok d))) ∧
    (∀ ts as r, parseArgs f ts = .ok (as, r) →
      parseArgs f (ts.map (substTok d)) = .ok (substEArgs d as, r.map (substTok d))) ∧
    (∀ ts a r, parseAtom f ts = .ok (a, r) →
      parseAtom f (ts.map (substTok d)) = .ok (substE d a, r.map (substTok d))) := by
  intro f
  induction f with
  | zero =>
    exact ⟨(fun ts a r h => by cases h), (fun ts a r h => by cases h),
      (fun acc ts a r h => by cases h), (fun ts a r h => by cases h),
      (fun acc ts a r h => by cases h), (fun ts a r h => by cases h),
      (fun ts a r h => by cases h), (fun ts a r h => by cases h),
      (fun acc ts a r h => by cases h), (fun ts as r h => by cases h),
      (fun ts a r h => by cases h)⟩
  | succ f ihf =>
    obtain ⟨ih1, ih2, ih3, ih4, ih5, ih6, ih7, ih8, ih9, ih10, ih11⟩ := ihf
    refine ⟨?_, ?_, ?_, ?_, ?_, ?_, ?_, ?_, ?_, ?_, ?_⟩
    · -- parseCond
      intro ts a r h
      unfold parseCond at h ⊢
      cases h1 : parseAdd f ts with
      | error e => rw [h1] at h; cases h
      | ok ar =>
        obtain ⟨a1, rest⟩ := ar
        rw [h1] at h
        rw [ih2 ts a1 rest h1]
        cases rest with
        | nil =>
          injection h with h4
          injection h4 with h5 h6
          subst h5; subst h6
          rfl
        | cons t rest1 =>
          cases t <;>
            first
            | (cases h; done)
            | (injection h with h4; injection h4 with h5 h6; subst h5; subst h6;
                first
                | rfl
                | (rename_i n; cases hlk : dlookup d n <;> simp [substTok, hlk]))
            | ((try dsimp only at h);
               cases h2 : parseAdd f rest1 with
               | error e => rw [h2] at h; cases h
               | ok cr =>
                 obtain ⟨cnd, rest3⟩ := cr
                 rw [h2] at h
                 (try dsimp only at h)
                 have h3 := ih2 rest1 cnd rest3 h2
                 cases rest3 with
                 | nil => cases h
                 | cons t3 rest4 =>
                   cases t3 <;>
                     first
                     | (cases h; done)
                     | ((try dsimp only at h);
                        cases h4 : parseCond f rest4 with
                        | error e => rw [h4] at h; cases h
                        | ok br =>
                          obtain ⟨b, rest5⟩ := br
                          rw [h4] at h
                          have h7 := ih1 rest4 b rest5 h4
                          injection h with h8
                          injection h8 with h9 h10
                          subst h9; subst h10
                          simp [substTok_kwIf, substTok_kwElse, h3, h7, substE]))
    · -- parseAdd
      intro ts a r h
      unfold parseAdd at h ⊢
      cases h1 : parseMul f ts with
      | error e => rw [h1] at h; cases h
      | ok ar =>
        obtain ⟨a1, rest⟩ := ar
        rw [h1] at h
        rw [ih4 ts a1 rest h1]
        exact ih3 a1 rest a r h
    · -- parseAddLoop
      intro acc ts a r h
      unfold parseAddLoop at h ⊢
      cases ts with
      | nil =>
        injection h with h4
        injection h4 with h5 h6
        subst h5; subst h6
        rfl
      | cons t r1 =>
        cases t <;>
          first
          | (injection h with h4; injection h4 with h5 h6; subst h5; subst h6;
              first
              | rfl
              | (rename_i n; cases hlk : dlookup d n <;> simp [substTok, hlk]))
          | ((try dsimp only at h);
             cases h2 : parseMul f r1 with
             | error e => rw [h2] at h; cases h
             | ok br =>
               obtain ⟨b, r2⟩ := br
               rw [h2] at h
               (try dsimp only at h)
               have h3 := ih4 r1 b r2 h2
               have h5 := ih3 (Expr.add acc b) r2 a r h
               simp only [substE] at h5
               simp [substTok_plus, h3, h5])
          | ((try dsimp only at h);
             cases h2 : parseMul f r1 with
             | error e => rw [h2] at h; cases h
             | ok br =>
               obtain ⟨b, r2⟩ := br
               rw [h2] at h
               (try dsimp only at h)
               have h3 := ih4 r1 b r2 h2
               have h5 := ih3 (Expr.sub acc b) r2 a r h
               simp only [substE] at h5
               simp [substTok_minus, h3, h5])
    · -- parseMul
      intro ts a r h
      unfold parseMul at h ⊢
      cases h1 : parseUnary f ts with
      | error e => rw [h1] at h; cases h
      | ok ar =>
        obtain ⟨a1, rest⟩ := ar
        rw [h1] at h
        rw [ih6 ts a1 rest h1]
        exact ih5 a1 rest a r h
    · -- parseMulLoop
      intro acc ts a r h
      unfold parseMulLoop at h ⊢
      cases ts with
      | nil =>
        injection h with h4
        injection h4 with h5 h6
        subst h5; subst h6
        rfl
      | cons t r1 =>
        cases t <;>
          first
          | (injection h with h4; injection h4 with h5 h6; subst h5; subst h6;
              first
              | rfl
              | (rename_i n; cases hlk : dlookup d n <;> simp [substTok, hlk]))
          | ((try dsimp only at h);
             cases h2 : parseUnary f r1 with
             | error e => rw [h2] at h; cases h
             | ok br =>
               obtain ⟨b, r2⟩ := br
               rw [h2] at h
               (try dsimp only at h)
               have h3 := ih6 r1 b r2 h2
               have h5 := ih5 (Expr.mul acc b) r2 a r h
               simp only [substE] at h5
               simp [substTok_star, h3, h5])
          | ((try dsimp only at h);
             cases h2 : parseUnary f r1 with
             | error e => rw [h2] at h; cases h
             | ok br =>
               obtain ⟨b, r2⟩ := br
               rw [h2] at h
               (try dsimp only at h)
               have h3 := ih6 r1 b r2 h2
               have h5 := ih5 (Expr.div acc b) r2 a r h
               simp only [substE] at h5
               simp [substTok_slash, h3, h5])
          | ((try dsimp only at h);
             cases h2 : parseUnary f r1 with
             | error e => rw [h2] at h; cases h
             | ok br =>
               obtain ⟨b, r2⟩ := br
               rw [h2] at h
               (try dsimp only at h)
               have h3 := ih6 r1 b r2 h2
               have h5 := ih5 (Expr.fdiv acc b) r2 a r h
               simp only [substE] at h5
               simp [substTok_dslash, h3, h5])
          | ((try dsimp only at h);
             cases h2 : parseUnary f r1 with
             | error e => rw [h2] at h; cases h
             | ok br =>
               obtain ⟨b, r2⟩ := br
               rw [h2] at h
               (try dsimp only at h)
               have h3 := ih6 r1 b r2 h2
               have h5 := ih5 (Expr.mod acc b) r2 a r h
               simp only [substE] at h5
               simp [substTok_percent, h3, h5])
    · -- parseUnary
      intro ts a r h
      unfold parseUnary at h ⊢
      cases ts with
      | nil => exact ih7 [] a r h
      | cons t r1 =>
        cases t <;>
          first
          | ((try dsimp only at h);
             cases h2 : parseUnary f r1 with
             | error e => rw [h2] at h; cases h
             | ok br =>
               obtain ⟨b, r2⟩ := br
               rw [h2] at h
               (try dsimp only at h)
               have h3 := ih6 r1 b r2 h2
               injection h with h4
               injection h4 with h5 h6
               subst h5; subst h6
               simp [substTok_minus, substTok_plus, h3, substE])
          | (have h5 := ih7 _ a r h
             first
             | (simpa [substTok_num, substTok_kwIf, substTok_kwElse, substTok_star,
                 substTok_slash, substTok_dslash, substTok_percent, substTok_dstar,
                 substTok_lparen, substTok_rparen, substTok_comma] using h5)
             | (rename_i n;
                simp only [List.map_cons] at h5 ⊢;
                cases hlk : dlookup d n <;> simp [substTok, hlk] at h5 ⊢ <;> exact h5))
    · -- parsePower
      intro ts a r h
      unfold parsePower at h ⊢
      cases h1 : parsePrimary f ts with
      | error e => rw [h1] at h; cases h
      | ok ar =>
        obtain ⟨a1, rest⟩ := ar
        rw [h1] at h
        rw [ih8 ts a1 rest h1]
        cases rest with
        | nil =>
          injection h with h4
          injection h4 with h5 h6
          subst h5; subst h6
          rfl
        | cons t rest1 =>
          cases t <;>
            first
            | (injection h with h4; injection h4 with h5 h6; subst h5; subst h6;
                first
                | rfl
                | (rename_i n; cases hlk : dlookup d n <;> simp [substTok, hlk]))
            | ((try dsimp only at h);
               cases h2 : parseUnary f rest1 with
               | error e => rw [h2] at h; cases h
               | ok br =>
                 obtain ⟨b, rest2⟩ := br
                 rw [h2] at h
                 (try dsimp only at h)
                 have h3 := ih6 rest1 b rest2 h2
                 injection h with h4
                 injection h4 with h5 h6
                 subst h5; subst h6
                 simp [substTok_dstar, h3, substE])
    · -- parsePrimary
      intro ts a r h
      unfold parsePrimary at h ⊢
      cases h1 : parseAtom f ts with
      | error e => rw [h1] at h; cases h
      | ok ar =>
        obtain ⟨a1, rest⟩ := ar
        rw [h1] at h
        rw [ih11 ts a1 rest h1]
        exact ih9 a1 rest a r h
    · -- parseCallLoop
      intro acc ts a r h
      unfold parseCallLoop at h ⊢
      cases ts with
      | nil =>
        injection h with h4
        injection h4 with h5 h6
        subst h5; subst h6
        rfl
      | cons t r1 =>
        cases t <;>
          first
          | (injection h with h4; injection h4 with h5 h6; subst h5; subst h6;
              first
              | rfl
              | (rename_i n; cases hlk : dlookup d n <;> simp [substTok, hlk]))
          | ((try dsimp only at h);
             cases r1 with
             | nil =>
               (try dsimp only at h)
               cases h2 : parseArgs f [] with
               | error e => rw [h2] at h; cases h
               | ok br =>
                 obtain ⟨args, r2⟩ := br
                 rw [h2] at h
                 (try dsimp only at h)
                 have h3 := ih10 [] args r2 h2
                 simp only [List.map_nil] at h3
                 cases r2 with
                 | nil => cases h
                 | cons t2 r3 =>
                   cases t2 <;>
                     first
                     | ((try dsimp only at h); cases h; done)
                     | ((try dsimp only at h);
                        have h5 := ih9 (Expr.call acc args) r3 a r h
                        simp only [substE] at h5
                        simp [substTok_lparen, substTok_rparen, h3, h5])
             | cons t2 r3 =>
               cases h2 : parseArgs f (t2 :: r3) with
               | error e =>
                 cases t2 <;>
                   first
                   | ((try dsimp only at h);
                      have h5 := ih9 (Expr.call acc []) r3 a r h
                      simp only [substE, substEArgs] at h5
                      simp [substTok_lparen, substTok_rparen, h5])
                   | ((try dsimp only at h); rw [h2] at h; cases h)
               | ok br =>
                 obtain ⟨args, r2⟩ := br
                 have h3 := ih10 (t2 :: r3) args r2 h2
                 cases t2 <;>
                   first
                   | ((try dsimp only at h);
                      have h5 := ih9 (Expr.call acc []) r3 a r h
                      simp only [substE, substEArgs] at h5
                      simp [substTok_lparen, substTok_rparen, h5])
                   | ((try dsimp only at h);
                      rw [h2] at h;
                      (try dsimp only at h);
                      cases r2 with
                      | nil => cases h
                      | cons t4 r4 =>
                        cases t4 <;>
                          first
                          | ((try dsimp only at h); cases h; done)
                          | ((try dsimp only at h);
                             have h5 := ih9 (Expr.call acc args) r4 a r h
                             simp only [substE] at h5
                             simp only [List.map_cons, substTok_num, substTok_kwIf,
                               substTok_kwElse, substTok_plus, substTok_minus, substTok_star,
                               substTok_slash, substTok_dslash, substTok_percent, substTok_dstar,
                               substTok_lparen, substTok_comma, substTok_rparen] at h3
                             first
                             | (simp [substTok_num, substTok_kwIf, substTok_kwElse, substTok_plus,
                                  substTok_minus, substTok_star, substTok_slash, substTok_dslash,
                                  substTok_percent, substTok_dstar, substTok_lparen, substTok_comma,
                                  substTok_rparen, h3, h5];
                                 done)
                             | (rename_i n; cases hlk : dlookup d n <;>
                                 (simp only [substTok, hlk] at h3; simp [substTok, hlk, h3, h5])))))
    · -- parseArgs
      intro ts as r h
      unfold parseArgs at h ⊢
      cases h1 : parseCond f ts with
      | error e => rw [h1] at h; cases h
      | ok ar =>
        obtain ⟨a1, rest⟩ := ar
        rw [h1] at h
        rw [ih1 ts a1 rest h1]
        cases rest with
        | nil =>
          injection h with h4
          injection h4 with h5 h6
          subst h5; subst h6
          rfl
        | cons t rest1 =>
          cases t <;>
            first
            | (injection h with h4; injection h4 with h5 h6; subst h5; subst h6;
                first
                | rfl
                | (rename_i n; cases hlk : dlookup d n <;> simp [substTok, hlk, substEArgs]))
            | ((try dsimp only at h);
               cases rest1 with
               | nil =>
                 (try dsimp only at h)
                 cases h2 : parseArgs f [] with
                 | error e => rw [h2] at h; cases h
                 | ok br =>
                   obtain ⟨args2, r2⟩ := br
                   rw [h2] at h
                   (try dsimp only at h)
                   have h3 := ih10 [] args2 r2 h2
                   simp only [List.map_nil] at h3
                   injection h with h4
                   injection h4 with h5 h6
                   subst h5; subst h6
                   simp [substTok_comma, h3, substEArgs]
               | cons t2 r3 =>
                 cases h2 : parseArgs f (t2 :: r3) with
                 | error e =>
                   cases t2 <;>
                     first
                     | ((try dsimp only at h);
                        injection h with h4; injection h4 with h5 h6; subst h5; subst h6;
                        simp [substTok_comma, substTok_rparen, substEArgs])
                     | ((try dsimp only at h); rw [h2] at h; cases h)
                 | ok br =>
                   obtain ⟨args2, r2⟩ := br
                   have h3 := ih10 (t2 :: r3) args2 r2 h2
                   cases t2 <;>
                     first
                     | ((try dsimp only at h);
                        injection h with h4; injection h4 with h5 h6; subst h5; subst h6;
                        simp [substTok_comma, substTok_rparen, substEArgs])
                     | ((try dsimp only at h);
                        rw [h2] at h;
                        (try dsimp only at h);
                        injection h with h4; injection h4 with h5 h6; subst h5; subst h6;
                        simp only [List.map_cons, substTok_num, substTok_kwIf,
                          substTok_kwElse, substTok_plus, substTok_minus, substTok_star,
                          substTok_slash, substTok_dslash, substTok_percent, substTok_dstar,
                          substTok_lparen, substTok_comma, substTok_rparen] at h3
                        first
                        | (simp [substTok_num, substTok_kwIf, substTok_kwElse, substTok_plus,
                             substTok_minus, substTok_star, substTok_slash, substTok_dslash,
                             substTok_percent, substTok_dstar, substTok_lparen, substTok_comma,
                             substTok_rparen, h3, substEArgs];
                            done)
                        | (rename_i n; cases hlk : dlookup d n <;>
                            (simp only [substTok, hlk] at h3;
                             simp [substTok, hlk, h3, substEArgs]))))
    · -- parseAtom
      intro ts a r h
      unfold parseAtom at h ⊢
      cases ts with
      | nil => cases h
      | cons t r1 =>
        cases t <;>
          first
          | (cases h; done)
          | (injection h with h4; injection h4 with h5 h6; subst h5; subst h6; rfl)
          | (injection h with h4; injection h4 with h5 h6; subst h5; subst h6;
             rename_i n; cases hlk : dlookup d n <;> simp [substTok, substE, hlk])
          | ((try dsimp only at h);
             cases h2 : parseCond f r1 with
             | error e => rw [h2] at h; cases h
             | ok br =>
               obtain ⟨a2, rest2⟩ := br
               rw [h2] at h
               (try dsimp only at h)
               have h3 := ih1 r1 a2 rest2 h2
               cases rest2 with
               | nil => cases h
               | cons t2 rest3 =>
                 cases t2 <;>
                   first
                   | (cases h; done)
                   | ((try dsimp only at h);
                      injection h with h4; injection h4 with h5 h6; subst h5; subst h6;
                      simp [substTok_lparen, substTok_rparen, h3]))

theorem parseAll_commute (d : Dict) (ts : List Tok) (a : Expr)
    (h : parseAll ts = .ok a) :
    parseAll (ts.map (substTok d)) = .ok (substE d a) := by
  unfold parseAll at h ⊢
  cases h1 : parseCond (8 * (ts.length + 1)) ts with
  | error e => rw [h1] at h; cases h
  | ok ar =>
    obtain ⟨a1, rest⟩ := ar
    rw [h1] at h
    cases rest with
    | nil =>
      injection h with h2
      subst h2
      have h3 := (parse_commute d (8 * (ts.length + 1))).1 ts a1 [] h1
      rw [List.length_map, h3]
      rfl
    | cons t rest1 => cases h

def headSafeToks (l : List Tok) : Prop :=
  l = [] ∨ ∃ t l2, l = t :: l2 ∧ isAtomTok t = false

theorem noAdjAtoms_nil : noAdjAtoms [] := List.chain'_nil

theorem noAdjAtoms_single (t : Tok) : noAdjAtoms [t] := List.chain'_singleton t

theorem noAdjAtoms_glue (p1 p2 : List Tok) (m : Tok) (hm : isAtomTok m = false)
    (h1 : noAdjAtoms p1) (h2 : noAdjAtoms p2) : noAdjAtoms (p1 ++ m :: p2) := by
  unfold noAdjAtoms at *
  rw [List.chain'_append]
  refine ⟨h1, ?_, ?_⟩
  · rw [List.chain'_cons']
    refine ⟨fun y hy hc => ?_, h2⟩
    rw [hm] at hc
    exact absurd hc.1 (by simp)
  · intro x hx y hy
    simp only [List.head?_cons, Option.mem_def, Option.some.injEq] at hy
    subst hy
    intro hc
    rw [hm] at hc
    exact absurd hc.2 (by simp)

theorem noAdjAtoms_append_headSafe (l1 l2 : List Tok)
    (h1 : noAdjAtoms l1) (h2 : noAdjAtoms l2) (hh : headSafeToks l2) :
    noAdjAtoms (l1 ++ l2) := by
  rcases hh with rfl | ⟨t, l3, rfl, ht⟩
  · simpa using h1
  · exact noAdjAtoms_glue l1 l3 t ht h1 (noAdjAtoms_tail h2)

mutual

/-- Size measure for the strong induction over the nested `Expr` type. -/
def exprSize : Expr → Nat
  | .lit _ => 1
  | .var _ => 1
  | .neg a => 1 + exprSize a
  | .pos a => 1 + exprSize a
  | .add a b => 1 + exprSize a + exprSize b
  | .sub a b => 1 + exprSize a + exprSize b
  | .mul a b => 1 + exprSize a + exprSize b
  | .div a b => 1 + exprSize a + exprSize b
  | .fdiv a b => 1 + exprSize a + exprSize b
  | .mod a b => 1 + exprSize a + exprSize b
  | .pow a b => 1 + exprSize a + exprSize b
  | .cond a c b => 1 + exprSize a + exprSize c + exprSize b
  | .call f args => 1 + exprSize f + exprSizeArgs args

def exprSizeArgs : List Expr → Nat
  | [] => 0
  | a :: rest => 1 + exprSize a + exprSizeArgs rest

end

theorem dlookup_append (d1 d2 : Dict) (n : String) :
    dlookup (d1 ++ d2) n =
      match dlookup d1 n with
      | some v => some v
      | none => dlookup d2 n := by
  induction d1 with
  | nil => rfl
  | cons kv rest ih =>
    obtain ⟨k, v⟩ := kv
    by_cases hk : k = n
    · simp [dlookup, hk]
    · simp [dlookup, hk, ih]

theorem eval_commute (d : Dict) :
    ∀ n : Nat,
      (∀ a : Expr, exprSize a ≤ n →
        evalE safe_env (substE d a) = evalE (d ++ safe_env) a) ∧
      (∀ args : List Expr, exprSizeArgs args ≤ n →
        evalArgs safe_env (substEArgs d args) = evalArgs (d ++ safe_env) args) := by
  intro n
  induction n with
  | zero =>
    constructor
    · intro a hx; exfalso; cases a <;> simp [exprSize] at hx
    · intro args hx
      cases args with
      | nil => rfl
      | cons a rest => exfalso; simp [exprSizeArgs] at hx
  | succ n ih =>
    obtain ⟨ihE, ihA⟩ := ih
    constructor
    · intro a hx
      cases a with
      | lit v => rfl
      | var m =>
        simp only [substE]
        cases hlk : dlookup d m with
        | some v => simp [evalE, dlookup_append, hlk]
        | none => simp [evalE, dlookup_append, hlk]
      | neg a =>
        have h1 := ihE a (by simp [exprSize] at hx; omega)
        simp [substE, evalE, h1]
      | pos a =>
        have h1 := ihE a (by simp [exprSize] at hx; omega)
        simp [substE, evalE, h1]
      | add a b =>
        have h1 := ihE a (by simp [exprSize] at hx; omega)
        have h2 := ihE b (by simp [exprSize] at hx; omega)
        simp [substE, evalE, h1, h2]
      | sub a b =>
        have h1 := ihE a (by simp [exprSize] at hx; omega)
        have h2 := ihE b (by simp [exprSize] at hx; omega)
        simp [substE, evalE, h1, h2]
      | mul a b =>
        have h1 := ihE a (by simp [exprSize] at hx; omega)
        have h2 := ihE b (by simp [exprSize] at hx; omega)
        simp [substE, evalE, h1, h2]
      | div a b =>
        have h1 := ihE a (by simp [exprSize] at hx; omega)
        have h2 := ihE b (by simp [exprSize] at hx; omega)
        simp [substE, evalE, h1, h2]
      | fdiv a b =>
        have h1 := ihE a (by simp [exprSize] at hx; omega)
        have h2 := ihE b (by simp [exprSize] at hx; omega)
        simp [substE, evalE, h1, h2]
      | mod a b =>
        have h1 := ihE a (by simp [exprSize] at hx; omega)
        have h2 := ihE b (by simp [exprSize] at hx; omega)
        simp [substE, evalE, h1, h2]
      | pow a b =>
        have h1 := ihE a (by simp [exprSize] at hx; omega)
        have h2 := ihE b (by simp [exprSize] at hx; omega)
        simp [substE, evalE, h1, h2]
      | cond a c b =>
        have h1 := ihE a (by simp [exprSize] at hx; omega)
        have h2 := ihE c (by simp [exprSize] at hx; omega)
        have h3 := ihE b (by simp [exprSize] at hx; omega)
        simp [substE, evalE, h1, h2, h3]
      | call f args =>
        have h1 := ihE f (by simp [exprSize] at hx; omega)
        have h2 := ihA args (by simp [exprSize] at hx; omega)
        simp [substE, evalE, h1, h2]
    · intro args hx
      cases args with
      | nil => rfl
      | cons a rest =>
        have h1 := ihE a (by simp [exprSizeArgs] at hx; omega)
        have h2 := ihA rest (by simp [exprSizeArgs] at hx; omega)
        simp [substEArgs, evalArgs, h1, h2]

theorem parse_noAdjAtoms :
    ∀ f : Nat,
      (∀ ts a r, parseCond f ts = .ok (a, r) →
        ∃ pre, ts = pre ++ r ∧ noAdjAtoms pre) ∧
      (∀ ts a r, parseAdd f ts = .ok (a, r) →
        ∃ pre, ts = pre ++ r ∧ noAdjAtoms pre) ∧
      (∀ acc ts a r, parseAddLoop f acc ts = .ok (a, r) →
        ∃ pre, ts = pre ++ r ∧ noAdjAtoms pre ∧ headSafeToks pre) ∧
      (∀ ts a r, parseMul f ts = .ok (a, r) →
        ∃ pre, ts = pre ++ r ∧ noAdjAtoms pre) ∧
      (∀ acc ts a r, parseMulLoop f acc ts = .ok (a, r) →
        ∃ pre, ts = pre ++ r ∧ noAdjAtoms pre ∧ headSafeToks pre) ∧
      (∀ ts a r, parseUnary f ts = .ok (a, r) →
        ∃ pre, ts = pre ++ r ∧ noAdjAtoms pre) ∧
      (∀ ts a r, parsePower f ts = .ok (a, r) →
        ∃ pre, ts = pre ++ r ∧ noAdjAtoms pre) ∧
      (∀ ts a r, parsePrimary f ts = .ok (a, r) →
        ∃ pre, ts = pre ++ r ∧ noAdjAtoms pre) ∧
      (∀ acc ts a r, parseCallLoop f acc ts = .ok (a, r) →
        ∃ pre, ts = pre ++ r ∧ noAdjAtoms pre ∧ headSafeToks pre) ∧
      (∀ ts as r, parseArgs f ts = .ok (as, r) →
        ∃ pre, ts = pre ++ r ∧ noAdjAtoms pre) ∧
      (∀ ts a r, parseAtom f ts = .ok (a, r) →
        ∃ pre, ts = pre ++ r ∧ noAdjAtoms pre) := by
  intro f
  induction f with
  | zero =>
    exact ⟨(fun ts a r h => by cases h), (fun ts a r h => by cases h),
      (fun acc ts a r h => by cases h), (fun ts a r h => by cases h),
      (fun acc ts a r h => by cases h), (fun ts a r h => by cases h),
      (fun ts a r h => by cases h), (fun ts a r h => by cases h),
      (fun acc ts a r h => by cases h), (fun ts as r h => by cases h),
      (fun ts a r h => by cases h)⟩
  | succ f ih =>
    obtain ⟨ih1, ih2, ih3, ih4, ih5, ih6, ih7, ih8, ih9, ih10, ih11⟩ := ih
    refine ⟨?_, ?_, ?_, ?_, ?_, ?_, ?_, ?_, ?_, ?_, ?_⟩
    · -- parseCond
      intro ts a r h
      unfold parseCond at h
      cases h1 : parseAdd f ts with
      | error e => rw [h1] at h; cases h
      | ok ar =>
        obtain ⟨a1, rest⟩ := ar
        rw [h1] at h
        (try dsimp only at h)
        obtain ⟨pre1, hP1, hP1n⟩ := ih2 ts a1 rest h1
        cases rest with
        | nil =>
          injection h with h4
          injection h4 with h5 h6
          subst h6
          exact ⟨pre1, hP1, hP1n⟩
        | cons t r2 =>
          cases t <;>
            first
            | (injection h with h4; injection h4 with h5 h6; subst h6;
               exact ⟨pre1, hP1, hP1n⟩)
            | ((try dsimp only at h);
               cases h2 : parseAdd f r2 with
               | error e => rw [h2] at h; cases h
               | ok br =>
                 obtain ⟨c, r3⟩ := br
                 rw [h2] at h
                 (try dsimp only at h)
                 obtain ⟨pre2, hP2, hP2n⟩ := ih2 r2 c r3 h2
                 cases r3 with
                 | nil => cases h
                 | cons t2 r4 =>
                   cases t2 <;>
                     first
                     | ((try dsimp only at h); cases h; done)
                     | ((try dsimp only at h);
                        cases h3 : parseCond f r4 with
                        | error e => rw [h3] at h; cases h
                        | ok cr =>
                          obtain ⟨b, r5⟩ := cr
                          rw [h3] at h
                          (try dsimp only at h)
                          injection h with h4
                          injection h4 with h5 h6
                          subst h6
                          obtain ⟨pre3, hP3, hP3n⟩ := ih1 r4 b r5 h3
                          refine ⟨pre1 ++ Tok.kwIf :: (pre2 ++ Tok.kwElse :: pre3), ?_, ?_⟩
                          · rw [hP1, hP2, hP3]; simp [List.append_assoc]
                          · exact noAdjAtoms_glue pre1 _ Tok.kwIf rfl hP1n
                              (noAdjAtoms_glue pre2 pre3 Tok.kwElse rfl hP2n hP3n)))
    · -- parseAdd
      intro ts a r h
      unfold parseAdd at h
      cases h1 : parseMul f ts with
      | error e => rw [h1] at h; cases h
      | ok ar =>
        obtain ⟨a1, rest⟩ := ar
        rw [h1] at h
        obtain ⟨preM, hM, hMn⟩ := ih4 ts a1 rest h1
        obtain ⟨preL, hL, hLn, hLs⟩ := ih3 a1 rest a r h
        refine ⟨preM ++ preL, ?_, noAdjAtoms_append_headSafe preM preL hMn hLn hLs⟩
        rw [hM, hL]; simp [List.append_assoc]
    · -- parseAddLoop
      intro acc ts a r h
      unfold parseAddLoop at h
      cases ts with
      | nil =>
        injection h with h4
        injection h4 with h5 h6
        subst h6
        exact ⟨[], rfl, noAdjAtoms_nil, Or.inl rfl⟩
      | cons t r1 =>
        cases t <;>
          first
          | (injection h with h4; injection h4 with h5 h6; subst h6;
             exact ⟨[], rfl, noAdjAtoms_nil, Or.inl rfl⟩)
          | ((try dsimp only at h);
             cases h2 : parseMul f r1 with
             | error e => rw [h2] at h; cases h
             | ok br =>
               obtain ⟨b, r2⟩ := br
               rw [h2] at h
               (try dsimp only at h)
               obtain ⟨preM, hM, hMn⟩ := ih4 r1 b r2 h2
               obtain ⟨preL, hL, hLn, hLs⟩ := ih3 _ r2 a r h
               refine ⟨Tok.plus :: (preM ++ preL), ?_, ?_, ?_⟩
               · rw [hM, hL]; simp [List.append_assoc]
               · exact noAdjAtoms_glue [] (preM ++ preL) Tok.plus rfl noAdjAtoms_nil
                   (noAdjAtoms_append_headSafe preM preL hMn hLn hLs)
               · exact Or.inr ⟨Tok.plus, preM ++ preL, rfl, rfl⟩)
          | ((try dsimp only at h);
             cases h2 : parseMul f r1 with
             | error e => rw [h2] at h; cases h
             | ok br =>
               obtain ⟨b, r2⟩ := br
               rw [h2] at h
               (try dsimp only at h)
               obtain ⟨preM, hM, hMn⟩ := ih4 r1 b r2 h2
               obtain ⟨preL, hL, hLn, hLs⟩ := ih3 _ r2 a r h
               refine ⟨Tok.minus :: (preM ++ preL), ?_, ?_, ?_⟩
               · rw [hM, hL]; simp [List.append_assoc]
               · exact noAdjAtoms_glue [] (preM ++ preL) Tok.minus rfl noAdjAtoms_nil
                   (noAdjAtoms_append_headSafe preM preL hMn hLn hLs)
               · exact Or.inr ⟨Tok.minus, preM ++ preL, rfl, rfl⟩)
    · -- parseMul
      intro ts a r h
      unfold parseMul at h
      cases h1 : parseUnary f ts with
      | error e => rw [h1] at h; cases h
      | ok ar =>
        obtain ⟨a1, rest⟩ := ar
        rw [h1] at h
        obtain ⟨preU, hU, hUn⟩ := ih6 ts a1 rest h1
        obtain ⟨preL, hL, hLn, hLs⟩ := ih5 a1 rest a r h
        refine ⟨preU ++ preL, ?_, noAdjAtoms_append_headSafe preU preL hUn hLn hLs⟩
        rw [hU, hL]; simp [List.append_assoc]
    · -- parseMulLoop
      intro acc ts a r h
      unfold parseMulLoop at h
      cases ts with
      | nil =>
        injection h with h4
        injection h4 with h5 h6
        subst h6
        exact ⟨[], rfl, noAdjAtoms_nil, Or.inl rfl⟩
      | cons t r1 =>
        cases t <;>
          first
          | (injection h with h4; injection h4 with h5 h6; subst h6;
             exact ⟨[], rfl, noAdjAtoms_nil, Or.inl rfl⟩)
          | ((try dsimp only at h);
             cases h2 : parseUnary f r1 with
             | error e => rw [h2] at h; cases h
             | ok br =>
               obtain ⟨b, r2⟩ := br
               rw [h2] at h
               (try dsimp only at h)
               obtain ⟨preM, hM, hMn⟩ := ih6 r1 b r2 h2
               obtain ⟨preL, hL, hLn, hLs⟩ := ih5 _ r2 a r h
               refine ⟨Tok.star :: (preM ++ preL), ?_, ?_, ?_⟩
               · rw [hM, hL]; simp [List.append_assoc]
               · exact noAdjAtoms_glue [] (preM ++ preL) Tok.star rfl noAdjAtoms_nil
                   (noAdjAtoms_append_headSafe preM preL hMn hLn hLs)
               · exact Or.inr ⟨Tok.star, preM ++ preL, rfl, rfl⟩)
          | ((try dsimp only at h);
             cases h2 : parseUnary f r1 with
             | error e => rw [h2] at h; cases h
             | ok br =>
               obtain ⟨b, r2⟩ := br
               rw [h2] at h
               (try dsimp only at h)
               obtain ⟨preM, hM, hMn⟩ := ih6 r1 b r2 h2
               obtain ⟨preL, hL, hLn, hLs⟩ := ih5 _ r2 a r h
               refine ⟨Tok.slash :: (preM ++ preL), ?_, ?_, ?_⟩
               · rw [hM, hL]; simp [List.append_assoc]
               · exact noAdjAtoms_glue [] (preM ++ preL) Tok.slash rfl noAdjAtoms_nil
                   (noAdjAtoms_append_headSafe preM preL hMn hLn hLs)
               · exact Or.inr ⟨Tok.slash, preM ++ preL, rfl, rfl⟩)
          | ((try dsimp only at h);
             cases h2 : parseUnary f r1 with
             | error e => rw [h2] at h; cases h
             | ok br =>
               obtain ⟨b, r2⟩ := br
               rw [h2] at h
               (try dsimp only at h)
               obtain ⟨preM, hM, hMn⟩ := ih6 r1 b r2 h2
               obtain ⟨preL, hL, hLn, hLs⟩ := ih5 _ r2 a r h
               refine ⟨Tok.dslash :: (preM ++ preL), ?_, ?_, ?_⟩
               · rw [hM, hL]; simp [List.append_assoc]
               · exact noAdjAtoms_glue [] (preM ++ preL) Tok.dslash rfl noAdjAtoms_nil
                   (noAdjAtoms_append_headSafe preM preL hMn hLn hLs)
               · exact Or.inr ⟨Tok.dslash, preM ++ preL, rfl, rfl⟩)
          | ((try dsimp only at h);
             cases h2 : parseUnary f r1 with
             | error e => rw [h2] at h; cases h
             | ok br =>
               obtain ⟨b, r2⟩ := br
               rw [h2] at h
               (try dsimp only at h)
               obtain ⟨preM, hM, hMn⟩ := ih6 r1 b r2 h2
               obtain ⟨preL, hL, hLn, hLs⟩ := ih5 _ r2 a r h
               refine ⟨Tok.percent :: (preM ++ preL), ?_, ?_, ?_⟩
               · rw [hM, hL]; simp [List.append_assoc]
               · exact noAdjAtoms_glue [] (preM ++ preL) Tok.percent rfl noAdjAtoms_nil
                   (noAdjAtoms_append_headSafe preM preL hMn hLn hLs)
               · exact Or.inr ⟨Tok.percent, preM ++ preL, rfl, rfl⟩)
    · -- parseUnary
      intro ts a r h
      unfold parseUnary at h
      cases ts with
      | nil => exact ih7 [] a r h
      | cons t r1 =>
        cases t <;>
          first
          | (exact ih7 _ a r h)
          | ((try dsimp only at h);
             cases h2 : parseUnary f r1 with
             | error e => rw [h2] at h; cases h
             | ok br =>
               obtain ⟨b, r2⟩ := br
               rw [h2] at h
               (try dsimp only at h)
               injection h with h4
               injection h4 with h5 h6
               subst h6
               obtain ⟨preU, hU, hUn⟩ := ih6 r1 b r2 h2
               refine ⟨Tok.minus :: preU, ?_, ?_⟩
               · rw [hU]; rfl
               · exact noAdjAtoms_glue [] preU Tok.minus rfl noAdjAtoms_nil hUn)
          | ((try dsimp only at h);
             cases h2 : parseUnary f r1 with
             | error e => rw [h2] at h; cases h
             | ok br =>
               obtain ⟨b, r2⟩ := br
               rw [h2] at h
               (try dsimp only at h)
               injection h with h4
               injection h4 with h5 h6
               subst h6
               obtain ⟨preU, hU, hUn⟩ := ih6 r1 b r2 h2
               refine ⟨Tok.plus :: preU, ?_, ?_⟩
               · rw [hU]; rfl
               · exact noAdjAtoms_glue [] preU Tok.plus rfl noAdjAtoms_nil hUn)
    · -- parsePower
      intro ts a r h
      unfold parsePower at h
      cases h1 : parsePrimary f ts with
      | error e => rw [h1] at h; cases h
      | ok ar =>
        obtain ⟨a1, rest⟩ := ar
        rw [h1] at h
        (try dsimp only at h)
        obtain ⟨preP, hP, hPn⟩ := ih8 ts a1 rest h1
        cases rest with
        | nil =>
          injection h with h4
          injection h4 with h5 h6
          subst h6
          exact ⟨preP, hP, hPn⟩
        | cons t r2 =>
          cases t <;>
            first
            | (injection h with h4; injection h4 with h5 h6; subst h6;
               exact ⟨preP, hP, hPn⟩)
            | ((try dsimp only at h);
               cases h2 : parseUnary f r2 with
               | error e => rw [h2] at h; cases h
               | ok br =>
                 obtain ⟨b, r3⟩ := br
                 rw [h2] at h
                 (try dsimp only at h)
                 injection h with h4
                 injection h4 with h5 h6
                 subst h6
                 obtain ⟨preU, hU, hUn⟩ := ih6 r2 b r3 h2
                 refine ⟨preP ++ Tok.dstar :: preU, ?_, ?_⟩
                 · rw [hP, hU]; simp [List.append_assoc]
                 · exact noAdjAtoms_glue preP preU Tok.dstar rfl hPn hUn)
    · -- parsePrimary
      intro ts a r h
      unfold parsePrimary at h
      cases h1 : parseAtom f ts with
      | error e => rw [h1] at h; cases h
      | ok ar =>
        obtain ⟨a1, rest⟩ := ar
        rw [h1] at h
        obtain ⟨preA, hA, hAn⟩ := ih11 ts a1 rest h1
        obtain ⟨preL, hL, hLn, hLs⟩ := ih9 a1 rest a r h
        refine ⟨preA ++ preL, ?_, noAdjAtoms_append_headSafe preA preL hAn hLn hLs⟩
        rw [hA, hL]; simp [List.append_assoc]
    · -- parseCallLoop
      intro acc ts a r h
      unfold parseCallLoop at h
      cases ts with
      | nil =>
        injection h with h4
        injection h4 with h5 h6
        subst h6
        exact ⟨[], rfl, noAdjAtoms_nil, Or.inl rfl⟩
      | cons t r1 =>
        cases t <;>
          first
          | (injection h with h4; injection h4 with h5 h6; subst h6;
             exact ⟨[], rfl, noAdjAtoms_nil, Or.inl rfl⟩)
          | ((try dsimp only at h);
             cases r1 with
             | nil =>
               (try dsimp only at h)
               cases h2 : parseArgs f [] with
               | error e => rw [h2] at h; cases h
               | ok br =>
                 obtain ⟨args, r2⟩ := br
                 obtain ⟨preA, hA, hAn⟩ := ih10 [] args r2 h2
                 have hA2 := hA.symm
                 rw [List.append_eq_nil] at hA2
                 obtain ⟨hpA, hr2⟩ := hA2
                 subst hr2
                 rw [h2] at h
                 (try dsimp only at h)
                 cases h
             | cons t2 r3 =>
               cases h2 : parseArgs f (t2 :: r3) with
               | error e =>
                 cases t2 <;>
                   first
                   | ((try dsimp only at h);
                      obtain ⟨preL, hL, hLn, hLs⟩ := ih9 _ r3 a r h
                      refine ⟨Tok.lparen :: Tok.rparen :: preL, ?_, ?_, ?_⟩
                      · rw [hL]; rfl
                      · exact noAdjAtoms_glue [] (Tok.rparen :: preL) Tok.lparen rfl
                          noAdjAtoms_nil
                          (noAdjAtoms_glue [] preL Tok.rparen rfl noAdjAtoms_nil hLn)
                      · exact Or.inr ⟨Tok.lparen, Tok.rparen :: preL, rfl, rfl⟩)
                   | ((try dsimp only at h); rw [h2] at h; cases h)
               | ok br =>
                 obtain ⟨args, r2⟩ := br
                 obtain ⟨preA, hA, hAn⟩ := ih10 (t2 :: r3) args r2 h2
                 cases t2 <;>
                   first
                   | ((try dsimp only at h);
                      obtain ⟨preL, hL, hLn, hLs⟩ := ih9 _ r3 a r h
                      refine ⟨Tok.lparen :: Tok.rparen :: preL, ?_, ?_, ?_⟩
                      · rw [hL]; rfl
                      · exact noAdjAtoms_glue [] (Tok.rparen :: preL) Tok.lparen rfl
                          noAdjAtoms_nil
                          (noAdjAtoms_glue [] preL Tok.rparen rfl noAdjAtoms_nil hLn)
                      · exact Or.inr ⟨Tok.lparen, Tok.rparen :: preL, rfl, rfl⟩)
                   | ((try dsimp only at h);
                      rw [h2] at h;
                      (try dsimp only at h);
                      cases r2 with
                      | nil => cases h
                      | cons t4 r4 =>
                        cases t4 <;>
                          first
                          | ((try dsimp only at h); cases h; done)
                          | ((try dsimp only at h);
                             obtain ⟨preL, hL, hLn, hLs⟩ := ih9 _ r4 a r h
                             refine ⟨Tok.lparen :: (preA ++ Tok.rparen :: preL), ?_, ?_, ?_⟩
                             · rw [hA, hL]; simp [List.append_assoc]
                             · exact noAdjAtoms_glue [] (preA ++ Tok.rparen :: preL)
                                 Tok.lparen rfl noAdjAtoms_nil
                                 (noAdjAtoms_glue preA preL Tok.rparen rfl hAn hLn)
                             · exact Or.inr ⟨Tok.lparen, preA ++ Tok.rparen :: preL,
                                 rfl, rfl⟩)))
    · -- parseArgs
      intro ts as r h
      unfold parseArgs at h
      cases h1 : parseCond f ts with
      | error e => rw [h1] at h; cases h
      | ok ar =>
        obtain ⟨a1, rest⟩ := ar
        rw [h1] at h
        (try dsimp only at h)
        obtain ⟨preC, hC, hCn⟩ := ih1 ts a1 rest h1
        cases rest with
        | nil =>
          injection h with h4
          injection h4 with h5 h6
          subst h6
          exact ⟨preC, hC, hCn⟩
        | cons t r2 =>
          cases t <;>
            first
            | (injection h with h4; injection h4 with h5 h6; subst h6;
               exact ⟨preC, hC, hCn⟩)
            | ((try dsimp only at h);
               cases r2 with
               | nil =>
                 (try dsimp only at h)
                 cases h2 : parseArgs f [] with
                 | error e => rw [h2] at h; cases h
                 | ok br =>
                   obtain ⟨args2, r3⟩ := br
                   obtain ⟨preA, hA, hAn⟩ := ih10 [] args2 r3 h2
                   have hA2 := hA.symm
                   rw [List.append_eq_nil] at hA2
                   obtain ⟨hpA, hr3⟩ := hA2
                   subst hr3
                   rw [h2] at h
                   (try dsimp only at h)
                   injection h with h4
                   injection h4 with h5 h6
                   subst h6
                   refine ⟨preC ++ [Tok.comma], ?_, ?_⟩
                   · rw [hC]; simp
                   · exact noAdjAtoms_glue preC [] Tok.comma rfl hCn noAdjAtoms_nil
               | cons t2 r3 =>
                 cases h2 : parseArgs f (t2 :: r3) with
                 | error e =>
                   cases t2 <;>
                     first
                     | ((try dsimp only at h);
                        injection h with h4; injection h4 with h5 h6; subst h6;
                        refine ⟨preC ++ [Tok.comma], ?_, ?_⟩
                        · rw [hC]; simp
                        · exact noAdjAtoms_glue preC [] Tok.comma rfl hCn noAdjAtoms_nil)
                     | ((try dsimp only at h); rw [h2] at h; cases h)
                 | ok br =>
                   obtain ⟨args2, r4⟩ := br
                   obtain ⟨preA, hA, hAn⟩ := ih10 (t2 :: r3) args2 r4 h2
                   cases t2 <;>
                     first
                     | ((try dsimp only at h);
                        injection h with h4; injection h4 with h5 h6; subst h6;
                        refine ⟨preC ++ [Tok.comma], ?_, ?_⟩
                        · rw [hC]; simp
                        · exact noAdjAtoms_glue preC [] Tok.comma rfl hCn noAdjAtoms_nil)
                     | ((try dsimp only at h);
                        rw [h2] at h;
                        (try dsimp only at h);
                        injection h with h4;
                        injection h4 with h5 h6;
                        subst h6;
                        refine ⟨preC ++ Tok.comma :: preA, ?_, ?_⟩
                        · rw [hC, hA]; simp [List.append_assoc]
                        · exact noAdjAtoms_glue preC preA Tok.comma rfl hCn hAn))
    · -- parseAtom
      intro ts a r h
      unfold parseAtom at h
      cases ts with
      | nil => cases h
      | cons t r1 =>
        cases t <;>
          first
          | (cases h; done)
          | (injection h with h4; injection h4 with h5 h6; subst h6;
             exact ⟨[Tok.num _], rfl, noAdjAtoms_single _⟩)
          | (injection h with h4; injection h4 with h5 h6; subst h6;
             exact ⟨[Tok.name _], rfl, noAdjAtoms_single _⟩)
          | ((try dsimp only at h);
             cases h2 : parseCond f r1 with
             | error e => rw [h2] at h; cases h
             | ok br =>
               obtain ⟨a2, r2⟩ := br
               rw [h2] at h
               (try dsimp only at h)
               obtain ⟨preC, hC, hCn⟩ := ih1 r1 a2 r2 h2
               cases r2 with
               | nil => cases h
               | cons t2 r3 =>
                 cases t2 <;>
                   first
                   | ((try dsimp only at h); cases h; done)
                   | ((try dsimp only at h);
                      injection h with h4;
                      injection h4 with h5 h6;
                      subst h6;
                      refine ⟨Tok.lparen :: preC ++ [Tok.rparen], ?_, ?_⟩
                      · rw [hC]; simp
                      · exact noAdjAtoms_glue [] (preC ++ [Tok.rparen]) Tok.lparen rfl
                          noAdjAtoms_nil
                          (noAdjAtoms_glue preC [] Tok.rparen rfl hCn noAdjAtoms_nil)))

theorem parseAll_noAdjAtoms (ts : List Tok) (a : Expr) (h : parseAll ts = .ok a) :
    noAdjAtoms ts := by
  unfold parseAll at h
  cases h1 : parseCond (8 * (ts.length + 1)) ts with
  | error e => rw [h1] at h; cases h
  | ok ar =>
    obtain ⟨a1, rest⟩ := ar
    rw [h1] at h
    cases rest with
    | nil =>
      obtain ⟨pre, hpre, hn⟩ := (parse_noAdjAtoms (8 * (ts.length + 1))).1 ts a1 [] h1
      rw [List.append_nil] at hpre
      rw [hpre]; exact hn
    | cons t r1 => cases h

/-- C1 (amended): on a nonempty variable mapping whose keys are Python
identifiers (word-only, not digit-initial, none of the lexed keywords)
and whose values print back as single literals (nonnegative ints of at
most 4300 decimal digits — CPython's int-to-str conversion limit, beyond
which `str` raises an uncaught `ValueError` inside `replace_var` —
floats with a plain decimal `str` form, or `None`), `restricted_eval`
agrees with the reference semantics of the claim — substituting the
variables' *values* into the expression and computing it — whenever that
reference evaluation succeeds.  The substitutability hypotheses are
forced by the counterexample: a negative value substituted textually
binds tighter operators around it differently (e.g. `x**2` at `x = -2`). -/
theorem restricted_eval_agrees_on_good_dicts (e : String) (d : Dict) (v : Value)
    (hd : GoodDict d) (hsem : semanticEval e d = .ok v) :
    restricted_eval e d = .ok v := by
  unfold semanticEval evalStr at hsem
  cases htok : tokenize e.toList with
  | error err => rw [htok] at hsem; cases hsem
  | ok ts =>
    rw [htok] at hsem
    (try dsimp only at hsem)
    cases hpar : parseAll ts with
    | error err => rw [hpar] at hsem; cases hsem
    | ok a =>
      rw [hpar] at hsem
      (try dsimp only at hsem)
      have hnaa := parseAll_noAdjAtoms ts a hpar
      obtain ⟨s2, hSO⟩ :=
        substTokenizeCore d hd e.toList.length e.toList false ts le_rfl htok hnaa
          (fun hc => by cases hc)
      obtain ⟨hsub, htok2, hnil, hh1, hh2⟩ := hSO
      have hsubst : subst d e.toList = .ok s2 := by
        unfold subst
        exact hsub (e.toList.length + 1) (Nat.lt_succ_self _)
      have heval : evalStr safe_env s2 = .ok v := by
        unfold evalStr
        rw [htok2]
        (try dsimp only)
        rw [parseAll_commute d ts a hpar]
        (try dsimp only)
        rw [(eval_commute d (exprSize a)).1 a le_rfl]
        exact hsem
      simp only [restricted_eval, restricted_eval_state, hsubst, heval]

theorem restricted_eval_agrees_on_good_dicts_witness :
    (GoodDict [("x", Value.int 2)] ∧
      semanticEval "x**2" [("x", Value.int 2)] = .ok (Value.int 4)) ∧
    restricted_eval "x**2" [("x", Value.int 2)] = .ok (Value.int 4) :=
  ⟨⟨by decide, by decide⟩,
    restricted_eval_agrees_on_good_dicts "x**2" [("x", Value.int 2)] (Value.int 4)
      (by decide) (by decide)⟩
